import Mathlib

/-!
Shallow embedding of the PABA ("Pointer-Annotated Binary Archive") engine of
the `mila` repository, together with proofs about the claims of its
specification.

Modelling conventions:
* Rust `usize`/`u32`/`u8` values are modelled as `Nat`; where the source
  performs wrapping `u32` arithmetic the embedding takes the result `% 2^32`,
  and byte extraction is done with explicit `% 256`.
* `Vec<u8>` buffers are `List Nat` (callers keep entries below 256; claims
  that depend on byte-validity carry that hypothesis explicitly).
* `HashMap<K, V>` side tables are association lists `List (K × V)`; lookup,
  insert-or-replace, and remove are `mlookup`, `minsert`, `mremove`.  A Rust
  `HashMap` iterates in an unspecified order and every iteration in the
  source is either followed by a sort on a unique key or lands back in a
  `HashMap`, so fixing the list order is sound; properties about the tables
  are stated through `mlookup`.
* `Vec::sort`/`sort_by` is a stable sort and is modelled by the stable
  `List.insertionSort`.
* Fallible Rust functions returning `Result<T, E>` become
  `Except ArchiveError T`.
* `f32` values are carried as their 4-byte bit patterns (a `Nat`); the
  archive only moves them between buffers and never computes with them.
-/

/-- Decidable equality for `Except`, needed to `decide` concrete runs. -/
instance {ε α : Type} [DecidableEq ε] [DecidableEq α] : DecidableEq (Except ε α) := fun x y =>
  match x, y with
  | .ok a, .ok b => if h : a = b then .isTrue (by simp [h]) else .isFalse (by simp [h])
  | .error a, .error b => if h : a = b then .isTrue (by simp [h]) else .isFalse (by simp [h])
  | .ok _, .error _ => .isFalse (by simp)
  | .error _, .ok _ => .isFalse (by simp)

/-- Association-list lookup, the model of `HashMap::get`. -/
def mlookup {κ α : Type} [DecidableEq κ] : List (κ × α) → κ → Option α
  | [], _ => none
  | p :: rest, k => if p.1 = k then some p.2 else mlookup rest k

/-- Association-list insert-or-replace, the model of `HashMap::insert`. -/
def minsert {κ α : Type} [DecidableEq κ] (l : List (κ × α)) (k : κ) (v : α) : List (κ × α) :=
  if (mlookup l k).isSome then l.map (fun p => if p.1 = k then (k, v) else p)
  else l ++ [(k, v)]

/-- Association-list removal, the model of `HashMap::remove`. -/
def mremove {κ α : Type} [DecidableEq κ] (l : List (κ × α)) (k : κ) : List (κ × α) :=
  l.filter (fun p => decide (p.1 ≠ k))

/-- `src/endian_aware_io.rs`: the byte-order tag. -/
inductive Endian : Type
  | Little : Endian
  | Big : Endian
deriving DecidableEq, Repr

/-- `src/errors.rs`: the error enums of the repository, flattened into a
single inductive (the Rust enums embed one another through `#[from]`
conversions; `IOError` stands for any wrapped `std::io::Error`). -/
inductive ArchiveError : Type
  | ComparisonFailure (a b : Nat)
  | SizeMismatch
  | ArchiveTooSmall
  | OutOfBoundsAddress (addr size : Nat)
  | UnalignedValue (value bytes : Nat)
  | LabelIndexOutOfBounds (size idx : Nat)
  | IOError
  | ConversionError
  | UnterminatedString
  | EncodingFailed (s : String)
  | DecodingFailed
  | OtherError (s : String)
deriving DecidableEq, Repr

/-- `Endian::encode_u16`: the two bytes of `value`, in the chosen order. -/
def Endian.encode_u16 (e : Endian) (value : Nat) : List Nat :=
  match e with
  | .Little => [value % 256, value / 256 % 256]
  | .Big => [value / 256 % 256, value % 256]

/-- `Endian::encode_u32`: the four bytes of `value`, in the chosen order. -/
def Endian.encode_u32 (e : Endian) (value : Nat) : List Nat :=
  match e with
  | .Little => [value % 256, value / 256 % 256, value / 65536 % 256, value / 16777216 % 256]
  | .Big => [value / 16777216 % 256, value / 65536 % 256, value / 256 % 256, value % 256]

/-- `Endian::encode_i16`: Rust `i16::to_le_bytes`/`to_be_bytes` encode the
two's-complement residue of the value. -/
def Endian.encode_i16 (e : Endian) (value : Int) : List Nat :=
  e.encode_u16 (value.emod 65536).toNat

/-- `Endian::encode_i32`. -/
def Endian.encode_i32 (e : Endian) (value : Int) : List Nat :=
  e.encode_u32 (value.emod 4294967296).toNat

/-- `Endian::encode_f32`; the `f32` is carried as its 32-bit pattern. -/
def Endian.encode_f32 (e : Endian) (bits : Nat) : List Nat :=
  e.encode_u32 bits

/-- `Endian::decode_u16`: fails with `ConversionError` unless given exactly
two bytes. -/
def Endian.decode_u16 (e : Endian) (bytes : List Nat) : Except ArchiveError Nat :=
  match e, bytes with
  | .Little, [b0, b1] => .ok (b0 + 256 * b1)
  | .Big, [b0, b1] => .ok (b1 + 256 * b0)
  | _, _ => .error .ConversionError

/-- `Endian::decode_u32`: fails with `ConversionError` unless given exactly
four bytes. -/
def Endian.decode_u32 (e : Endian) (bytes : List Nat) : Except ArchiveError Nat :=
  match e, bytes with
  | .Little, [b0, b1, b2, b3] => .ok (b0 + 256 * b1 + 65536 * b2 + 16777216 * b3)
  | .Big, [b0, b1, b2, b3] => .ok (b3 + 256 * b2 + 65536 * b1 + 16777216 * b0)
  | _, _ => .error .ConversionError

/-- `src/encoded_strings.rs` `to_shift_jis`.  The external `encoding_rs`
SHIFT_JIS encoder is modelled on the ASCII plane, where it is the identity
on code points; strings outside that plane are mapped to `EncodingFailed`
(the claims settled here only exercise ASCII values). -/
def to_shift_jis (s : String) : Except ArchiveError (List Nat) :=
  if s.data.all (fun c => c.toNat < 128) then .ok (s.data.map Char.toNat)
  else .error (.EncodingFailed s)

/-- The SHIFT_JIS decoder of `encoding_rs`, modelled on the ASCII plane
where it is the identity; other byte sequences map to `DecodingFailed`. -/
def decode_shift_jis (bytes : List Nat) : Except ArchiveError String :=
  if bytes.all (fun b => b < 128) then .ok ⟨bytes.map Char.ofNat⟩
  else .error .DecodingFailed

/-- `src/bin_archive.rs`: the PABA store.  `f32` cells live inside `data`
as raw bytes, so no field needs a float type. -/
structure BinArchive : Type where
  data : List Nat
  text : List (Nat × String)
  pointers : List (Nat × Nat)
  labels : List (Nat × List String)
  cstrings : List (String × List Nat)
  endian : Endian
deriving DecidableEq, Repr

/-- `BinArchive::new`. -/
def BinArchive.new (endian : Endian) : BinArchive :=
  ⟨[], [], [], [], [], endian⟩

/-- `BinArchive::size`. -/
def BinArchive.size (st : BinArchive) : Nat := st.data.length

/-- `validate_address` (bin_archive.rs line 20). -/
def validate_address (address size : Nat) (end_is_valid : Bool) : Except ArchiveError Unit :=
  if (end_is_valid ∧ address > size) ∨ (¬ end_is_valid ∧ address ≥ size) then
    .error (.OutOfBoundsAddress address size)
  else .ok ()

/-- `validate_alignment` (bin_archive.rs line 28). -/
def validate_alignment (value bytes : Nat) : Except ArchiveError Unit :=
  if value % bytes ≠ 0 then .error (.UnalignedValue value bytes) else .ok ()

/-- `data[address..address+bytes.len()].copy_from_slice(bytes)`; the callers
validate `address + bytes.length ≤ data.length` first. -/
def copyWithin (data : List Nat) (address : Nat) (bytes : List Nat) : List Nat :=
  data.take address ++ bytes ++ data.drop (address + bytes.length)

/-- `BinArchive::read_u8`. -/
def BinArchive.read_u8 (st : BinArchive) (address : Nat) : Except ArchiveError Nat := do
  let _ ← validate_address address st.size false
  pure (st.data.getD address 0)

/-- `BinArchive::read_u16`. -/
def BinArchive.read_u16 (st : BinArchive) (address : Nat) : Except ArchiveError Nat := do
  let _ ← validate_address address st.size false
  let _ ← validate_address (address + 2) st.size true
  st.endian.decode_u16 ((st.data.drop address).take 2)

/-- `BinArchive::read_u32`. -/
def BinArchive.read_u32 (st : BinArchive) (address : Nat) : Except ArchiveError Nat := do
  let _ ← validate_address address st.size false
  let _ ← validate_address (address + 4) st.size true
  st.endian.decode_u32 ((st.data.drop address).take 4)

/-- `BinArchive::read_f32`; the result is the 32-bit pattern of the float
(`from_le_bytes`/`from_be_bytes` preserve the bit pattern). -/
def BinArchive.read_f32 (st : BinArchive) (address : Nat) : Except ArchiveError Nat := do
  let _ ← validate_address address st.size false
  let _ ← validate_address (address + 4) st.size true
  st.endian.decode_u32 ((st.data.drop address).take 4)

/-- `BinArchive::read_bytes`. -/
def BinArchive.read_bytes (st : BinArchive) (address amount : Nat) : Except ArchiveError (List Nat) := do
  let _ ← validate_address address st.size false
  let _ ← validate_address (address + amount) st.size true
  pure ((st.data.drop address).take amount)

/-- `BinArchive::read_string`. -/
def BinArchive.read_string (st : BinArchive) (address : Nat) : Except ArchiveError (Option String) := do
  let _ ← validate_address address st.size false
  let _ ← validate_address (address + 4) st.size true
  pure (mlookup st.text address)

/-- `BinArchive::read_pointer`. -/
def BinArchive.read_pointer (st : BinArchive) (address : Nat) : Except ArchiveError (Option Nat) := do
  let _ ← validate_address address st.size false
  let _ ← validate_address (address + 4) st.size true
  pure (mlookup st.pointers address)

/-- `BinArchive::read_labels`. -/
def BinArchive.read_labels (st : BinArchive) (address : Nat) : Except ArchiveError (Option (List String)) := do
  let _ ← validate_address address st.size false
  let _ ← validate_address (address + 4) st.size true
  pure (mlookup st.labels address)

/-- `BinArchive::delete_string`. -/
def BinArchive.delete_string (st : BinArchive) (address : Nat) : Except ArchiveError BinArchive := do
  let _ ← validate_address address st.size false
  let _ ← validate_address (address + 4) st.size true
  pure { st with text := mremove st.text address }

/-- `BinArchive::delete_pointer`. -/
def BinArchive.delete_pointer (st : BinArchive) (address : Nat) : Except ArchiveError BinArchive := do
  let _ ← validate_address address st.size false
  let _ ← validate_address (address + 4) st.size true
  pure { st with pointers := mremove st.pointers address }

/-- `BinArchive::write_u8`; the `u8` argument is a `Nat` below 256. -/
def BinArchive.write_u8 (st : BinArchive) (address value : Nat) : Except ArchiveError BinArchive := do
  let _ ← validate_address address st.size false
  pure { st with data := st.data.set address value }

/-- `BinArchive::write_i8`. -/
def BinArchive.write_i8 (st : BinArchive) (address : Nat) (value : Int) : Except ArchiveError BinArchive := do
  let _ ← validate_address address st.size false
  pure { st with data := st.data.set address (value.emod 256).toNat }

/-- `BinArchive::write_u16`. -/
def BinArchive.write_u16 (st : BinArchive) (address value : Nat) : Except ArchiveError BinArchive := do
  let _ ← validate_address address st.size false
  let _ ← validate_address (address + 2) st.size true
  pure { st with data := copyWithin st.data address (st.endian.encode_u16 value) }

/-- `BinArchive::write_i16`. -/
def BinArchive.write_i16 (st : BinArchive) (address : Nat) (value : Int) : Except ArchiveError BinArchive := do
  let _ ← validate_address address st.size false
  let _ ← validate_address (address + 2) st.size true
  pure { st with data := copyWithin st.data address (st.endian.encode_i16 value) }

/-- `BinArchive::write_u32`. -/
def BinArchive.write_u32 (st : BinArchive) (address value : Nat) : Except ArchiveError BinArchive := do
  let _ ← validate_address address st.size false
  let _ ← validate_address (address + 4) st.size true
  pure { st with data := copyWithin st.data address (st.endian.encode_u32 value) }

/-- `BinArchive::write_i32`. -/
def BinArchive.write_i32 (st : BinArchive) (address : Nat) (value : Int) : Except ArchiveError BinArchive := do
  let _ ← validate_address address st.size false
  let _ ← validate_address (address + 4) st.size true
  pure { st with data := copyWithin st.data address (st.endian.encode_i32 value) }

/-- `BinArchive::write_f32`; the float argument is its 32-bit pattern. -/
def BinArchive.write_f32 (st : BinArchive) (address bits : Nat) : Except ArchiveError BinArchive := do
  let _ ← validate_address address st.size false
  let _ ← validate_address (address + 4) st.size true
  pure { st with data := copyWithin st.data address (st.endian.encode_f32 bits) }

/-- `BinArchive::write_bytes`. -/
def BinArchive.write_bytes (st : BinArchive) (address : Nat) (bytes : List Nat) : Except ArchiveError BinArchive := do
  let _ ← validate_address address st.size false
  let _ ← validate_address (address + bytes.length) st.size true
  pure { st with data := copyWithin st.data address bytes }

/-- `BinArchive::write_string`. -/
def BinArchive.write_string (st : BinArchive) (address : Nat) (value : Option String) : Except ArchiveError BinArchive :=
  match value with
  | some v => do
      let _ ← validate_address address st.size false
      let _ ← validate_address (address + 4) st.size true
      pure { st with text := minsert st.text address v }
  | none => st.delete_string address

/-- `BinArchive::write_pointer`. -/
def BinArchive.write_pointer (st : BinArchive) (address : Nat) (value : Option Nat) : Except ArchiveError BinArchive :=
  match value with
  | some v => do
      let _ ← validate_address address st.size false
      let _ ← validate_address (address + 4) st.size true
      pure { st with pointers := minsert st.pointers address v }
  | none => st.delete_pointer address

/-- `BinArchive::write_label`: appends to the bucket at `address`, creating
the bucket when absent. -/
def BinArchive.write_label (st : BinArchive) (address : Nat) (label : String) : Except ArchiveError BinArchive := do
  let _ ← validate_address address st.size true
  match mlookup st.labels address with
  | some _ =>
      pure { st with labels := st.labels.map (fun p => if p.1 = address then (p.1, p.2 ++ [label]) else p) }
  | none => pure { st with labels := st.labels ++ [(address, [label])] }

/-- `BinArchive::write_c_string`: stages the value in the `cstrings` table. -/
def BinArchive.write_c_string (st : BinArchive) (address : Nat) (value : String) : Except ArchiveError BinArchive := do
  let _ ← validate_address address st.size false
  let _ ← validate_address (address + 4) st.size true
  match mlookup st.cstrings value with
  | some _ =>
      pure { st with cstrings := st.cstrings.map (fun p => if p.1 = value then (p.1, p.2 ++ [address]) else p) }
  | none => pure { st with cstrings := st.cstrings ++ [(value, [address])] }

/-- `adjust_pointer` (bin_archive.rs line 53). -/
def adjust_pointer (pointer address count : Nat) (subtract : Bool) : Nat :=
  if pointer ≥ address then (if subtract then pointer - count else pointer + count)
  else pointer

/-- The boundary-sensitive shift applied inline to label keys (line 113) and
pointer destinations (line 137): move only strictly above `address`, or also
at `address` when `ge` is set. -/
def adjust_boundary (pointer address count : Nat) (subtract ge : Bool) : Nat :=
  if pointer > address ∨ (pointer ≥ address ∧ ge) then
    (if subtract then pointer - count else pointer + count)
  else pointer

/-- `filter_text_or_labels` (bin_archive.rs line 65): drop entries whose key
lies in `[address, address + count)`. -/
def filter_text_or_labels {α : Type} (map : List (Nat × α)) (address count : Nat) : List (Nat × α) :=
  map.filter (fun p => !(decide (address ≤ p.1 ∧ p.1 < address + count)))

/-- `filter_pointers` (bin_archive.rs line 77): drop entries whose source or
destination lies in `[address, address + count)`. -/
def filter_pointers (map : List (Nat × Nat)) (address count : Nat) : List (Nat × Nat) :=
  map.filter (fun p =>
    !(decide ((address ≤ p.1 ∧ p.1 < address + count) ∨ (address ≤ p.2 ∧ p.2 < address + count))))

/-- `adjust_text` (bin_archive.rs line 89): shift every key with
`adjust_pointer`. -/
def adjust_text {α : Type} (map : List (Nat × α)) (address count : Nat) (subtract : Bool) : List (Nat × α) :=
  map.map (fun p => (adjust_pointer p.1 address count subtract, p.2))

/-- `adjust_labels` (bin_archive.rs line 103): shift every key with the
boundary rule. -/
def adjust_labels {α : Type} (map : List (Nat × α)) (address count : Nat) (subtract ge : Bool) : List (Nat × α) :=
  map.map (fun p => (adjust_boundary p.1 address count subtract ge, p.2))

/-- `adjust_pointers` (bin_archive.rs line 127): shift sources with
`adjust_pointer` and destinations with the boundary rule. -/
def adjust_pointers (map : List (Nat × Nat)) (address count : Nat) (subtract ge : Bool) : List (Nat × Nat) :=
  map.map (fun p => (adjust_pointer p.1 address count subtract,
    adjust_boundary p.2 address count subtract ge))

/-- `BinArchive::allocate_at_end`. -/
def BinArchive.allocate_at_end (st : BinArchive) (amount_in_bytes : Nat) : BinArchive :=
  { st with data := st.data ++ List.replicate amount_in_bytes 0 }

/-- `BinArchive::allocate`. -/
def BinArchive.allocate (st : BinArchive) (address amount_in_bytes : Nat) (ge : Bool) :
    Except ArchiveError BinArchive := do
  let _ ← validate_address address st.size true
  let _ ← validate_alignment address 4
  let _ ← validate_alignment amount_in_bytes 4
  pure { st with
    data := st.data.take address ++ List.replicate amount_in_bytes 0 ++ st.data.drop address,
    text := adjust_text st.text address amount_in_bytes false,
    labels := adjust_labels st.labels address amount_in_bytes false ge,
    pointers := adjust_pointers st.pointers address amount_in_bytes false ge }

/-- `BinArchive::deallocate`. -/
def BinArchive.deallocate (st : BinArchive) (address amount_in_bytes : Nat) (ge : Bool) :
    Except ArchiveError BinArchive := do
  let _ ← validate_address address st.size false
  let _ ← validate_address (address + amount_in_bytes) st.size true
  let _ ← validate_alignment address 4
  let _ ← validate_alignment amount_in_bytes 4
  pure { st with
    data := st.data.take address ++ st.data.drop (address + amount_in_bytes),
    text := adjust_text (filter_text_or_labels st.text address amount_in_bytes)
      address amount_in_bytes true,
    labels := adjust_labels (filter_text_or_labels st.labels address amount_in_bytes)
      address amount_in_bytes true ge,
    pointers := adjust_pointers (filter_pointers st.pointers address amount_in_bytes)
      address amount_in_bytes true ge }

/-- `BinArchive::truncate`: drops the byte tail and removes side-table keys
at `address, address+4, address+8, …` below the old length (the source walks
`(address..len).step_by(4)`). -/
def BinArchive.truncate (st : BinArchive) (address : Nat) : Except ArchiveError BinArchive :=
  if address ≥ st.data.length then .ok st
  else
    .ok { st with
      data := st.data.take address,
      text := st.text.filter (fun p =>
        !(decide (address ≤ p.1 ∧ p.1 < st.data.length ∧ (p.1 - address) % 4 = 0))),
      labels := st.labels.filter (fun p =>
        !(decide (address ≤ p.1 ∧ p.1 < st.data.length ∧ (p.1 - address) % 4 = 0))),
      pointers := st.pointers.filter (fun p =>
        !(decide (address ≤ p.1 ∧ p.1 < st.data.length ∧ (p.1 - address) % 4 = 0))) }

/-- `src/bin_streams.rs`: the writer is a store plus a cursor position. -/
structure BinArchiveWriter : Type where
  archive : BinArchive
  position : Nat
deriving DecidableEq, Repr

/-- `BinArchiveWriter::allocate`: extend at the end when the cursor sits
exactly there, otherwise insert at the cursor.  The source calls a
two-argument `BinArchive::allocate` from an earlier revision of the store;
the boundary flag it implied is passed through as `ge` here (no property
proved below depends on its value). -/
def BinArchiveWriter.allocate (w : BinArchiveWriter) (amount : Nat) (ge : Bool) :
    Except ArchiveError BinArchiveWriter :=
  if w.position = w.archive.size then .ok { w with archive := w.archive.allocate_at_end amount }
  else do
    let a ← w.archive.allocate w.position amount ge
    pure { w with archive := a }

/-- Unfolding `Except` bind against a successful result. -/
theorem exceptBind_ok {α β : Type} {m : Except ArchiveError α} {f : α → Except ArchiveError β}
    {b : β} : (m >>= f) = Except.ok b ↔ ∃ a, m = Except.ok a ∧ f a = Except.ok b := by
  cases m <;> simp [Bind.bind, Except.bind]

/-- Unfolding `Except` pure against a successful result. -/
theorem exceptPure_ok {α : Type} {x b : α} :
    (pure x : Except ArchiveError α) = Except.ok b ↔ x = b := by
  simp [pure, Except.pure]

/-- Success characterisation of `validate_address`. -/
theorem validate_address_ok {a s : Nat} {e : Bool} {u : Unit} :
    validate_address a s e = Except.ok u ↔ (if e then a ≤ s else a < s) := by
  cases e
  · simp [validate_address]
  · simp [validate_address]

/-- Success characterisation of `validate_alignment`. -/
theorem validate_alignment_ok {v b : Nat} {u : Unit} :
    validate_alignment v b = Except.ok u ↔ v % b = 0 := by
  unfold validate_alignment
  split <;> simp_all

/-- `copyWithin` preserves the buffer length when the write fits. -/
theorem copyWithin_length {data : List Nat} {a : Nat} {bs : List Nat}
    (h : a + bs.length ≤ data.length) : (copyWithin data a bs).length = data.length := by
  simp [copyWithin]
  omega

/-- `copyWithin` leaves bytes outside `[a, a + bs.length)` unchanged. -/
theorem copyWithin_getD_outside {data : List Nat} {a : Nat} {bs : List Nat}
    (h : a + bs.length ≤ data.length) (i : Nat) (hi : i < a ∨ a + bs.length ≤ i) :
    (copyWithin data a bs).getD i 0 = data.getD i 0 := by
  have hta : (data.take a).length = a := by simp; omega
  rw [List.getD_eq_getElem?_getD, List.getD_eq_getElem?_getD, copyWithin, List.append_assoc,
    List.getElem?_append]
  rw [hta]
  rcases hi with hi | hi
  · rw [if_pos (by omega), List.getElem?_take, if_pos (by omega)]
  · rw [if_neg (by omega), List.getElem?_append_right (by omega)]
    simp only [List.length_cons, List.getElem?_drop]
    have hidx : a + bs.length + (i - a - bs.length) = i := by omega
    rw [hidx]

/-- Frame property of a store operation: on success, all four side tables,
the endian tag, and the data length are unchanged, and every data byte
outside `[lo, hi)` is unchanged. -/
def FramePreserved (st : BinArchive) (r : Except ArchiveError BinArchive) (lo hi : Nat) : Prop :=
  ∀ st', r = Except.ok st' →
    st'.text = st.text ∧ st'.pointers = st.pointers ∧ st'.labels = st.labels ∧
    st'.cstrings = st.cstrings ∧ st'.endian = st.endian ∧
    st'.data.length = st.data.length ∧
    ∀ i, i < lo ∨ hi ≤ i → st'.data.getD i 0 = st.data.getD i 0

/-- Operations that rewrite a validated slice of `data` preserve the frame. -/
theorem framePreserved_copy (st : BinArchive) (lo : Nat) (bs : List Nat)
    (r : Except ArchiveError BinArchive)
    (hr : ∀ st', r = Except.ok st' →
      lo + bs.length ≤ st.data.length ∧ st' = { st with data := copyWithin st.data lo bs }) :
    FramePreserved st r lo (lo + bs.length) := by
  intro st' h
  obtain ⟨hle, rfl⟩ := hr st' h
  exact ⟨rfl, rfl, rfl, rfl, rfl, copyWithin_length hle,
    fun i hi => copyWithin_getD_outside hle i hi⟩

/-- Operations that set a single validated byte of `data` preserve the frame. -/
theorem framePreserved_set (st : BinArchive) (lo v : Nat)
    (r : Except ArchiveError BinArchive)
    (hr : ∀ st', r = Except.ok st' → st' = { st with data := st.data.set lo v }) :
    FramePreserved st r lo (lo + 1) := by
  intro st' h
  obtain rfl := hr st' h
  refine ⟨rfl, rfl, rfl, rfl, rfl, List.length_set .., ?_⟩
  intro i hi
  rw [List.getD_eq_getElem?_getD, List.getD_eq_getElem?_getD,
    List.getElem?_set_ne (by omega)]

/-- `Endian.encode_u16` always yields two bytes. -/
theorem encode_u16_length (e : Endian) (v : Nat) : (e.encode_u16 v).length = 2 := by
  cases e <;> rfl

/-- `Endian.encode_u32` always yields four bytes. -/
theorem encode_u32_length (e : Endian) (v : Nat) : (e.encode_u32 v).length = 4 := by
  cases e <;> rfl

/-- C10: every typed scalar or byte write on a `BinArchive` (`write_u8`,
`write_i8`, `write_u16`, `write_i16`, `write_u32`, `write_i32`, `write_f32`,
`write_bytes`) leaves the `text`, `pointers`, `labels`, and `cstrings` side
tables, the endian tag, and the data length unchanged, and on success
modifies only the addressed bytes of `data`.  (On validation failure the
operation returns an error and, the embedding being functional, the store is
trivially untouched; in the source all validation precedes any mutation.) -/
theorem typed_writes_preserve_frame (st : BinArchive) (address value bits : Nat)
    (ivalue : Int) (bytes : List Nat) :
    FramePreserved st (st.write_u8 address value) address (address + 1) ∧
    FramePreserved st (st.write_i8 address ivalue) address (address + 1) ∧
    FramePreserved st (st.write_u16 address value) address (address + 2) ∧
    FramePreserved st (st.write_i16 address ivalue) address (address + 2) ∧
    FramePreserved st (st.write_u32 address value) address (address + 4) ∧
    FramePreserved st (st.write_i32 address ivalue) address (address + 4) ∧
    FramePreserved st (st.write_f32 address bits) address (address + 4) ∧
    FramePreserved st (st.write_bytes address bytes) address (address + bytes.length) := by
  refine ⟨?_, ?_, ?_, ?_, ?_, ?_, ?_, ?_⟩
  · apply framePreserved_set
    intro st' h
    simp only [BinArchive.write_u8, exceptBind_ok, exceptPure_ok, validate_address_ok,
      if_true, if_false] at h
    obtain ⟨_, h1, h2⟩ := h
    exact h2.symm
  · apply framePreserved_set
    intro st' h
    simp only [BinArchive.write_i8, exceptBind_ok, exceptPure_ok, validate_address_ok,
      if_true, if_false] at h
    obtain ⟨_, h1, h2⟩ := h
    exact h2.symm
  · have hf : FramePreserved st (st.write_u16 address value)
        address (address + (st.endian.encode_u16 value).length) := by
      apply framePreserved_copy
      intro st' h
      simp only [BinArchive.write_u16, exceptBind_ok, exceptPure_ok, validate_address_ok,
        if_true, if_false] at h
      obtain ⟨_, h1, _, h2, h3⟩ := h
      exact ⟨by simpa [BinArchive.size, encode_u16_length] using h2, h3.symm⟩
    simpa [encode_u16_length] using hf
  · have hf : FramePreserved st (st.write_i16 address ivalue)
        address (address + (st.endian.encode_i16 ivalue).length) := by
      apply framePreserved_copy
      intro st' h
      simp only [BinArchive.write_i16, exceptBind_ok, exceptPure_ok, validate_address_ok,
        if_true, if_false] at h
      obtain ⟨_, h1, _, h2, h3⟩ := h
      exact ⟨by simpa [BinArchive.size, Endian.encode_i16, encode_u16_length] using h2, h3.symm⟩
    simpa [Endian.encode_i16, encode_u16_length] using hf
  · have hf : FramePreserved st (st.write_u32 address value)
        address (address + (st.endian.encode_u32 value).length) := by
      apply framePreserved_copy
      intro st' h
      simp only [BinArchive.write_u32, exceptBind_ok, exceptPure_ok, validate_address_ok,
        if_true, if_false] at h
      obtain ⟨_, h1, _, h2, h3⟩ := h
      exact ⟨by simpa [BinArchive.size, encode_u32_length] using h2, h3.symm⟩
    simpa [encode_u32_length] using hf
  · have hf : FramePreserved st (st.write_i32 address ivalue)
        address (address + (st.endian.encode_i32 ivalue).length) := by
      apply framePreserved_copy
      intro st' h
      simp only [BinArchive.write_i32, exceptBind_ok, exceptPure_ok, validate_address_ok,
        if_true, if_false] at h
      obtain ⟨_, h1, _, h2, h3⟩ := h
      exact ⟨by simpa [BinArchive.size, Endian.encode_i32, encode_u32_length] using h2, h3.symm⟩
    simpa [Endian.encode_i32, encode_u32_length] using hf
  · have hf : FramePreserved st (st.write_f32 address bits)
        address (address + (st.endian.encode_f32 bits).length) := by
      apply framePreserved_copy
      intro st' h
      simp only [BinArchive.write_f32, exceptBind_ok, exceptPure_ok, validate_address_ok,
        if_true, if_false] at h
      obtain ⟨_, h1, _, h2, h3⟩ := h
      exact ⟨by simpa [BinArchive.size, Endian.encode_f32, encode_u32_length] using h2, h3.symm⟩
    simpa [Endian.encode_f32, encode_u32_length] using hf
  · apply framePreserved_copy
    intro st' h
    simp only [BinArchive.write_bytes, exceptBind_ok, exceptPure_ok, validate_address_ok,
      if_true, if_false] at h
    obtain ⟨_, h1, _, h2, h3⟩ := h
    exact ⟨by simpa [BinArchive.size] using h2, h3.symm⟩

/-- Witness for C10: a concrete successful `write_u8` exercising the frame
theorem. -/
theorem typed_writes_preserve_frame_witness :
    (⟨[1, 2, 3, 4, 5, 6, 7, 8], [(0, "t")], [(4, 9)], [(4, ["L"])], [("c", [0])],
        .Little⟩ : BinArchive).write_u8 4 7 =
      Except.ok (⟨[1, 2, 3, 4, 7, 6, 7, 8], [(0, "t")], [(4, 9)], [(4, ["L"])], [("c", [0])],
        .Little⟩ : BinArchive) ∧
    (⟨[1, 2, 3, 4, 7, 6, 7, 8], [(0, "t")], [(4, 9)], [(4, ["L"])], [("c", [0])],
        .Little⟩ : BinArchive).text =
      (⟨[1, 2, 3, 4, 5, 6, 7, 8], [(0, "t")], [(4, 9)], [(4, ["L"])], [("c", [0])],
        .Little⟩ : BinArchive).text := by
  constructor
  · decide
  · exact ((typed_writes_preserve_frame
      ⟨[1, 2, 3, 4, 5, 6, 7, 8], [(0, "t")], [(4, 9)], [(4, ["L"])], [("c", [0])], .Little⟩
      4 7 0 0 []).1
      ⟨[1, 2, 3, 4, 7, 6, 7, 8], [(0, "t")], [(4, 9)], [(4, ["L"])], [("c", [0])], .Little⟩
      (by decide)).1

/-- Success characterisation of `BinArchive::allocate`. -/
theorem allocate_ok_iff {st : BinArchive} {a n : Nat} {ge : Bool} {st' : BinArchive} :
    st.allocate a n ge = Except.ok st' ↔
      a ≤ st.data.length ∧ a % 4 = 0 ∧ n % 4 = 0 ∧
      st' = { st with
        data := st.data.take a ++ List.replicate n 0 ++ st.data.drop a,
        text := adjust_text st.text a n false,
        labels := adjust_labels st.labels a n false ge,
        pointers := adjust_pointers st.pointers a n false ge } := by
  unfold BinArchive.allocate
  simp only [exceptBind_ok, exceptPure_ok, validate_address_ok, validate_alignment_ok, if_true]
  constructor
  · rintro ⟨_, h1, _, h2, _, h3, h4⟩
    exact ⟨by simpa [BinArchive.size] using h1, h2, h3, h4.symm⟩
  · rintro ⟨h1, h2, h3, rfl⟩
    exact ⟨(), by simpa [BinArchive.size] using h1, (), h2, (), h3, rfl⟩

/-- Success characterisation of `BinArchive::deallocate`. -/
theorem deallocate_ok_iff {st : BinArchive} {a n : Nat} {ge : Bool} {st' : BinArchive} :
    st.deallocate a n ge = Except.ok st' ↔
      a < st.data.length ∧ a + n ≤ st.data.length ∧ a % 4 = 0 ∧ n % 4 = 0 ∧
      st' = { st with
        data := st.data.take a ++ st.data.drop (a + n),
        text := adjust_text (filter_text_or_labels st.text a n) a n true,
        labels := adjust_labels (filter_text_or_labels st.labels a n) a n true ge,
        pointers := adjust_pointers (filter_pointers st.pointers a n) a n true ge } := by
  unfold BinArchive.deallocate
  simp only [exceptBind_ok, exceptPure_ok, validate_address_ok, validate_alignment_ok,
    if_true, if_false]
  constructor
  · rintro ⟨_, h1, _, h2, _, h3, _, h4, h5⟩
    exact ⟨by simpa [BinArchive.size] using h1, by simpa [BinArchive.size] using h2, h3, h4,
      h5.symm⟩
  · rintro ⟨h1, h2, h3, h4, rfl⟩
    exact ⟨(), by simpa [BinArchive.size] using h1, (), by simpa [BinArchive.size] using h2,
      (), h3, (), h4, rfl⟩

/-- C7 (amended): `allocate` and `deallocate` preserve 4-divisibility of the
data length whenever they succeed, as does the writer's `allocate` at a
cursor strictly inside the data; `allocate_at_end` (hence also the writer's
`allocate` with the cursor at the end) and `truncate` preserve it only when
the amount, respectively the truncation address, is itself a multiple of 4
(or the address is past the end).  The original claim fails for
`allocate_at_end`, writer-at-end allocation, and `truncate`, which perform
no alignment validation. -/
theorem structural_mutations_alignment (st : BinArchive) :
    (∀ a n ge st', st.allocate a n ge = Except.ok st' →
        4 ∣ st.data.length → 4 ∣ st'.data.length) ∧
    (∀ a n ge st', st.deallocate a n ge = Except.ok st' →
        4 ∣ st.data.length → 4 ∣ st'.data.length) ∧
    (∀ (w : BinArchiveWriter) (amt : Nat) (ge : Bool) (w' : BinArchiveWriter),
        w.position ≠ w.archive.size → w.allocate amt ge = Except.ok w' →
        4 ∣ w.archive.data.length → 4 ∣ w'.archive.data.length) ∧
    (∀ amt, 4 ∣ amt → 4 ∣ st.data.length → 4 ∣ (st.allocate_at_end amt).data.length) ∧
    (∀ a st', st.truncate a = Except.ok st' → (4 ∣ a ∨ st.data.length ≤ a) →
        4 ∣ st.data.length → 4 ∣ st'.data.length) := by
  have halloc : ∀ (s : BinArchive) a n ge st', s.allocate a n ge = Except.ok st' →
      4 ∣ s.data.length → 4 ∣ st'.data.length := by
    intro s a n ge st' h hdiv
    obtain ⟨hle, ha, hn, rfl⟩ := allocate_ok_iff.mp h
    simp only [List.length_append, List.length_take, List.length_replicate, List.length_drop]
    omega
  refine ⟨fun a n ge st' h => halloc st a n ge st' h, ?_, ?_, ?_, ?_⟩
  · intro a n ge st' h hdiv
    obtain ⟨h1, h2, ha, hn, rfl⟩ := deallocate_ok_iff.mp h
    simp only [List.length_append, List.length_take, List.length_drop]
    omega
  · intro w amt ge w' hpos h hdiv
    unfold BinArchiveWriter.allocate at h
    rw [if_neg hpos] at h
    simp only [exceptBind_ok, exceptPure_ok] at h
    obtain ⟨a, ha, h2⟩ := h
    have := halloc w.archive w.position amt ge a ha hdiv
    rw [← h2]
    exact this
  · intro amt hamt hdiv
    simp only [BinArchive.allocate_at_end, List.length_append, List.length_replicate]
    omega
  · intro a st' h hcond hdiv
    unfold BinArchive.truncate at h
    split at h
    · obtain rfl := (by simpa using h : st = st')
      exact hdiv
    · obtain rfl := (by simpa using h :
        ({ st with
          data := st.data.take a,
          text := st.text.filter (fun p =>
            !(decide (a ≤ p.1 ∧ p.1 < st.data.length ∧ (p.1 - a) % 4 = 0))),
          labels := st.labels.filter (fun p =>
            !(decide (a ≤ p.1 ∧ p.1 < st.data.length ∧ (p.1 - a) % 4 = 0))),
          pointers := st.pointers.filter (fun p =>
            !(decide (a ≤ p.1 ∧ p.1 < st.data.length ∧ (p.1 - a) % 4 = 0))) } : BinArchive) = st')
      simp only [List.length_take]
      rcases hcond with hc | hc
      · omega
      · omega

/-- Counterexample for C7 as stated: `allocate_at_end 1` succeeds on a store
whose data length (0) is a multiple of 4 and leaves a data length of 1,
which is not a multiple of 4. -/
theorem structural_mutations_alignment_counterexample :
    ((⟨[], [], [], [], [], .Little⟩ : BinArchive).allocate_at_end 1).data.length = 1 ∧
    ¬ (4 ∣ ((⟨[], [], [], [], [], .Little⟩ : BinArchive).allocate_at_end 1).data.length) ∧
    4 ∣ (⟨[], [], [], [], [], .Little⟩ : BinArchive).data.length := by
  refine ⟨rfl, ?_, ⟨0, rfl⟩⟩
  have hlen : ((⟨[], [], [], [], [], .Little⟩ : BinArchive).allocate_at_end 1).data.length = 1 :=
    rfl
  rw [hlen]
  decide

/-- Witness for C7: a concrete successful aligned `allocate`. -/
theorem structural_mutations_alignment_witness :
    (⟨[0, 0, 0, 0], [], [], [], [], .Little⟩ : BinArchive).allocate 0 4 false =
      Except.ok (⟨[0, 0, 0, 0, 0, 0, 0, 0], [], [], [], [], .Little⟩ : BinArchive) ∧
    4 ∣ (⟨[0, 0, 0, 0, 0, 0, 0, 0], [], [], [], [], .Little⟩ : BinArchive).data.length := by
  constructor
  · decide
  · exact (structural_mutations_alignment ⟨[0, 0, 0, 0], [], [], [], [], .Little⟩).1
      0 4 false ⟨[0, 0, 0, 0, 0, 0, 0, 0], [], [], [], [], .Little⟩ (by decide) (by decide)

/-- Looking up a mapped association list along an injective key transform. -/
theorem mlookup_map_keys {κ α β : Type} [DecidableEq κ] {f : κ → κ} (g : α → β)
    (hf : Function.Injective f) (l : List (κ × α)) (k : κ) :
    mlookup (l.map fun p => (f p.1, g p.2)) (f k) = (mlookup l k).map g := by
  induction l with
  | nil => rfl
  | cons p rest ih =>
      simp only [List.map_cons, mlookup]
      by_cases h : p.1 = k
      · rw [if_pos (by rw [h]), if_pos h]
        rfl
      · rw [if_neg (fun hc => h (hf hc)), if_neg h, ih]

/-- A key outside the range of the key transform is absent from the mapped
association list. -/
theorem mlookup_map_keys_none {κ α β : Type} [DecidableEq κ] {f : κ → κ} (g : α → β)
    (l : List (κ × α)) (k' : κ) (h : ∀ j, f j ≠ k') :
    mlookup (l.map fun p => (f p.1, g p.2)) k' = none := by
  induction l with
  | nil => rfl
  | cons p rest ih =>
      simp only [List.map_cons, mlookup]
      rw [if_neg (h p.1), ih]

/-- The insertion-direction `adjust_pointer` shift is injective. -/
theorem adjust_pointer_insert_injective (a n : Nat) :
    Function.Injective (fun k => adjust_pointer k a n false) := by
  intro x y h
  simp only [adjust_pointer, Bool.false_eq_true, if_false] at h
  split at h <;> split at h <;> omega

/-- The insertion-direction boundary shift is injective. -/
theorem adjust_boundary_insert_injective (a n : Nat) (ge : Bool) :
    Function.Injective (fun k => adjust_boundary k a n false ge) := by
  cases ge <;>
    · intro x y h
      simp only [adjust_boundary, Bool.false_eq_true, if_false, and_false, and_true,
        or_false] at h
      split at h <;> split at h <;> omega

/-- C2 (amended): `allocate(a, n, ge)` inserts `n` zero bytes at `a`.  Text
keys and pointer *source* keys are shifted by `+n` whenever they are
greater *or equal* to `a`, regardless of `ge`; label keys and pointer
*destinations* are shifted when strictly greater than `a`, or also at `a`
when `ge` is set.  No table gains or loses entries (values are unchanged,
destinations aside), nothing maps into the fresh window, and `cstrings` and
the endian tag are untouched.  The original claim — all keys move only when
strictly greater than `a` unless `ge` — fails for text and pointer-source
keys exactly at `a`. -/
theorem allocate_rewrites_tables (st : BinArchive) (a n : Nat) (ge : Bool) (st' : BinArchive)
    (h : st.allocate a n ge = Except.ok st') :
    st'.data = st.data.take a ++ List.replicate n 0 ++ st.data.drop a ∧
    (∀ k, mlookup st'.text (adjust_pointer k a n false) = mlookup st.text k) ∧
    (∀ k', (∀ k, adjust_pointer k a n false ≠ k') → mlookup st'.text k' = none) ∧
    (∀ k, a ≤ k → k < a + n → mlookup st'.text k = none) ∧
    (∀ k, mlookup st'.labels (adjust_boundary k a n false ge) = mlookup st.labels k) ∧
    (∀ k', (∀ k, adjust_boundary k a n false ge ≠ k') → mlookup st'.labels k' = none) ∧
    (∀ k, mlookup st'.pointers (adjust_pointer k a n false) =
        (mlookup st.pointers k).map (fun d => adjust_boundary d a n false ge)) ∧
    (∀ k', (∀ k, adjust_pointer k a n false ≠ k') → mlookup st'.pointers k' = none) ∧
    st'.cstrings = st.cstrings ∧ st'.endian = st.endian := by
  obtain ⟨hle, ha, hn, rfl⟩ := allocate_ok_iff.mp h
  refine ⟨rfl, ?_, ?_, ?_, ?_, ?_, ?_, ?_, rfl, rfl⟩
  · intro k
    simpa [adjust_text] using mlookup_map_keys id (adjust_pointer_insert_injective a n) st.text k
  · intro k' hk'
    simpa [adjust_text] using mlookup_map_keys_none id st.text k' hk'
  · intro k hk1 hk2
    have : ∀ j, adjust_pointer j a n false ≠ k := by
      intro j
      simp only [adjust_pointer, Bool.false_eq_true, if_false]
      split <;> omega
    simpa [adjust_text] using mlookup_map_keys_none id st.text k this
  · intro k
    simpa [adjust_labels] using
      mlookup_map_keys id (adjust_boundary_insert_injective a n ge) st.labels k
  · intro k' hk'
    simpa [adjust_labels] using mlookup_map_keys_none id st.labels k' hk'
  · intro k
    simpa [adjust_pointers] using mlookup_map_keys (fun d => adjust_boundary d a n false ge)
      (adjust_pointer_insert_injective a n) st.pointers k
  · intro k' hk'
    simpa [adjust_pointers] using
      mlookup_map_keys_none (fun d => adjust_boundary d a n false ge) st.pointers k' hk'

/-- Counterexample for C2 as stated: with `ge = false`, a text annotation at
exactly the allocation address is shifted by `+n`, although its key is not
strictly greater than the address. -/
theorem allocate_rewrites_tables_counterexample :
    (⟨[0, 0, 0, 0], [(0, "X")], [], [], [], .Little⟩ : BinArchive).allocate 0 4 false =
      Except.ok (⟨[0, 0, 0, 0, 0, 0, 0, 0], [(4, "X")], [], [], [], .Little⟩ : BinArchive) ∧
    mlookup ([(4, "X")] : List (Nat × String)) 0 = none ∧
    mlookup ([(4, "X")] : List (Nat × String)) 4 = some "X" := by
  decide

/-- Witness for C2: a concrete allocation exercising all three shift rules. -/
theorem allocate_rewrites_tables_witness :
    ∃ st',
      (⟨[0, 0, 0, 0], [(0, "X")], [(0, 4)], [(0, ["L"])], [], .Little⟩ : BinArchive).allocate
        0 4 false = Except.ok st' ∧
      mlookup st'.text 4 = some "X" ∧ mlookup st'.labels 0 = some ["L"] ∧
      mlookup st'.pointers 4 = some 8 := by
  have h := allocate_rewrites_tables
    ⟨[0, 0, 0, 0], [(0, "X")], [(0, 4)], [(0, ["L"])], [], .Little⟩ 0 4 false
    ⟨[0, 0, 0, 0, 0, 0, 0, 0], [(4, "X")], [(4, 8)], [(0, ["L"])], [], .Little⟩ (by decide)
  refine ⟨⟨[0, 0, 0, 0, 0, 0, 0, 0], [(4, "X")], [(4, 8)], [(0, ["L"])], [], .Little⟩,
    by decide, ?_, ?_, ?_⟩
  · exact (h.2.1 0).trans (by decide)
  · exact (h.2.2.2.2.1 0).trans (by decide)
  · exact (h.2.2.2.2.2.2.1 0).trans (by decide)

/-- Removing `n` after inserting `n` restores any `adjust_pointer`-shifted
key. -/
theorem adjust_pointer_roundtrip (k a n : Nat) :
    adjust_pointer (adjust_pointer k a n false) a n true = k := by
  by_cases h1 : k ≥ a
  · have e1 : adjust_pointer k a n false = k + n := by
      unfold adjust_pointer
      rw [if_pos h1]
      simp
    rw [e1]
    unfold adjust_pointer
    rw [if_pos (show k + n ≥ a by omega)]
    simp
  · have e1 : adjust_pointer k a n false = k := by
      unfold adjust_pointer
      rw [if_neg h1]
    rw [e1]
    unfold adjust_pointer
    rw [if_neg h1]

/-- Removing `n` after inserting `n` restores any boundary-shifted key. -/
theorem adjust_boundary_roundtrip (k a n : Nat) (ge : Bool) :
    adjust_boundary (adjust_boundary k a n false ge) a n true ge = k := by
  by_cases h1 : k > a ∨ (k ≥ a ∧ ge = true)
  · have e1 : adjust_boundary k a n false ge = k + n := by
      unfold adjust_boundary
      rw [if_pos h1]
      simp
    rw [e1]
    have h2 : k + n > a ∨ (k + n ≥ a ∧ ge = true) := by
      rcases h1 with h | ⟨h, hg⟩
      · exact Or.inl (by omega)
      · exact Or.inr ⟨by omega, hg⟩
    unfold adjust_boundary
    rw [if_pos h2]
    simp
  · have e1 : adjust_boundary k a n false ge = k := by
      unfold adjust_boundary
      rw [if_neg h1]
    rw [e1]
    unfold adjust_boundary
    rw [if_neg h1]

/-- A key is absent from an association list iff no entry carries it. -/
theorem mlookup_eq_none {κ α : Type} [DecidableEq κ] {l : List (κ × α)} {k : κ} :
    mlookup l k = none ↔ ∀ p ∈ l, p.1 ≠ k := by
  induction l with
  | nil => simp [mlookup]
  | cons p rest ih =>
      simp only [mlookup, List.mem_cons]
      by_cases h : p.1 = k
      · simp [h]
      · simp [h, ih]

/-- C3 (amended): `deallocate(a, n, ge)` undoes `allocate(a, n, ge)` exactly —
data and all side tables return to their previous state — provided the
window is non-degenerate (`0 < n`, or the allocation was strictly inside the
data) and the boundary is safe: either `ge = true`, or no label bucket and
no pointer destination sits exactly at `a`.  The original unconditional
claim fails with `ge = false` for a label at exactly `a`: `allocate` leaves
it at `a`, and `deallocate` then drops it with the window. -/
theorem deallocate_inverts_allocate (st : BinArchive) (a n : Nat) (ge : Bool)
    (st₁ : BinArchive) (halloc : st.allocate a n ge = Except.ok st₁)
    (hwin : 0 < n ∨ a < st.data.length)
    (hsafe : ge = true ∨ (mlookup st.labels a = none ∧ ∀ p ∈ st.pointers, p.2 ≠ a)) :
    st₁.deallocate a n ge = Except.ok st := by
  obtain ⟨hle, ha, hn, rfl⟩ := allocate_ok_iff.mp halloc
  have htake : (st.data.take a).length = a := by simp; omega
  have hfront : (st.data.take a ++ List.replicate n 0).length = a + n := by simp; omega
  rw [deallocate_ok_iff]
  have hdata :
      (st.data.take a ++ List.replicate n 0 ++ st.data.drop a).take a ++
        (st.data.take a ++ List.replicate n 0 ++ st.data.drop a).drop (a + n) = st.data := by
    rw [List.append_assoc]
    rw [List.take_left' htake]
    rw [← List.append_assoc, List.drop_left' hfront, List.take_append_drop]
  have htext :
      adjust_text (filter_text_or_labels (adjust_text st.text a n false) a n) a n true
        = st.text := by
    have hfilter : filter_text_or_labels (adjust_text st.text a n false) a n
        = adjust_text st.text a n false := by
      apply List.filter_eq_self.mpr
      intro p hp
      obtain ⟨q, hq, rfl⟩ := List.mem_map.mp hp
      simp only [Bool.not_eq_eq_eq_not, Bool.not_true, decide_eq_false_iff_not]
      unfold adjust_pointer
      simp only [Bool.false_eq_true, if_false]
      split <;> omega
    rw [hfilter]
    unfold adjust_text
    rw [List.map_map]
    have : ∀ p ∈ st.text, ((fun p => (adjust_pointer p.1 a n true, p.2)) ∘
        fun p => (adjust_pointer p.1 a n false, p.2)) p = p := by
      intro p _
      simp [adjust_pointer_roundtrip]
    rw [List.map_congr_left this]
    simp
  have hlabels :
      adjust_labels (filter_text_or_labels (adjust_labels st.labels a n false ge) a n)
        a n true ge = st.labels := by
    have hfilter : filter_text_or_labels (adjust_labels st.labels a n false ge) a n
        = adjust_labels st.labels a n false ge := by
      apply List.filter_eq_self.mpr
      intro p hp
      obtain ⟨q, hq, rfl⟩ := List.mem_map.mp hp
      simp only [Bool.not_eq_eq_eq_not, Bool.not_true, decide_eq_false_iff_not]
      unfold adjust_boundary
      simp only [Bool.false_eq_true, if_false]
      split
      · rename_i hcond
        have hge2 : q.1 ≥ a := by
          rcases hcond with h | ⟨h, _⟩ <;> omega
        omega
      · rename_i hcond
        have hlt : ¬ q.1 > a := fun hgt => hcond (Or.inl hgt)
        rcases hsafe with hge | ⟨hlab, _⟩
        · subst hge
          have hlt2 : ¬ q.1 ≥ a := fun hge2 => hcond (Or.inr ⟨hge2, rfl⟩)
          omega
        · have hne : q.1 ≠ a := mlookup_eq_none.mp hlab q hq
          omega
    rw [hfilter]
    unfold adjust_labels
    rw [List.map_map]
    have : ∀ p ∈ st.labels, ((fun p => (adjust_boundary p.1 a n true ge, p.2)) ∘
        fun p => (adjust_boundary p.1 a n false ge, p.2)) p = p := by
      intro p _
      simp [adjust_boundary_roundtrip]
    rw [List.map_congr_left this]
    simp
  have hpointers :
      adjust_pointers (filter_pointers (adjust_pointers st.pointers a n false ge) a n)
        a n true ge = st.pointers := by
    have hfilter : filter_pointers (adjust_pointers st.pointers a n false ge) a n
        = adjust_pointers st.pointers a n false ge := by
      apply List.filter_eq_self.mpr
      intro p hp
      obtain ⟨q, hq, rfl⟩ := List.mem_map.mp hp
      simp only [Bool.not_eq_eq_eq_not, Bool.not_true, decide_eq_false_iff_not, not_or]
      constructor
      · unfold adjust_pointer
        simp only [Bool.false_eq_true, if_false]
        split <;> omega
      · unfold adjust_boundary
        simp only [Bool.false_eq_true, if_false]
        split
        · rename_i hcond
          have hge2 : q.2 ≥ a := by
            rcases hcond with h | ⟨h, _⟩ <;> omega
          omega
        · rename_i hcond
          have hlt : ¬ q.2 > a := fun hgt => hcond (Or.inl hgt)
          rcases hsafe with hge | ⟨_, hdest⟩
          · subst hge
            have hlt2 : ¬ q.2 ≥ a := fun hge2 => hcond (Or.inr ⟨hge2, rfl⟩)
            omega
          · have hne : q.2 ≠ a := hdest q hq
            omega
    rw [hfilter]
    unfold adjust_pointers
    rw [List.map_map]
    have : ∀ p ∈ st.pointers,
        ((fun p => (adjust_pointer p.1 a n true, adjust_boundary p.2 a n true ge)) ∘
          fun p => (adjust_pointer p.1 a n false, adjust_boundary p.2 a n false ge)) p = p := by
      intro p _
      simp [adjust_pointer_roundtrip, adjust_boundary_roundtrip]
    rw [List.map_congr_left this]
    simp
  refine ⟨?_, ?_, ha, hn, ?_⟩
  · show a < (st.data.take a ++ List.replicate n 0 ++ st.data.drop a).length
    simp only [List.length_append, List.length_take, List.length_replicate, List.length_drop]
    omega
  · show a + n ≤ (st.data.take a ++ List.replicate n 0 ++ st.data.drop a).length
    simp only [List.length_append, List.length_take, List.length_replicate, List.length_drop]
    omega
  · show st = _
    rw [hdata, htext, hlabels, hpointers]

/-- Counterexample for C3 as stated: with `ge = false`, a label bucket at
exactly the allocation address survives `allocate` in place, and the
following `deallocate` of the untouched window drops it, so the store is
not restored. -/
theorem deallocate_inverts_allocate_counterexample :
    (⟨[0, 0, 0, 0], [], [], [(0, ["X"])], [], .Little⟩ : BinArchive).allocate 0 4 false =
      Except.ok (⟨[0, 0, 0, 0, 0, 0, 0, 0], [], [], [(0, ["X"])], [], .Little⟩ : BinArchive) ∧
    (⟨[0, 0, 0, 0, 0, 0, 0, 0], [], [], [(0, ["X"])], [], .Little⟩ : BinArchive).deallocate
        0 4 false =
      Except.ok (⟨[0, 0, 0, 0], [], [], [], [], .Little⟩ : BinArchive) ∧
    (⟨[0, 0, 0, 0], [], [], [], [], .Little⟩ : BinArchive) ≠
      ⟨[0, 0, 0, 0], [], [], [(0, ["X"])], [], .Little⟩ := by
  decide

/-- Witness for C3: with `ge = true` the same scenario is restored exactly. -/
theorem deallocate_inverts_allocate_witness :
    (⟨[0, 0, 0, 0], [], [], [(0, ["X"])], [], .Little⟩ : BinArchive).allocate 0 4 true =
      Except.ok (⟨[0, 0, 0, 0, 0, 0, 0, 0], [], [], [(4, ["X"])], [], .Little⟩ : BinArchive) ∧
    (⟨[0, 0, 0, 0, 0, 0, 0, 0], [], [], [(4, ["X"])], [], .Little⟩ : BinArchive).deallocate
        0 4 true =
      Except.ok (⟨[0, 0, 0, 0], [], [], [(0, ["X"])], [], .Little⟩ : BinArchive) :=
  ⟨by decide,
    deallocate_inverts_allocate ⟨[0, 0, 0, 0], [], [], [(0, ["X"])], [], .Little⟩ 0 4 true
      ⟨[0, 0, 0, 0, 0, 0, 0, 0], [], [], [(4, ["X"])], [], .Little⟩ (by decide)
      (Or.inl (by decide)) (Or.inl rfl)⟩

/-- `src/text_archive.rs`: the two sub-formats. -/
inductive TextArchiveFormat : Type
  | ShiftJIS : TextArchiveFormat
  | Unicode : TextArchiveFormat
deriving DecidableEq, Repr

/-- `src/text_archive.rs`: the text bundle; `entries` models the
insertion-ordered `LinkedHashMap`. -/
structure TextArchive : Type where
  title : String
  entries : List (String × String)
  dirty : Bool
  format : TextArchiveFormat
  endian : Endian
deriving DecidableEq, Repr

/-- `message.replace("\\n", "\n")` from `set_message`: Rust `str::replace`
replaces the leftmost non-overlapping occurrences, scanning left to right. -/
def unescape_newlines : List Char → List Char
  | [] => []
  | [c] => [c]
  | c1 :: c2 :: rest =>
      if c1 = '\\' ∧ c2 = 'n' then '\n' :: unescape_newlines rest
      else c1 :: unescape_newlines (c2 :: rest)

/-- `value.replace("\n", "\\n")` from `get_message`. -/
def escape_newlines : List Char → List Char
  | [] => []
  | c :: rest =>
      if c = '\n' then '\\' :: 'n' :: escape_newlines rest
      else c :: escape_newlines rest

/-- `TextArchive::get_message`. -/
def TextArchive.get_message (ta : TextArchive) (key : String) : Option String :=
  (mlookup ta.entries key).map (fun v => ⟨escape_newlines v.data⟩)

/-- `TextArchive::set_message`: the `entry().or_insert` API keeps an existing
key at its position and appends a fresh key at the end — exactly `minsert`. -/
def TextArchive.set_message (ta : TextArchive) (key message : String) : TextArchive :=
  { ta with
    entries := minsert ta.entries key ⟨unescape_newlines message.data⟩,
    dirty := true }

/-- `minsert` makes its key-value pair visible to `mlookup`. -/
theorem mlookup_minsert {κ α : Type} [DecidableEq κ] (l : List (κ × α)) (k : κ) (v : α) :
    mlookup (minsert l k v) k = some v := by
  induction l with
  | nil => simp [minsert, mlookup]
  | cons p rest ih =>
      by_cases h : p.1 = k
      · simp [minsert, mlookup, h]
      · simp only [minsert, mlookup, if_neg h]
        split
        · rename_i hs
          simp only [List.map_cons, if_neg h, mlookup]
          rw [minsert, if_pos hs] at ih
          exact ih
        · rename_i hs
          simp only [List.cons_append, mlookup]
          rw [if_neg h]
          rw [minsert, if_neg hs] at ih
          exact ih

/-- Escaping after unescaping restores any string without a raw newline. -/
theorem escape_unescape (l : List Char) (h : '\n' ∉ l) :
    escape_newlines (unescape_newlines l) = l := by
  induction l using unescape_newlines.induct with
  | case1 => rfl
  | case2 c =>
      have hc : c ≠ '\n' := by
        intro hc
        exact h (by simp [hc])
      simp [unescape_newlines, escape_newlines, hc]
  | case3 c1 c2 rest hcond ih =>
      obtain ⟨rfl, rfl⟩ := hcond
      rw [unescape_newlines]
      rw [if_pos ⟨rfl, rfl⟩]
      rw [escape_newlines, if_pos rfl]
      rw [ih (by intro hm; exact h (by simp [hm]))]
  | case4 c1 c2 rest hcond ih =>
      have hc1 : c1 ≠ '\n' := by
        intro hc
        exact h (by simp [hc])
      rw [unescape_newlines, if_neg hcond]
      rw [escape_newlines, if_neg hc1]
      rw [ih (by intro hm; exact h (by simp [hm]))]

/-- C8 (amended): `set_message(k, s)` followed by `get_message(k)` returns
`Some s` for every string `s` that contains no raw newline character; the
two-character escape `\\n` (and any other characters, backslashes included)
round-trips exactly.  The original claim, which only restricts the
*multi-character escapes* occurring in `s`, fails for a raw newline: a raw
newline contains no multi-character escape, yet it comes back escaped. -/
theorem set_then_get_message (ta : TextArchive) (k s : String)
    (h : '\n' ∉ s.data) :
    (ta.set_message k s).get_message k = some s := by
  unfold TextArchive.get_message TextArchive.set_message
  simp only [mlookup_minsert, Option.map_some']
  congr 1
  cases s with
  | mk data => exact congrArg String.mk (escape_unescape data h)

/-- Counterexample for C8 as stated: the one-character string consisting of
a raw newline contains no backslash (hence no multi-character escape), yet
the round trip returns the escaped form. -/
theorem set_then_get_message_counterexample :
    ((⟨"", [], false, .Unicode, .Little⟩ : TextArchive).set_message "k" "\n").get_message "k" =
      some "\\n" ∧
    (some ("\\n" : String) ≠ some "\n") ∧
    '\\' ∉ ("\n" : String).data := by
  decide

/-- Witness for C8: a message whose only multi-character escape is `\\n`
round-trips. -/
theorem set_then_get_message_witness :
    ((⟨"", [], false, .Unicode, .Little⟩ : TextArchive).set_message "k" "a\\nb").get_message
      "k" = some "a\\nb" :=
  set_then_get_message ⟨"", [], false, .Unicode, .Little⟩ "k" "a\\nb" (by decide)

/-- The `while raw_cstrings.len() % 4 != 0 { push(0) }` padding loop. -/
def pad4 (l : List Nat) : List Nat := l ++ List.replicate ((4 - l.length % 4) % 4) 0

/-- `add_text` (bin_archive.rs line 36): intern a string in the text buffer,
returning its offset and the updated buffer and offset map. -/
def add_text (raw_text : List Nat) (raw_text_offsets : List (String × Nat)) (text : String) :
    Except ArchiveError (Nat × List Nat × List (String × Nat)) :=
  match mlookup raw_text_offsets text with
  | some value => .ok (value, raw_text, raw_text_offsets)
  | none => do
      let enc ← to_shift_jis text
      .ok (raw_text.length, raw_text ++ enc ++ [0],
        raw_text_offsets ++ [(text, raw_text.length)])

/-- A `Cursor<&mut [u8]>` write: bytes land at `pos`, silently truncated at
the end of the buffer (the `Write` impl for mutable byte slices never
fails). -/
def writeAt (buf : List Nat) (pos : Nat) (bytes : List Nat) : List Nat :=
  buf.take pos ++ bytes.take (buf.length - pos) ++ buf.drop (pos + bytes.length)

/-- The C-string staging loop of `serialize` (bin_archive.rs lines 284-293):
intern each value once and emit one pointer per recorded address. -/
def cstringFold (dataLen : Nat) :
    List (String × List Nat) → List Nat → List (String × Nat) → List (Nat × Nat) →
    Except ArchiveError (List Nat × List (String × Nat) × List (Nat × Nat))
  | [], raw, tracker, ptrs => .ok (raw, tracker, ptrs)
  | (text, addresses) :: rest, raw, tracker, ptrs => do
      let (offset, raw, tracker) ← add_text raw tracker text
      cstringFold dataLen rest raw tracker
        (ptrs ++ addresses.map (fun address => (address, dataLen + offset)))

/-- The pointer write loop of `serialize` (lines 299-303): write each
destination into `data` at its source and record the source. -/
def pointerWriteFold (e : Endian) :
    List (Nat × Nat) → List Nat → List Nat → List Nat × List Nat
  | [], data, raw_pointers => (data, raw_pointers)
  | (source, destination) :: rest, data, raw_pointers =>
      pointerWriteFold e rest (writeAt data source (e.encode_u32 destination))
        (raw_pointers ++ [source])

/-- Inner loop of the label emission (lines 312-316): one `(address,
text-offset)` word pair per label of the bucket. -/
def labelBucketFold (address : Nat) :
    List String → List Nat → List (String × Nat) → List Nat →
    Except ArchiveError (List Nat × List (String × Nat) × List Nat)
  | [], raw_text, offsets, raw_labels => .ok (raw_text, offsets, raw_labels)
  | label :: more, raw_text, offsets, raw_labels => do
      let (offset, raw_text, offsets) ← add_text raw_text offsets label
      labelBucketFold address more raw_text offsets (raw_labels ++ [address, offset])

/-- Outer loop of the label emission (lines 311-317). -/
def labelFold :
    List (Nat × List String) → List Nat → List (String × Nat) → List Nat →
    Except ArchiveError (List Nat × List (String × Nat) × List Nat)
  | [], raw_text, offsets, raw_labels => .ok (raw_text, offsets, raw_labels)
  | (address, bucket) :: rest, raw_text, offsets, raw_labels => do
      let (raw_text, offsets, raw_labels) ←
        labelBucketFold address bucket raw_text offsets raw_labels
      labelFold rest raw_text offsets raw_labels

/-- `IndexMap` update in the text loop (lines 329-338): append to an
existing bucket, or insert a new key at the end (insertion order). -/
def indexMapPush (m : List (Nat × List Nat)) (k v : Nat) : List (Nat × List Nat) :=
  if (mlookup m k).isSome then m.map (fun p => if p.1 = k then (p.1, p.2 ++ [v]) else p)
  else m ++ [(k, [v])]

/-- The text-annotation loop of `serialize` (lines 324-339). -/
def textFold (e : Endian) (text_start : Nat) :
    List (Nat × String) → List Nat → List (String × Nat) → List Nat →
    List (Nat × List Nat) →
    Except ArchiveError (List Nat × List (String × Nat) × List Nat × List (Nat × List Nat))
  | [], raw_text, offsets, data, pairs => .ok (raw_text, offsets, data, pairs)
  | (address, string) :: rest, raw_text, offsets, data, pairs => do
      let (offset, raw_text, offsets) ← add_text raw_text offsets string
      textFold e text_start rest raw_text offsets
        (writeAt data address (e.encode_u32 (text_start + offset)))
        (indexMapPush pairs offset address)

/-- The string-pointer assembly (lines 340-345): per text offset in
insertion order, sort the addresses and append them to the pointer table. -/
def pairsFold : List (Nat × List Nat) → List Nat → List Nat
  | [], raw_pointers => raw_pointers
  | (_, bucket) :: rest, raw_pointers =>
      pairsFold rest (raw_pointers ++ List.insertionSort (· ≤ ·) bucket)

/-- The endian-dependent label sort of `serialize` (lines 305-309):
big-endian archives sort buckets by their label-name vectors, little-endian
archives by source address. -/
def sortLabelEntries (e : Endian) (labels : List (Nat × List String)) :
    List (Nat × List String) :=
  match e with
  | .Big => List.insertionSort (fun x y => x.2 ≤ y.2) labels
  | .Little => List.insertionSort (fun x y => x.1 ≤ y.1) labels

/-- `BinArchive::serialize` (bin_archive.rs lines 271-371).  The final
cursor writes exactly fill the pre-sized zero buffer, so the output is the
concatenation of the header (with its 16 zero padding bytes), the mutated
`data`, the C-string bytes, the pointer table, the label table, and the
text section. -/
def BinArchive.serialize (st : BinArchive) : Except ArchiveError (List Nat) := do
  let (raw_cstrings, _, cstringPtrs) ←
    cstringFold st.data.length
      (List.insertionSort (fun x y : String × List Nat => x.1 ≤ y.1) st.cstrings) [] [] []
  let raw_cstrings := pad4 raw_cstrings
  let (data, raw_pointers) := pointerWriteFold st.endian
    (List.insertionSort (fun x y : Nat × Nat => x.1 ≤ y.1) (st.pointers ++ cstringPtrs))
    st.data []
  let (raw_text, raw_text_offsets, raw_labels) ←
    labelFold (sortLabelEntries st.endian st.labels) [] [] []
  let text_start :=
    st.data.length + (st.pointers.length + st.text.length + raw_labels.length) * 4
  let (raw_text, _, data, ptr_data_pairs) ←
    textFold st.endian text_start
      (List.insertionSort (fun x y : Nat × String => x.1 ≤ y.1) st.text)
      raw_text raw_text_offsets data []
  let raw_pointers := pairsFold ptr_data_pairs raw_pointers
  let file_size := data.length + raw_cstrings.length + raw_pointers.length * 4 +
    raw_labels.length * 4 + raw_text.length + 0x20
  .ok (st.endian.encode_u32 file_size ++
    st.endian.encode_u32 (data.length + raw_cstrings.length) ++
    st.endian.encode_u32 raw_pointers.length ++
    st.endian.encode_u32 (raw_labels.length / 2) ++
    List.replicate 16 0 ++
    data ++ raw_cstrings ++
    raw_pointers.flatMap st.endian.encode_u32 ++
    raw_labels.flatMap st.endian.encode_u32 ++
    raw_text)

/-- Bytes of a cursor read from `pos` until a zero byte; `none` when the
cursor falls off the buffer first (`UnterminatedString`). -/
def takeUntilZero (bytes : List Nat) (pos : Nat) : Option (List Nat) :=
  if _h : pos < bytes.length then
    if bytes.getD pos 0 = 0 then some []
    else
      match takeUntilZero bytes (pos + 1) with
      | some rest => some (bytes.getD pos 0 :: rest)
      | none => none
  else none
termination_by bytes.length - pos

/-- `Cursor::read_u32` through `EndianAwareReader`: `read_exact` fails at
the end of the buffer. -/
def cursorReadU32 (bytes : List Nat) (e : Endian) (pos : Nat) :
    Except ArchiveError (Nat × Nat) :=
  if pos + 4 ≤ bytes.length then do
    let v ← e.decode_u32 ((bytes.drop pos).take 4)
    .ok (v, pos + 4)
  else .error .IOError

/-- `Cursor::read_exact` into a resized buffer. -/
def cursorReadExact (bytes : List Nat) (pos amount : Nat) :
    Except ArchiveError (List Nat) :=
  if pos + amount ≤ bytes.length then .ok ((bytes.drop pos).take amount)
  else .error .IOError

/-- `read_shift_jis_string` on a byte cursor (encoded_strings.rs lines
14-37): scan to the terminator, then decode. -/
def cursorReadShiftJis (bytes : List Nat) (pos : Nat) : Except ArchiveError String :=
  match takeUntilZero bytes pos with
  | none => .error .UnterminatedString
  | some buf => decode_shift_jis buf

/-- The pointer-table loop of `from_bytes` (bin_archive.rs lines 229-241):
an in-`data` value becomes a pointer, a value past `data` becomes a text
annotation read from the file tail. -/
def fromBytesPointerLoop (bytes : List Nat) (e : Endian) (data_size : Nat) :
    Nat → BinArchive → Nat → Except ArchiveError (BinArchive × Nat)
  | 0, archive, pos => .ok (archive, pos)
  | n + 1, archive, pos => do
      let (pointer_address, pos) ← cursorReadU32 bytes e pos
      let pointer_value ← archive.read_u32 pointer_address
      if pointer_value > data_size then do
        let string ← cursorReadShiftJis bytes (pointer_value + 0x20)
        let archive ← archive.write_string pointer_address (some string)
        fromBytesPointerLoop bytes e data_size n archive pos
      else do
        let archive ← archive.write_pointer pointer_address (some pointer_value)
        fromBytesPointerLoop bytes e data_size n archive pos

/-- The label-table loop of `from_bytes` (lines 243-252). -/
def fromBytesLabelLoop (bytes : List Nat) (e : Endian) (text_start : Nat) :
    Nat → BinArchive → Nat → Except ArchiveError (BinArchive × Nat)
  | 0, archive, pos => .ok (archive, pos)
  | n + 1, archive, pos => do
      let (address, pos) ← cursorReadU32 bytes e pos
      let (offset, pos) ← cursorReadU32 bytes e pos
      let string ← cursorReadShiftJis bytes (text_start + offset + 0x20)
      let archive ← archive.write_label address string
      fromBytesLabelLoop bytes e text_start n archive pos

/-- `BinArchive::from_bytes` (bin_archive.rs lines 211-254).  The size field
at offset 0 is never read; the header cursor starts at offset 4.
`text_start` is computed in wrapping `u32` arithmetic. -/
def BinArchive.from_bytes (bytes : List Nat) (endian : Endian) :
    Except ArchiveError BinArchive :=
  if bytes.length < 0x20 then .error .ArchiveTooSmall
  else do
    let (data_size, _) ← cursorReadU32 bytes endian 4
    let (pointer_count, _) ← cursorReadU32 bytes endian 8
    let (label_count, _) ← cursorReadU32 bytes endian 12
    let text_start := (data_size + pointer_count * 4 + label_count * 8) % 4294967296
    if text_start + 0x20 > bytes.length then .error .ArchiveTooSmall
    else do
      let data ← cursorReadExact bytes 0x20 data_size
      let (archive, pos) ← fromBytesPointerLoop bytes endian data_size pointer_count
        { BinArchive.new endian with data := data } (0x20 + data_size)
      let (archive, _) ← fromBytesLabelLoop bytes endian text_start label_count archive pos
      .ok archive

/-- Bind of a successful `Except` computation reduces. -/
theorem exceptBind_ok_left {α β : Type} (a : α) (f : α → Except ArchiveError β) :
    (Except.ok a >>= f) = f a := rfl

/-- A successful `decode_u32` of valid bytes is inverted by `encode_u32`. -/
theorem encode_decode_u32 {e : Endian} {l : List Nat} {v : Nat}
    (h : e.decode_u32 l = Except.ok v) (hb : ∀ b ∈ l, b < 256) :
    e.encode_u32 v = l := by
  rcases l with _ | ⟨b0, _ | ⟨b1, _ | ⟨b2, _ | ⟨b3, _ | ⟨b4, rest⟩⟩⟩⟩⟩ <;>
    cases e <;> simp [Endian.decode_u32] at h
  · have h0 := hb b0 (by simp)
    have h1 := hb b1 (by simp)
    have h2 := hb b2 (by simp)
    have h3 := hb b3 (by simp)
    subst h
    simp only [Endian.encode_u32, List.cons.injEq, and_true]
    refine ⟨?_, ?_, ?_, ?_⟩ <;> omega
  · have h0 := hb b0 (by simp)
    have h1 := hb b1 (by simp)
    have h2 := hb b2 (by simp)
    have h3 := hb b3 (by simp)
    subst h
    simp only [Endian.encode_u32, List.cons.injEq, and_true]
    refine ⟨?_, ?_, ?_, ?_⟩ <;> omega

/-- A `u32` decoded from valid bytes is below `2^32`. -/
theorem decode_u32_lt {e : Endian} {l : List Nat} {v : Nat}
    (h : e.decode_u32 l = Except.ok v) (hb : ∀ b ∈ l, b < 256) : v < 4294967296 := by
  rcases l with _ | ⟨b0, _ | ⟨b1, _ | ⟨b2, _ | ⟨b3, _ | ⟨b4, rest⟩⟩⟩⟩⟩ <;>
    cases e <;> simp [Endian.decode_u32] at h
  · have h0 := hb b0 (by simp)
    have h1 := hb b1 (by simp)
    have h2 := hb b2 (by simp)
    have h3 := hb b3 (by simp)
    omega
  · have h0 := hb b0 (by simp)
    have h1 := hb b1 (by simp)
    have h2 := hb b2 (by simp)
    have h3 := hb b3 (by simp)
    omega

/-- `serialize` on a store with empty side tables emits the header followed
by the untouched data bytes. -/
theorem serialize_no_tables (d : List Nat) (e : Endian) :
    BinArchive.serialize ⟨d, [], [], [], [], e⟩ =
      Except.ok (e.encode_u32 (d.length + 0x20) ++ e.encode_u32 d.length ++
        e.encode_u32 0 ++ e.encode_u32 0 ++ List.replicate 16 0 ++ d) := by
  cases e <;>
    simp [BinArchive.serialize, cstringFold, pad4, pointerWriteFold, labelFold,
      textFold, pairsFold, sortLabelEntries, List.insertionSort, exceptBind_ok_left,
      Bind.bind, Except.bind]

/-- `from_bytes` on a buffer with zero pointer and label counts whose data
section fills the rest of the file yields the store holding exactly the
tail bytes, with empty side tables. -/
theorem from_bytes_no_tables (bytes : List Nat) (e : Endian)
    (hlen : 0x20 ≤ bytes.length)
    (hb : ∀ b ∈ bytes, b < 256)
    (hdata : e.decode_u32 ((bytes.drop 4).take 4) = Except.ok (bytes.length - 0x20))
    (hpc : e.decode_u32 ((bytes.drop 8).take 4) = Except.ok 0)
    (hlc : e.decode_u32 ((bytes.drop 12).take 4) = Except.ok 0) :
    BinArchive.from_bytes bytes e = Except.ok ⟨bytes.drop 0x20, [], [], [], [], e⟩ := by
  have hds_lt : bytes.length - 0x20 < 4294967296 :=
    decode_u32_lt hdata (fun b hmem => hb b (List.mem_of_mem_drop (List.mem_of_mem_take hmem)))
  have h1 : cursorReadU32 bytes e 4 = Except.ok (bytes.length - 0x20, 8) := by
    unfold cursorReadU32
    rw [if_pos (by omega), hdata]
    rfl
  have h2 : cursorReadU32 bytes e 8 = Except.ok (0, 12) := by
    unfold cursorReadU32
    rw [if_pos (by omega), hpc]
    rfl
  have h3 : cursorReadU32 bytes e 12 = Except.ok (0, 16) := by
    unfold cursorReadU32
    rw [if_pos (by omega), hlc]
    rfl
  have hmod : (bytes.length - 0x20 + 0 * 4 + 0 * 8) % 4294967296 = bytes.length - 0x20 := by
    simp
    omega
  have hexact : cursorReadExact bytes 0x20 (bytes.length - 0x20) =
      Except.ok (bytes.drop 0x20) := by
    unfold cursorReadExact
    rw [if_pos (by omega)]
    congr 1
    apply List.take_of_length_le
    simp
  unfold BinArchive.from_bytes
  rw [if_neg (by omega)]
  simp only [h1, h2, h3, exceptBind_ok_left, hmod]
  rw [if_neg (by omega)]
  simp only [hexact, exceptBind_ok_left, fromBytesPointerLoop, fromBytesLabelLoop]
  rfl

/-- Splitting a buffer into the five header fields and the tail. -/
theorem decompose_header (l : List Nat) :
    l.take 4 ++ ((l.drop 4).take 4 ++ ((l.drop 8).take 4 ++ ((l.drop 12).take 4 ++
      ((l.drop 16).take 16 ++ l.drop 32)))) = l := by
  have e1 : l.drop 4 = (l.drop 4).take 4 ++ l.drop 8 := by
    rw [show l.drop 8 = (l.drop 4).drop 4 by simp [List.drop_drop]]
    exact (List.take_append_drop 4 (l.drop 4)).symm
  have e2 : l.drop 8 = (l.drop 8).take 4 ++ l.drop 12 := by
    rw [show l.drop 12 = (l.drop 8).drop 4 by simp [List.drop_drop]]
    exact (List.take_append_drop 4 (l.drop 8)).symm
  have e3 : l.drop 12 = (l.drop 12).take 4 ++ l.drop 16 := by
    rw [show l.drop 16 = (l.drop 12).drop 4 by simp [List.drop_drop]]
    exact (List.take_append_drop 4 (l.drop 12)).symm
  have e4 : l.drop 16 = (l.drop 16).take 16 ++ l.drop 32 := by
    rw [show l.drop 32 = (l.drop 16).drop 16 by simp [List.drop_drop]]
    exact (List.take_append_drop 16 (l.drop 16)).symm
  conv_rhs => rw [← List.take_append_drop 4 l, e1, e2, e3, e4]

/-- Folding a list of cursor writes over a buffer (a proof-side
recharacterisation of the write sequences inside `serialize`; its relation
to the source folds is proved below). -/
def applyWrites (d : List Nat) : List (Nat × List Nat) → List Nat
  | [] => d
  | w :: rest => applyWrites (writeAt d w.1 w.2) rest

/-- An in-bounds cursor write is exactly `copyWithin`. -/
theorem writeAt_eq_copyWithin {d : List Nat} {p : Nat} {bs : List Nat}
    (hfit : p + bs.length ≤ d.length) : writeAt d p bs = copyWithin d p bs := by
  unfold writeAt copyWithin
  rw [List.take_of_length_le (show bs.length ≤ d.length - p by omega)]

/-- Bytes inside an in-bounds `copyWithin` range come from the chunk. -/
theorem copyWithin_getD_inside {d : List Nat} {p : Nat} {bs : List Nat}
    (_hfit : p + bs.length ≤ d.length) (i : Nat) (h1 : p ≤ i) (h2 : i < p + bs.length) :
    (copyWithin d p bs).getD i 0 = bs.getD (i - p) 0 := by
  have hta : (d.take p).length = p := by simp; omega
  rw [List.getD_eq_getElem?_getD, List.getD_eq_getElem?_getD, copyWithin, List.append_assoc,
    List.getElem?_append]
  rw [hta, if_neg (by omega), List.getElem?_append, if_pos (by omega)]

/-- Writing bytes that are already there changes nothing. -/
theorem copyWithin_self {d : List Nat} {p : Nat} {bs : List Nat}
    (_hfit : p + bs.length ≤ d.length) (hslice : (d.drop p).take bs.length = bs) :
    copyWithin d p bs = d := by
  have h3 : d.drop p = bs ++ d.drop (p + bs.length) := by
    conv_lhs => rw [← List.take_append_drop bs.length (d.drop p)]
    rw [hslice, List.drop_drop]
  calc d.take p ++ bs ++ d.drop (p + bs.length)
      = d.take p ++ (bs ++ d.drop (p + bs.length)) := by rw [List.append_assoc]
    _ = d.take p ++ d.drop p := by rw [← h3]
    _ = d := List.take_append_drop p d

/-- A slice is recovered from pointwise byte equality. -/
theorem slice_eq_of_getD {l : List Nat} {p k : Nat} {bs : List Nat}
    (hk : bs.length = k) (hfit : p + k ≤ l.length)
    (h : ∀ i, i < k → l.getD (p + i) 0 = bs.getD i 0) :
    (l.drop p).take k = bs := by
  apply List.ext_getElem
  · simp
    omega
  · intro i h1 h2
    have hik : i < k := hk ▸ h2
    have hgi := h i hik
    rw [List.getD_eq_getElem l 0 (show p + i < l.length by omega),
      List.getD_eq_getElem bs 0 h2] at hgi
    rw [List.getElem_take, List.getElem_drop]
    exact hgi

/-- Pointwise bytes are recovered from a slice. -/
theorem getD_of_slice {l : List Nat} {p k : Nat} {bs : List Nat}
    (h : (l.drop p).take k = bs) (hfit : p + k ≤ l.length) :
    ∀ i, i < k → l.getD (p + i) 0 = bs.getD i 0 := by
  intro i hik
  rw [← h]
  have hlen : i < ((l.drop p).take k).length := by simp; omega
  rw [List.getD_eq_getElem l 0 (show p + i < l.length by omega),
    List.getD_eq_getElem _ 0 hlen, List.getElem_take, List.getElem_drop]

/-- `applyWrites` splits over list append. -/
theorem applyWrites_append (d : List Nat) (w1 w2 : List (Nat × List Nat)) :
    applyWrites d (w1 ++ w2) = applyWrites (applyWrites d w1) w2 := by
  induction w1 generalizing d with
  | nil => rfl
  | cons w rest ih => simp [applyWrites, ih]

/-- In-bounds write sequences preserve the length. -/
theorem applyWrites_length {d : List Nat} {ws : List (Nat × List Nat)}
    (hfit : ∀ w ∈ ws, w.1 + w.2.length ≤ d.length) :
    (applyWrites d ws).length = d.length := by
  induction ws generalizing d with
  | nil => rfl
  | cons w rest ih =>
      have h1 : w.1 + w.2.length ≤ d.length := hfit w (by simp)
      have hlen : (writeAt d w.1 w.2).length = d.length := by
        rw [writeAt_eq_copyWithin h1, copyWithin_length h1]
      have hfit2 : ∀ v ∈ rest, v.1 + v.2.length ≤ (writeAt d w.1 w.2).length := by
        intro v hv
        rw [hlen]
        exact hfit v (List.mem_cons_of_mem w hv)
      rw [applyWrites, ih hfit2]
      exact hlen

/-- Bytes outside every written range are untouched. -/
theorem applyWrites_getD_outside {d : List Nat} {ws : List (Nat × List Nat)} (i : Nat)
    (hfit : ∀ w ∈ ws, w.1 + w.2.length ≤ d.length)
    (hout : ∀ w ∈ ws, i < w.1 ∨ w.1 + w.2.length ≤ i) :
    (applyWrites d ws).getD i 0 = d.getD i 0 := by
  induction ws generalizing d with
  | nil => rfl
  | cons w rest ih =>
      have h1 : w.1 + w.2.length ≤ d.length := hfit w (by simp)
      have hlen : (writeAt d w.1 w.2).length = d.length := by
        rw [writeAt_eq_copyWithin h1, copyWithin_length h1]
      have hfit2 : ∀ v ∈ rest, v.1 + v.2.length ≤ (writeAt d w.1 w.2).length := by
        intro v hv
        rw [hlen]
        exact hfit v (List.mem_cons_of_mem w hv)
      rw [applyWrites, ih hfit2 (fun v hv => hout v (List.mem_cons_of_mem w hv)),
        writeAt_eq_copyWithin h1, copyWithin_getD_outside h1 i (hout w (by simp))]

/-- After a disjoint in-bounds write sequence, the cell written by a member
holds exactly its chunk. -/
theorem applyWrites_slice {d : List Nat} {ws : List (Nat × List Nat)} {p : Nat}
    {bs : List Nat}
    (hfit : ∀ w ∈ ws, w.1 + w.2.length ≤ d.length)
    (hdisj : ws.Pairwise (fun u v => u.1 + u.2.length ≤ v.1 ∨ v.1 + v.2.length ≤ u.1))
    (hmem : (p, bs) ∈ ws) :
    ((applyWrites d ws).drop p).take bs.length = bs := by
  induction ws generalizing d with
  | nil => cases hmem
  | cons w rest ih =>
      have h1 : w.1 + w.2.length ≤ d.length := hfit w (by simp)
      have hlen : (writeAt d w.1 w.2).length = d.length := by
        rw [writeAt_eq_copyWithin h1, copyWithin_length h1]
      have hfit2 : ∀ v ∈ rest, v.1 + v.2.length ≤ (writeAt d w.1 w.2).length := by
        intro v hv
        rw [hlen]
        exact hfit v (List.mem_cons_of_mem w hv)
      obtain ⟨hhead, htail⟩ := List.pairwise_cons.mp hdisj
      rw [applyWrites]
      rcases List.mem_cons.mp hmem with heq | hmem2
      · have hp : w.1 = p := (congrArg Prod.fst heq).symm
        have hbs : w.2 = bs := (congrArg Prod.snd heq).symm
        subst hp
        subst hbs
        apply slice_eq_of_getD rfl
        · rw [applyWrites_length hfit2, hlen]
          exact h1
        · intro i hik
          rw [applyWrites_getD_outside (w.1 + i) hfit2
              (fun v hv => by
                rcases hhead v hv with hd | hd
                · left; omega
                · right; omega),
            writeAt_eq_copyWithin h1, copyWithin_getD_inside h1 (w.1 + i) (by omega) (by omega)]
          congr 1
          omega
      · exact ih hfit2 htail hmem2

/-- Rewriting bytes that are already present is the identity. -/
theorem applyWrites_nop {d : List Nat} {ws : List (Nat × List Nat)}
    (h : ∀ w ∈ ws, w.1 + w.2.length ≤ d.length ∧ (d.drop w.1).take w.2.length = w.2) :
    applyWrites d ws = d := by
  induction ws with
  | nil => rfl
  | cons w rest ih =>
      obtain ⟨h1, h2⟩ := h w (by simp)
      rw [applyWrites, writeAt_eq_copyWithin h1, copyWithin_self h1 h2]
      exact ih (fun v hv => h v (List.mem_cons_of_mem w hv))

/-- Decoding an encoded u32 recovers the value modulo `2^32`. -/
theorem decode_encode_u32 (e : Endian) (v : Nat) :
    e.decode_u32 (e.encode_u32 v) = Except.ok (v % 4294967296) := by
  cases e <;> simp [Endian.encode_u32, Endian.decode_u32] <;> omega

/-- Decoding an encoded small u32 recovers the value. -/
theorem decode_encode_u32_small {e : Endian} {v : Nat} (h : v < 4294967296) :
    e.decode_u32 (e.encode_u32 v) = Except.ok v := by
  rw [decode_encode_u32, Nat.mod_eq_of_lt h]

/-- A u32 table occupies four bytes per entry. -/
theorem flatMap_encode_length (e : Endian) (l : List Nat) :
    (l.flatMap e.encode_u32).length = 4 * l.length := by
  induction l with
  | nil => rfl
  | cons x rest ih =>
      simp only [List.flatMap_cons, List.length_append, ih, encode_u32_length,
        List.length_cons]
      omega

/-- The `i`-th four-byte slice of a u32 table is the `i`-th encoded entry. -/
theorem flatMap_encode_slice (e : Endian) :
    ∀ (l : List Nat) (i : Nat), i < l.length →
      ((l.flatMap e.encode_u32).drop (4 * i)).take 4 = e.encode_u32 (l.getD i 0) := by
  intro l
  induction l with
  | nil => intro i h; cases h
  | cons x rest ih =>
      intro i h
      cases i with
      | zero =>
          simp only [List.flatMap_cons, Nat.mul_zero, List.drop_zero, List.getD_cons_zero]
          rw [List.take_append_of_le_length (by rw [encode_u32_length])]
          exact List.take_of_length_le (by rw [encode_u32_length])
      | succ i =>
          simp only [List.flatMap_cons, List.getD_cons_succ]
          have h4 : 4 * (i + 1) = (e.encode_u32 x).length + 4 * i := by
            rw [encode_u32_length]; omega
          rw [h4, List.drop_append]
          exact ih i (by simpa using h)

/-- Dropping past a prefix of known length. -/
theorem drop_pre {pre l : List Nat} {k : Nat} (h : pre.length ≤ k) :
    (pre ++ l).drop k = l.drop (k - pre.length) := by
  conv_lhs => rw [show k = pre.length + (k - pre.length) by omega]
  rw [List.drop_append]

/-- Taking inside a prefix of known length. -/
theorem take_pre {l suf : List Nat} {k : Nat} (h : k ≤ l.length) :
    (l ++ suf).take k = l.take k := by
  rw [List.take_append_of_le_length h]

/-- The cursor scan stops exactly at the first zero: reading at a position
holding `bs ++ [0]` with `bs` zero-free returns `bs`. -/
theorem takeUntilZero_exact :
    ∀ (bs : List Nat) (B : List Nat) (pos : Nat),
      (B.drop pos).take bs.length = bs →
      (∀ b ∈ bs, b ≠ 0) →
      pos + bs.length < B.length →
      B.getD (pos + bs.length) 0 = 0 →
      takeUntilZero B pos = some bs := by
  intro bs
  induction bs with
  | nil =>
      intro B pos _ _ hlt hterm
      unfold takeUntilZero
      rw [dif_pos (by omega), if_pos (by simpa using hterm)]
  | cons b rest ih =>
      intro B pos hslice hnz hlt hterm
      have hblen : pos + (b :: rest).length ≤ B.length := by omega
      have hb0 := getD_of_slice hslice hblen 0 (by simp)
      simp only [List.getD_cons_zero, Nat.add_zero] at hb0
      have hrest : (B.drop (pos + 1)).take rest.length = rest := by
        apply slice_eq_of_getD rfl (by simp at hblen ⊢; omega)
        intro i hi
        have := getD_of_slice hslice hblen (i + 1) (by simp; omega)
        simpa [Nat.add_assoc, Nat.add_comm 1 i] using this
      unfold takeUntilZero
      rw [dif_pos (by simp at hblen; omega), if_neg (by rw [hb0]; exact hnz b (by simp)),
        ih B (pos + 1) hrest (fun x hx => hnz x (by simp [hx]))
          (by simp at hlt ⊢; omega) (by simpa [Nat.add_assoc, Nat.add_comm 1] using hterm),
        hb0]

/-- ASCII printable-plane strings: no NUL byte, all code points below 128. -/
def goodString (s : String) : Bool :=
  s.data.all (fun c => decide (0 < c.toNat) && decide (c.toNat < 128))

/-- The Shift-JIS image of a string on the ASCII plane. -/
def strBytes (s : String) : List Nat := s.data.map Char.toNat

/-- Encoding a good string succeeds with its byte image. -/
theorem to_shift_jis_good {s : String} (h : goodString s = true) :
    to_shift_jis s = Except.ok (strBytes s) := by
  unfold to_shift_jis strBytes
  rw [if_pos]
  simp only [goodString, List.all_eq_true, Bool.and_eq_true, decide_eq_true_eq] at h
  simp only [List.all_eq_true, decide_eq_true_eq]
  exact fun c hc => (h c hc).2

/-- Decoding the byte image of a good string recovers the string. -/
theorem decode_shift_jis_strBytes {s : String} (h : goodString s = true) :
    decode_shift_jis (strBytes s) = Except.ok s := by
  simp only [goodString, List.all_eq_true, Bool.and_eq_true, decide_eq_true_eq] at h
  unfold decode_shift_jis strBytes
  rw [if_pos (by
    simp only [List.all_eq_true, decide_eq_true_eq, List.mem_map]
    rintro b ⟨c, hc, rfl⟩
    exact (h c hc).2)]
  congr 1
  cases s with
  | mk data =>
      simp only [List.map_map]
      congr 1
      conv_rhs => rw [← List.map_id data]
      apply List.map_congr_left
      intro c _
      exact Char.ofNat_toNat c

/-- Bytes of a good string are nonzero and below 128. -/
theorem strBytes_good {s : String} (h : goodString s = true) :
    ∀ b ∈ strBytes s, 0 < b ∧ b < 128 := by
  simp only [goodString, List.all_eq_true, Bool.and_eq_true, decide_eq_true_eq] at h
  simp only [strBytes, List.mem_map]
  rintro b ⟨c, hc, rfl⟩
  exact h c hc

/-- The byte image has the string's length. -/
theorem strBytes_length (s : String) : (strBytes s).length = s.data.length := by
  simp [strBytes]

/-- Proof-side recharacterisation of `textFold`: the interning state and
pair buckets evolve independently of the data buffer, which only receives
the text-address writes.  `items` records, per annotation, its address,
string, and interned offset; the relation to `textFold` is proved in
`textFold_eq`. -/
def textMeta : List (Nat × String) → List Nat → List (String × Nat) →
    List (Nat × List Nat) →
    Except ArchiveError
      (List Nat × List (String × Nat) × List (Nat × List Nat) × List (Nat × String × Nat))
  | [], rt, offs, pairs => .ok (rt, offs, pairs, [])
  | (address, string) :: rest, rt, offs, pairs => do
      let (offset, rt, offs) ← add_text rt offs string
      let (rt', offs', pairs', items) ← textMeta rest rt offs (indexMapPush pairs offset address)
      .ok (rt', offs', pairs', (address, string, offset) :: items)

/-- The text-address writes recorded by `textMeta`. -/
def textWrites (e : Endian) (ts : Nat) (items : List (Nat × String × Nat)) :
    List (Nat × List Nat) :=
  items.map (fun it => (it.1, e.encode_u32 (ts + it.2.2)))

/-- `textFold` is `textMeta` with its writes folded over the buffer. -/
theorem textFold_eq (e : Endian) (ts : Nat) :
    ∀ (l : List (Nat × String)) (rt : List Nat) (offs : List (String × Nat))
      (data : List Nat) (pairs : List (Nat × List Nat)),
      textFold e ts l rt offs data pairs =
        (textMeta l rt offs pairs).bind
          (fun r => .ok (r.1, r.2.1, applyWrites data (textWrites e ts r.2.2.2), r.2.2.1)) := by
  intro l
  induction l with
  | nil =>
      intro rt offs data pairs
      rfl
  | cons hd rest ih =>
      intro rt offs data pairs
      obtain ⟨address, string⟩ := hd
      rw [textFold, textMeta]
      cases hat : add_text rt offs string with
      | error err => simp [Bind.bind, Except.bind, hat]
      | ok r =>
          obtain ⟨offset, rt2, offs2⟩ := r
          simp only [hat, Bind.bind, Except.bind]
          rw [ih]
          cases hm : textMeta rest rt2 offs2 (indexMapPush pairs offset address) with
          | error err => rfl
          | ok r2 => rfl

/-- `pointerWriteFold` is `applyWrites` of the encoded destinations plus
the source table. -/
theorem pointerWriteFold_eq (e : Endian) :
    ∀ (l : List (Nat × Nat)) (data racc : List Nat),
      pointerWriteFold e l data racc =
        (applyWrites data (l.map (fun p => (p.1, e.encode_u32 p.2))),
          racc ++ l.map Prod.fst) := by
  intro l
  induction l with
  | nil => intro data racc; simp [pointerWriteFold, applyWrites]
  | cons p rest ih =>
      intro data racc
      obtain ⟨src, dst⟩ := p
      rw [pointerWriteFold, ih]
      simp [applyWrites, List.append_assoc]

/-- Proof-side recharacterisation of `labelBucketFold`; related by
`labelBucketFold_eq`. -/
def labelBucketMeta (address : Nat) : List String → List Nat → List (String × Nat) →
    Except ArchiveError (List Nat × List (String × Nat) × List (Nat × String × Nat))
  | [], rt, offs => .ok (rt, offs, [])
  | label :: more, rt, offs => do
      let (offset, rt, offs) ← add_text rt offs label
      let (rt', offs', items) ← labelBucketMeta address more rt offs
      .ok (rt', offs', (address, label, offset) :: items)

/-- The word pairs a label item list contributes to the label table. -/
def labelWords (items : List (Nat × String × Nat)) : List Nat :=
  items.flatMap (fun it => [it.1, it.2.2])

/-- `labelBucketFold` is `labelBucketMeta` plus the flattened word pairs. -/
theorem labelBucketFold_eq (address : Nat) :
    ∀ (bucket : List String) (rt : List Nat) (offs : List (String × Nat)) (rl : List Nat),
      labelBucketFold address bucket rt offs rl =
        (labelBucketMeta address bucket rt offs).bind
          (fun r => .ok (r.1, r.2.1, rl ++ labelWords r.2.2)) := by
  intro bucket
  induction bucket with
  | nil =>
      intro rt offs rl
      simp [labelBucketFold, labelBucketMeta, labelWords, Bind.bind, Except.bind]
  | cons label more ih =>
      intro rt offs rl
      rw [labelBucketFold, labelBucketMeta]
      cases hat : add_text rt offs label with
      | error err => simp [Bind.bind, Except.bind, hat]
      | ok r =>
          obtain ⟨offset, rt2, offs2⟩ := r
          simp only [hat, Bind.bind, Except.bind]
          rw [ih]
          cases hm : labelBucketMeta address more rt2 offs2 with
          | error err => rfl
          | ok r2 =>
              simp only [Except.bind, labelWords, List.flatMap_cons]
              rw [List.append_assoc]

/-- Proof-side recharacterisation of `labelFold`; related by `labelFold_eq`. -/
def labelMeta : List (Nat × List String) → List Nat → List (String × Nat) →
    Except ArchiveError (List Nat × List (String × Nat) × List (Nat × String × Nat))
  | [], rt, offs => .ok (rt, offs, [])
  | (address, bucket) :: rest, rt, offs => do
      let (rt2, offs2, items1) ← labelBucketMeta address bucket rt offs
      let (rt', offs', items2) ← labelMeta rest rt2 offs2
      .ok (rt', offs', items1 ++ items2)

/-- `labelFold` is `labelMeta` plus the flattened word pairs. -/
theorem labelFold_eq :
    ∀ (l : List (Nat × List String)) (rt : List Nat) (offs : List (String × Nat))
      (rl : List Nat),
      labelFold l rt offs rl =
        (labelMeta l rt offs).bind
          (fun r => .ok (r.1, r.2.1, rl ++ labelWords r.2.2)) := by
  intro l
  induction l with
  | nil =>
      intro rt offs rl
      simp [labelFold, labelMeta, labelWords, Bind.bind, Except.bind]
  | cons hd rest ih =>
      intro rt offs rl
      obtain ⟨address, bucket⟩ := hd
      rw [labelFold, labelMeta, labelBucketFold_eq]
      cases hb : labelBucketMeta address bucket rt offs with
      | error err => simp [Bind.bind, Except.bind]
      | ok r =>
          obtain ⟨rt2, offs2, items1⟩ := r
          simp only [Bind.bind, Except.bind]
          rw [ih]
          cases hm : labelMeta rest rt2 offs2 with
          | error err => rfl
          | ok r2 =>
              simp only [Except.bind, labelWords, List.flatMap_append]
              rw [List.append_assoc]

/-- A successful lookup yields a member. -/
theorem mlookup_mem {κ α : Type} [DecidableEq κ] :
    ∀ {l : List (κ × α)} {k : κ} {v : α}, mlookup l k = some v → (k, v) ∈ l := by
  intro l
  induction l with
  | nil => intro k v h; cases h
  | cons p rest ih =>
      intro k v h
      rw [mlookup] at h
      split at h
      · rename_i heq
        have h2 := Option.some.inj h
        have h3 : (k, v) = p := by rw [← heq, ← h2]
        rw [h3]
        exact List.mem_cons_self p rest
      · exact List.mem_cons_of_mem p (ih h)

/-- Lookup scans the left list first. -/
theorem mlookup_append {κ α : Type} [DecidableEq κ] :
    ∀ (l₁ l₂ : List (κ × α)) (k : κ),
      mlookup (l₁ ++ l₂) k =
        match mlookup l₁ k with
        | some v => some v
        | none => mlookup l₂ k := by
  intro l₁
  induction l₁ with
  | nil => intro l₂ k; rfl
  | cons p rest ih =>
      intro l₂ k
      by_cases hp : p.1 = k
      · simp [mlookup, hp]
      · simp [mlookup, hp, ih]

/-- A slice inside the prefix survives appending. -/
theorem slice_append_left {rt ext : List Nat} {o k : Nat} (h : o + k ≤ rt.length) :
    ((rt ++ ext).drop o).take k = (rt.drop o).take k := by
  apply List.ext_getElem
  · simp only [List.length_take, List.length_drop, List.length_append]
    omega
  · intro i h1 h2
    have hik : i < k := by
      simp only [List.length_take, List.length_drop] at h2
      omega
    rw [List.getElem_take, List.getElem_drop, List.getElem_take, List.getElem_drop,
      List.getElem_append, dif_pos (by omega)]

/-- A byte inside the prefix survives appending. -/
theorem getD_append_left {rt ext : List Nat} {i : Nat} (h : i < rt.length) :
    (rt ++ ext).getD i 0 = rt.getD i 0 := by
  rw [List.getD_eq_getElem _ 0 (by simp; omega), List.getD_eq_getElem _ 0 h,
    List.getElem_append, dif_pos h]

/-- A byte past the prefix comes from the suffix. -/
theorem getD_append_off {pre l : List Nat} (j : Nat) :
    (pre ++ l).getD (pre.length + j) 0 = l.getD j 0 := by
  rcases Nat.lt_or_ge j l.length with hj | hj
  · rw [List.getD_eq_getElem _ 0 (by simp; omega), List.getD_eq_getElem _ 0 hj,
      List.getElem_append, dif_neg (by omega)]
    congr 1
    omega
  · rw [List.getD_eq_getElem?_getD, List.getD_eq_getElem?_getD,
      List.getElem?_eq_none (by simp; omega), List.getElem?_eq_none hj]

/-- Invariant of the interning state: every recorded offset points at the
zero-terminated byte image of its string inside the buffer. -/
def Interned (rt : List Nat) (offs : List (String × Nat)) : Prop :=
  ∀ p ∈ offs, goodString p.1 = true ∧
    p.2 + p.1.data.length < rt.length ∧
    (rt.drop p.2).take p.1.data.length = strBytes p.1 ∧
    rt.getD (p.2 + p.1.data.length) 0 = 0

/-- `add_text` preserves the interning invariant, records the string, and
only appends to the buffer. -/
theorem add_text_facts {rt : List Nat} {offs : List (String × Nat)} {t : String}
    {o : Nat} {rt' : List Nat} {offs' : List (String × Nat)}
    (hint : Interned rt offs) (hg : goodString t = true)
    (h : add_text rt offs t = Except.ok (o, rt', offs')) :
    Interned rt' offs' ∧ (t, o) ∈ offs' ∧ (∃ ext, rt' = rt ++ ext) ∧
      (∀ p ∈ offs, p ∈ offs') := by
  unfold add_text at h
  cases hml : mlookup offs t with
  | some v =>
      rw [hml] at h
      simp only [Except.ok.injEq, Prod.mk.injEq] at h
      obtain ⟨h3, h4, h5⟩ := h
      subst h3
      subst h4
      subst h5
      exact ⟨hint, mlookup_mem hml, ⟨[], by simp⟩, fun p hp => hp⟩
  | none =>
      rw [hml, to_shift_jis_good hg] at h
      simp only [Bind.bind, Except.bind, Except.ok.injEq, Prod.mk.injEq] at h
      obtain ⟨h3, h4, h5⟩ := h
      subst h3
      subst h4
      subst h5
      have hsb : (strBytes t).length = t.data.length := strBytes_length t
      refine ⟨?_, List.mem_append_right _ (by simp), ⟨strBytes t ++ [0], by simp⟩,
        fun p hp => List.mem_append_left _ hp⟩
      intro p hp
      rcases List.mem_append.mp hp with hold | hnew
      · obtain ⟨hpg, hpb, hps, hpz⟩ := hint p hold
        refine ⟨hpg, ?_, ?_, ?_⟩
        · simp only [List.length_append, List.length_cons, List.length_nil]
          omega
        · rw [List.append_assoc, slice_append_left (by omega)]
          exact hps
        · rw [List.append_assoc, getD_append_left (by omega)]
          exact hpz
      · have hp2 : p = (t, rt.length) := by simpa using hnew
        subst hp2
        dsimp only
        refine ⟨hg, ?_, ?_, ?_⟩
        · simp only [List.length_append, List.length_cons, List.length_nil]
          omega
        · rw [List.append_assoc, drop_pre (le_refl rt.length), Nat.sub_self,
            List.drop_zero, take_pre (by omega)]
          exact List.take_of_length_le (by omega)
        · rw [List.append_assoc, getD_append_off,
            show t.data.length = (strBytes t).length + 0 by omega, getD_append_off]
          rfl

/-- The per-label entry sequence of a bucket list. -/
def labelEntries (l : List (Nat × List String)) : List (Nat × String) :=
  l.flatMap (fun b => b.2.map (fun s => (b.1, s)))

/-- `labelBucketMeta` preserves the interning invariant and records one
entry per label, each with its recorded offset. -/
theorem labelBucketMeta_facts (address : Nat) :
    ∀ (bucket : List String) (rt : List Nat) (offs : List (String × Nat))
      (rt' : List Nat) (offs' : List (String × Nat)) (items : List (Nat × String × Nat)),
      Interned rt offs → (∀ s ∈ bucket, goodString s = true) →
      labelBucketMeta address bucket rt offs = Except.ok (rt', offs', items) →
      Interned rt' offs' ∧ (∃ ext, rt' = rt ++ ext) ∧ (∀ p ∈ offs, p ∈ offs') ∧
        items.map (fun it => (it.1, it.2.1)) = bucket.map (fun s => (address, s)) ∧
        (∀ it ∈ items, (it.2.1, it.2.2) ∈ offs') := by
  intro bucket
  induction bucket with
  | nil =>
      intro rt offs rt' offs' items hint hg h
      simp only [labelBucketMeta, Except.ok.injEq, Prod.mk.injEq] at h
      obtain ⟨h1, h2, h3⟩ := h
      subst h1
      subst h2
      subst h3
      exact ⟨hint, ⟨[], by simp⟩, fun p hp => hp, by simp, by simp⟩
  | cons label more ih =>
      intro rt offs rt' offs' items hint hg h
      rw [labelBucketMeta] at h
      cases hat : add_text rt offs label with
      | error err => rw [hat] at h; cases h
      | ok r =>
          obtain ⟨offset, rt2, offs2⟩ := r
          rw [hat] at h
          simp only [Bind.bind, Except.bind] at h
          cases hm : labelBucketMeta address more rt2 offs2 with
          | error err => rw [hm] at h; cases h
          | ok r2 =>
              obtain ⟨rt3, offs3, items3⟩ := r2
              rw [hm] at h
              simp only [Except.ok.injEq, Prod.mk.injEq] at h
              obtain ⟨h1, h2, h3⟩ := h
              subst h1
              subst h2
              subst h3
              obtain ⟨hint2, hmem2, ⟨ext1, hext1⟩, hmono1⟩ :=
                add_text_facts hint (hg label (by simp)) hat
              obtain ⟨hint3, ⟨ext2, hext2⟩, hmono2, hmap, hoffs⟩ :=
                ih rt2 offs2 rt3 offs3 items3 hint2 (fun s hs => hg s (by simp [hs])) hm
              refine ⟨hint3, ⟨ext1 ++ ext2, by rw [hext2, hext1, List.append_assoc]⟩,
                fun p hp => hmono2 p (hmono1 p hp), ?_, ?_⟩
              · simp only [List.map_cons, hmap]
              · intro it hit
                rcases List.mem_cons.mp hit with heq | hmem
                · subst heq
                  exact hmono2 _ hmem2
                · exact hoffs it hmem

/-- `labelMeta` preserves the invariant and records the bucket entries in
emission order. -/
theorem labelMeta_facts :
    ∀ (l : List (Nat × List String)) (rt : List Nat) (offs : List (String × Nat))
      (rt' : List Nat) (offs' : List (String × Nat)) (items : List (Nat × String × Nat)),
      Interned rt offs → (∀ b ∈ l, ∀ s ∈ b.2, goodString s = true) →
      labelMeta l rt offs = Except.ok (rt', offs', items) →
      Interned rt' offs' ∧ (∃ ext, rt' = rt ++ ext) ∧ (∀ p ∈ offs, p ∈ offs') ∧
        items.map (fun it => (it.1, it.2.1)) = labelEntries l ∧
        (∀ it ∈ items, (it.2.1, it.2.2) ∈ offs') := by
  intro l
  induction l with
  | nil =>
      intro rt offs rt' offs' items hint hg h
      simp only [labelMeta, Except.ok.injEq, Prod.mk.injEq] at h
      obtain ⟨h1, h2, h3⟩ := h
      subst h1
      subst h2
      subst h3
      exact ⟨hint, ⟨[], by simp⟩, fun p hp => hp, by simp [labelEntries], by simp⟩
  | cons hd rest ih =>
      intro rt offs rt' offs' items hint hg h
      obtain ⟨address, bucket⟩ := hd
      rw [labelMeta] at h
      cases hb : labelBucketMeta address bucket rt offs with
      | error err => rw [hb] at h; cases h
      | ok r =>
          obtain ⟨rt2, offs2, items1⟩ := r
          rw [hb] at h
          simp only [Bind.bind, Except.bind] at h
          cases hm : labelMeta rest rt2 offs2 with
          | error err => rw [hm] at h; cases h
          | ok r2 =>
              obtain ⟨rt3, offs3, items2⟩ := r2
              rw [hm] at h
              simp only [Except.ok.injEq, Prod.mk.injEq] at h
              obtain ⟨h1, h2, h3⟩ := h
              subst h1
              subst h2
              subst h3
              obtain ⟨hint2, ⟨ext1, hext1⟩, hmono1, hmap1, hoffs1⟩ :=
                labelBucketMeta_facts address bucket rt offs rt2 offs2 items1 hint
                  (fun s hs => hg (address, bucket) (by simp) s hs) hb
              obtain ⟨hint3, ⟨ext2, hext2⟩, hmono2, hmap2, hoffs2⟩ :=
                ih rt2 offs2 rt3 offs3 items2 hint2
                  (fun b hb2 s hs => hg b (List.mem_cons_of_mem _ hb2) s hs) hm
              refine ⟨hint3, ⟨ext1 ++ ext2, by rw [hext2, hext1, List.append_assoc]⟩,
                fun p hp => hmono2 p (hmono1 p hp), ?_, ?_⟩
              · simp only [List.map_append, hmap1, hmap2, labelEntries, List.flatMap_cons]
              · intro it hit
                rcases List.mem_append.mp hit with hmem | hmem
                · exact hmono2 _ (hoffs1 it hmem)
                · exact hoffs2 it hmem

/-- The flattened contents of the text pair buckets. -/
def pairsFlat (p : List (Nat × List Nat)) : List Nat := p.flatMap Prod.snd

/-- A key present in the map looks up successfully. -/
theorem mlookup_isSome_mem {κ α : Type} [DecidableEq κ] :
    ∀ {l : List (κ × α)} {k : κ}, k ∈ l.map Prod.fst → (mlookup l k).isSome = true := by
  intro l
  induction l with
  | nil => intro k h; cases h
  | cons p rest ih =>
      intro k h
      rw [mlookup]
      by_cases hp : p.1 = k
      · rw [if_pos hp]
        rfl
      · rw [if_neg hp]
        rw [List.map_cons] at h
        rcases List.mem_cons.mp h with heq | hmem
        · exact absurd heq.symm hp
        · exact ih hmem

/-- Pushing into the index map adds one element to the flattened contents,
up to permutation. -/
theorem indexMapPush_flat :
    ∀ {p : List (Nat × List Nat)}, (p.map Prod.fst).Nodup → ∀ (k v : Nat),
      List.Perm (pairsFlat (indexMapPush p k v)) (v :: pairsFlat p) := by
  intro p
  induction p with
  | nil =>
      intro _ k v
      simp [indexMapPush, pairsFlat, mlookup]
  | cons b rest ih =>
      intro hnd k v
      rw [List.map_cons] at hnd
      obtain ⟨hhead, htail⟩ := List.nodup_cons.mp hnd
      by_cases hb : b.1 = k
      · have hsome : (mlookup (b :: rest) k).isSome = true := by
          rw [mlookup, if_pos hb]
          rfl
        rw [indexMapPush, if_pos hsome]
        have hrest : rest.map (fun q => if q.1 = k then (q.1, q.2 ++ [v]) else q) = rest := by
          conv_rhs => rw [← List.map_id rest]
          apply List.map_congr_left
          intro q hq
          have hqk : q.1 ≠ k := by
            intro hqk
            apply hhead
            rw [hb, ← hqk]
            exact List.mem_map_of_mem Prod.fst hq
          rw [if_neg hqk]
          rfl
        simp only [List.map_cons, hrest]
        rw [if_pos hb]
        simp only [pairsFlat, List.flatMap_cons]
        have h1 : (b.2 ++ [v]) ++ rest.flatMap Prod.snd =
            b.2 ++ (v :: rest.flatMap Prod.snd) := by
          rw [List.append_assoc]
          rfl
        rw [h1]
        exact List.perm_middle
      · rw [indexMapPush]
        by_cases hsome : (mlookup rest k).isSome = true
        · rw [if_pos (by rw [mlookup, if_neg hb]; exact hsome)]
          have hih := ih htail k v
          rw [indexMapPush, if_pos hsome] at hih
          simp only [pairsFlat, List.flatMap_cons] at hih ⊢
          simp only [List.map_cons]
          rw [if_neg hb]
          simp only [List.flatMap_cons]
          exact (List.Perm.append_left b.2 hih).trans List.perm_middle
        · rw [if_neg (by rw [mlookup, if_neg hb]; simpa using hsome)]
          simp only [pairsFlat, List.flatMap_append, List.flatMap_cons, List.flatMap_nil,
            List.append_nil, List.append_assoc]
          exact (List.Perm.append_left b.2 (List.perm_append_singleton v _)).trans
            List.perm_middle

/-- Pushing into the index map keeps the keys duplicate-free. -/
theorem indexMapPush_nodup {p : List (Nat × List Nat)} (hnd : (p.map Prod.fst).Nodup)
    (k v : Nat) : ((indexMapPush p k v).map Prod.fst).Nodup := by
  rw [indexMapPush]
  split
  · have heq : (p.map (fun q => if q.1 = k then (q.1, q.2 ++ [v]) else q)).map Prod.fst =
        p.map Prod.fst := by
      rw [List.map_map]
      apply List.map_congr_left
      intro q _
      by_cases hq : q.1 = k <;> simp [hq]
    rw [heq]
    exact hnd
  · rename_i hnone
    rw [List.map_append]
    simp only [List.map_cons, List.map_nil]
    rw [List.nodup_append]
    refine ⟨hnd, by simp, ?_⟩
    intro a ha
    simp only [List.mem_singleton]
    intro hak
    subst hak
    exact hnone (mlookup_isSome_mem ha)

/-- `textMeta` preserves the interning invariant, records one item per
annotation, and pushes each address into the pair buckets. -/
theorem textMeta_facts :
    ∀ (l : List (Nat × String)) (rt : List Nat) (offs : List (String × Nat))
      (pairs : List (Nat × List Nat)) (rt' : List Nat) (offs' : List (String × Nat))
      (pairs' : List (Nat × List Nat)) (items : List (Nat × String × Nat)),
      Interned rt offs → (∀ p ∈ l, goodString p.2 = true) →
      (pairs.map Prod.fst).Nodup →
      textMeta l rt offs pairs = Except.ok (rt', offs', pairs', items) →
      Interned rt' offs' ∧ (∃ ext, rt' = rt ++ ext) ∧ (∀ p ∈ offs, p ∈ offs') ∧
        items.map (fun it => (it.1, it.2.1)) = l ∧
        (∀ it ∈ items, (it.2.1, it.2.2) ∈ offs') ∧
        (pairs'.map Prod.fst).Nodup ∧
        List.Perm (pairsFlat pairs') (l.map Prod.fst ++ pairsFlat pairs) := by
  intro l
  induction l with
  | nil =>
      intro rt offs pairs rt' offs' pairs' items hint hg hnd h
      simp only [textMeta, Except.ok.injEq, Prod.mk.injEq] at h
      obtain ⟨h1, h2, h3, h4⟩ := h
      subst h1
      subst h2
      subst h3
      subst h4
      exact ⟨hint, ⟨[], by simp⟩, fun p hp => hp, by simp, by simp, hnd, by simp⟩
  | cons hd rest ih =>
      intro rt offs pairs rt' offs' pairs' items hint hg hnd h
      obtain ⟨address, string⟩ := hd
      rw [textMeta] at h
      cases hat : add_text rt offs string with
      | error err => rw [hat] at h; cases h
      | ok r =>
          obtain ⟨offset, rt2, offs2⟩ := r
          rw [hat] at h
          simp only [Bind.bind, Except.bind] at h
          cases hm : textMeta rest rt2 offs2 (indexMapPush pairs offset address) with
          | error err => rw [hm] at h; cases h
          | ok r2 =>
              obtain ⟨rt3, offs3, pairs3, items3⟩ := r2
              rw [hm] at h
              simp only [Except.ok.injEq, Prod.mk.injEq] at h
              obtain ⟨h1, h2, h3, h4⟩ := h
              subst h1
              subst h2
              subst h3
              subst h4
              obtain ⟨hint2, hmem2, ⟨ext1, hext1⟩, hmono1⟩ :=
                add_text_facts hint (hg (address, string) (by simp)) hat
              obtain ⟨hint3, ⟨ext2, hext2⟩, hmono2, hmap, hoffs, hnd3, hperm3⟩ :=
                ih rt2 offs2 (indexMapPush pairs offset address) rt3 offs3 pairs3 items3
                  hint2 (fun p hp => hg p (List.mem_cons_of_mem _ hp))
                  (indexMapPush_nodup hnd offset address) hm
              refine ⟨hint3, ⟨ext1 ++ ext2, by rw [hext2, hext1, List.append_assoc]⟩,
                fun p hp => hmono2 p (hmono1 p hp), ?_, ?_, hnd3, ?_⟩
              · simp only [List.map_cons, hmap]
              · intro it hit
                rcases List.mem_cons.mp hit with heq | hmem
                · subst heq
                  exact hmono2 _ hmem2
                · exact hoffs it hmem
              · have hstep := indexMapPush_flat hnd offset address
                simp only [List.map_cons, List.cons_append]
                exact hperm3.trans ((List.Perm.append_left _ hstep).trans
                  List.perm_middle)

/-- `pairsFold` only appends to its accumulator. -/
theorem pairsFold_racc : ∀ (p : List (Nat × List Nat)) (racc : List Nat),
    pairsFold p racc = racc ++ pairsFold p [] := by
  intro p
  induction p with
  | nil => intro racc; simp [pairsFold]
  | cons b rest ih =>
      intro racc
      obtain ⟨k, bucket⟩ := b
      rw [pairsFold, pairsFold, List.nil_append,
        ih (racc ++ List.insertionSort (· ≤ ·) bucket),
        ih (List.insertionSort (· ≤ ·) bucket)]
      rw [List.append_assoc]

/-- `pairsFold` emits a permutation of the flattened buckets. -/
theorem pairsFold_perm : ∀ (p : List (Nat × List Nat)),
    List.Perm (pairsFold p []) (pairsFlat p) := by
  intro p
  induction p with
  | nil => simp [pairsFold, pairsFlat]
  | cons b rest ih =>
      obtain ⟨k, bucket⟩ := b
      rw [pairsFold, pairsFold_racc]
      simp only [List.nil_append, pairsFlat, List.flatMap_cons]
      exact List.Perm.append (List.perm_insertionSort _ bucket) ih

/-- Inserting a fresh key appends the binding. -/
theorem minsert_fresh {κ α : Type} [DecidableEq κ] {l : List (κ × α)} {k : κ}
    (h : mlookup l k = none) (v : α) : minsert l k v = l ++ [(k, v)] := by
  unfold minsert
  rw [h]
  rfl

/-- Success and effect of `write_pointer` inside the data. -/
theorem write_pointer_ok {st : BinArchive} {a v : Nat} (h : a + 4 ≤ st.size) :
    st.write_pointer a (some v) =
      Except.ok { st with pointers := minsert st.pointers a v } := by
  have hv1 : validate_address a st.size false = Except.ok () :=
    validate_address_ok.mpr (by simp; omega)
  have hv2 : validate_address (a + 4) st.size true = Except.ok () :=
    validate_address_ok.mpr (by simp; omega)
  unfold BinArchive.write_pointer
  dsimp only
  rw [hv1, hv2]
  rfl

/-- Success and effect of `write_string` inside the data. -/
theorem write_string_ok {st : BinArchive} {a : Nat} {v : String} (h : a + 4 ≤ st.size) :
    st.write_string a (some v) =
      Except.ok { st with text := minsert st.text a v } := by
  have hv1 : validate_address a st.size false = Except.ok () :=
    validate_address_ok.mpr (by simp; omega)
  have hv2 : validate_address (a + 4) st.size true = Except.ok () :=
    validate_address_ok.mpr (by simp; omega)
  unfold BinArchive.write_string
  dsimp only
  rw [hv1, hv2]
  rfl

/-- The bucket update performed by `write_label`. -/
def pushLabel (ls : List (Nat × List String)) (address : Nat) (label : String) :
    List (Nat × List String) :=
  match mlookup ls address with
  | some _ => ls.map (fun p => if p.1 = address then (p.1, p.2 ++ [label]) else p)
  | none => ls ++ [(address, [label])]

/-- Success and effect of `write_label` at a valid address. -/
theorem write_label_ok {st : BinArchive} {a : Nat} {label : String} (h : a ≤ st.size) :
    st.write_label a label =
      Except.ok { st with labels := pushLabel st.labels a label } := by
  have hv1 : validate_address a st.size true = Except.ok () :=
    validate_address_ok.mpr (by simp; omega)
  unfold BinArchive.write_label pushLabel
  rw [hv1]
  cases mlookup st.labels a <;> rfl

/-- Reading a cell that holds an encoded value. -/
theorem read_u32_of_slice {st : BinArchive} {a v : Nat}
    (hfit : a + 4 ≤ st.size) (hslice : (st.data.drop a).take 4 = st.endian.encode_u32 v)
    (hv : v < 4294967296) : st.read_u32 a = Except.ok v := by
  have hv1 : validate_address a st.size false = Except.ok () :=
    validate_address_ok.mpr (by simp; omega)
  have hv2 : validate_address (a + 4) st.size true = Except.ok () :=
    validate_address_ok.mpr (by simp; omega)
  unfold BinArchive.read_u32
  rw [hv1, hv2, hslice, decode_encode_u32_small hv]
  rfl

/-- A cursor read over an encoded value. -/
theorem cursorReadU32_of_slice {B : List Nat} {e : Endian} {pos v : Nat}
    (hfit : pos + 4 ≤ B.length) (hslice : (B.drop pos).take 4 = e.encode_u32 v)
    (hv : v < 4294967296) : cursorReadU32 B e pos = Except.ok (v, pos + 4) := by
  unfold cursorReadU32
  rw [if_pos hfit, hslice, decode_encode_u32_small hv]
  rfl

/-- Splitting one encoded entry off a table region. -/
theorem table_slice_step {B : List Nat} {pos : Nat} {x : Nat} {e : Endian}
    {flat : List Nat} {k : Nat}
    (hcur : (B.drop pos).take (4 * k + 4) = e.encode_u32 x ++ flat) :
    (B.drop pos).take 4 = e.encode_u32 x ∧ (B.drop (pos + 4)).take (4 * k) = flat := by
  constructor
  · have h1 := congrArg (List.take 4) hcur
    rw [List.take_take, show (4 : Nat) ⊓ (4 * k + 4) = 4 by omega,
      take_pre (by rw [encode_u32_length])] at h1
    rw [h1]
    exact List.take_of_length_le (by rw [encode_u32_length])
  · have h1 := congrArg (List.drop 4) hcur
    rw [List.drop_take, show 4 * k + 4 - 4 = 4 * k by omega,
      drop_pre (by rw [encode_u32_length]), encode_u32_length, Nat.sub_self,
      List.drop_zero, List.drop_drop] at h1
    exact h1

/-- The classification of one pointer-table entry: the in-cell value, and
either a structural destination or the text annotation read from the file
tail. -/
def PtrItemOk (B : List Nat) (e : Endian) (n : Nat) (D : List Nat)
    (it : Nat × Nat × Option String) : Prop :=
  it.1 + 4 ≤ n ∧ (D.drop it.1).take 4 = e.encode_u32 it.2.1 ∧ it.2.1 < 4294967296 ∧
    match it.2.2 with
    | none => it.2.1 ≤ n
    | some s => n < it.2.1 ∧ cursorReadShiftJis B (it.2.1 + 0x20) = Except.ok s

/-- The structural entries of an item list. -/
def ptrEntries (items : List (Nat × Nat × Option String)) : List (Nat × Nat) :=
  items.filterMap (fun it =>
    match it.2.2 with | none => some (it.1, it.2.1) | some _ => none)

/-- The text entries of an item list. -/
def txtEntries (items : List (Nat × Nat × Option String)) : List (Nat × String) :=
  items.filterMap (fun it =>
    match it.2.2 with | some s => some (it.1, s) | none => none)

/-- Running the `from_bytes` pointer loop over a table of classified
entries: each source is read from the table region, its cell value from the
data, and the loop extends the pointer and text maps accordingly. -/
theorem fromBytesPointerLoop_spec (B : List Nat) (e : Endian) (n : Nat)
    (hn32 : n < 4294967296) :
    ∀ (items : List (Nat × Nat × Option String)) (arch : BinArchive) (pos : Nat),
      arch.endian = e →
      arch.data.length = n →
      (B.drop pos).take (4 * items.length) = (items.map Prod.fst).flatMap e.encode_u32 →
      pos + 4 * items.length ≤ B.length →
      (∀ it ∈ items, PtrItemOk B e n arch.data it) →
      (∀ it ∈ items, mlookup arch.pointers it.1 = none ∧ mlookup arch.text it.1 = none) →
      (items.map Prod.fst).Nodup →
      fromBytesPointerLoop B e n items.length arch pos =
        Except.ok ({ arch with
          pointers := arch.pointers ++ ptrEntries items,
          text := arch.text ++ txtEntries items },
          pos + 4 * items.length) := by
  intro items
  induction items with
  | nil =>
      intro arch pos hend hlen hcur hbound hitems hfresh hnd
      simp only [List.length_nil, Nat.mul_zero, Nat.add_zero, ptrEntries, txtEntries,
        List.filterMap_nil, List.append_nil]
      rfl
  | cons it rest ih =>
      intro arch pos hend hlen hcur hbound hitems hfresh hnd
      obtain ⟨src, val, cls⟩ := it
      obtain ⟨hsrc4, hslice, hval32, hcls⟩ := hitems (src, val, cls) (by simp)
      dsimp only at hsrc4 hslice hval32 hcls
      have hcur2 : (B.drop pos).take (4 * rest.length + 4) =
          e.encode_u32 src ++ (rest.map Prod.fst).flatMap e.encode_u32 := by
        rw [show 4 * rest.length + 4 = 4 * ((src, val, cls) :: rest).length by
          simp; omega]
        rw [hcur]
        simp [List.map_cons, List.flatMap_cons]
      obtain ⟨hhead, htail⟩ := table_slice_step hcur2
      have hlenc : ((src, val, cls) :: rest).length = rest.length + 1 := rfl
      rw [hlenc]
      have hbound2 : pos + 4 * rest.length + 4 ≤ B.length := by
        simp only [List.length_cons] at hbound
        omega
      rw [fromBytesPointerLoop]
      rw [cursorReadU32_of_slice (by omega) hhead (by omega), exceptBind_ok_left]
      dsimp only
      have hsz : arch.size = n := hlen
      have hslice2 : (arch.data.drop src).take 4 = arch.endian.encode_u32 val := by
        rw [hend]
        exact hslice
      rw [read_u32_of_slice (by omega) hslice2 hval32, exceptBind_ok_left]
      have hndtail : (rest.map Prod.fst).Nodup := (List.nodup_cons.mp (by
        simpa using hnd)).2
      have hsrcnotin : src ∉ rest.map Prod.fst := (List.nodup_cons.mp (by
        simpa using hnd)).1
      cases cls with
      | none =>
          have hle : val ≤ n := hcls
          rw [if_neg (by omega)]
          rw [write_pointer_ok (show src + 4 ≤ arch.size from by omega), exceptBind_ok_left,
            minsert_fresh (hfresh (src, val, none) (by simp)).1 val]
          have hrec := ih { arch with pointers := arch.pointers ++ [(src, val)] } (pos + 4)
            hend hlen htail (by omega)
            (fun it2 hit2 => hitems it2 (List.mem_cons_of_mem _ hit2))
            (by
              intro it2 hit2
              have hne : src ≠ it2.1 := by
                intro heq
                exact hsrcnotin (heq ▸ List.mem_map_of_mem Prod.fst hit2)
              obtain ⟨hp, ht⟩ := hfresh it2 (List.mem_cons_of_mem _ hit2)
              constructor
              · rw [mlookup_append, hp]
                rw [mlookup, if_neg hne]
                rfl
              · exact ht)
            hndtail
          rw [hrec]
          simp only [ptrEntries, txtEntries, List.filterMap_cons]
          rw [List.append_assoc]
          have hpos : pos + 4 + 4 * rest.length = pos + 4 * (rest.length + 1) := by omega
          rw [hpos]
          rfl
      | some str =>
          obtain ⟨hgt, hsjis⟩ := hcls
          rw [if_pos (by omega)]
          rw [hsjis, exceptBind_ok_left]
          rw [write_string_ok (show src + 4 ≤ arch.size from by omega), exceptBind_ok_left,
            minsert_fresh (hfresh (src, val, some str) (by simp)).2 str]
          have hrec := ih { arch with text := arch.text ++ [(src, str)] } (pos + 4)
            hend hlen htail (by omega)
            (fun it2 hit2 => hitems it2 (List.mem_cons_of_mem _ hit2))
            (by
              intro it2 hit2
              have hne : src ≠ it2.1 := by
                intro heq
                exact hsrcnotin (heq ▸ List.mem_map_of_mem Prod.fst hit2)
              obtain ⟨hp, ht⟩ := hfresh it2 (List.mem_cons_of_mem _ hit2)
              constructor
              · exact hp
              · rw [mlookup_append, ht]
                rw [mlookup, if_neg hne]
                rfl)
            hndtail
          rw [hrec]
          simp only [ptrEntries, txtEntries, List.filterMap_cons]
          rw [List.append_assoc]
          have hpos : pos + 4 + 4 * rest.length = pos + 4 * (rest.length + 1) := by omega
          rw [hpos]
          rfl

/-- Replaying a list of label-table entries onto the bucket list. -/
def foldPushLabels (ls : List (Nat × List String))
    (entries : List (Nat × Nat × String)) : List (Nat × List String) :=
  entries.foldl (fun ls it => pushLabel ls it.1 it.2.2) ls

/-- Running the `from_bytes` label loop over a table of `(address, offset)`
pairs whose strings are readable at the text start plus offset. -/
theorem fromBytesLabelLoop_spec (B : List Nat) (e : Endian) (ts n : Nat) :
    ∀ (entries : List (Nat × Nat × String)) (arch : BinArchive) (pos : Nat),
      arch.data.length = n →
      (B.drop pos).take (8 * entries.length) =
        (entries.flatMap (fun it => [it.1, it.2.1])).flatMap e.encode_u32 →
      pos + 8 * entries.length ≤ B.length →
      (∀ it ∈ entries, it.1 ≤ n ∧ it.1 < 4294967296 ∧ it.2.1 < 4294967296 ∧
        cursorReadShiftJis B (ts + it.2.1 + 0x20) = Except.ok it.2.2) →
      fromBytesLabelLoop B e ts entries.length arch pos =
        Except.ok ({ arch with labels := foldPushLabels arch.labels entries },
          pos + 8 * entries.length) := by
  intro entries
  induction entries with
  | nil =>
      intro arch pos hlen hcur hbound hitems
      simp only [List.length_nil, Nat.mul_zero, Nat.add_zero, foldPushLabels,
        List.foldl_nil]
      rfl
  | cons it rest ih =>
      intro arch pos hlen hcur hbound hitems
      obtain ⟨addr, off, str⟩ := it
      obtain ⟨haddr, haddr32, hoff32, hsjis⟩ := hitems (addr, off, str) (by simp)
      dsimp only at haddr haddr32 hoff32 hsjis
      have hcur2 : (B.drop pos).take (4 * (2 * rest.length + 1) + 4) =
          e.encode_u32 addr ++ (e.encode_u32 off ++
            (rest.flatMap (fun it => [it.1, it.2.1])).flatMap e.encode_u32) := by
        rw [show 4 * (2 * rest.length + 1) + 4 = 8 * ((addr, off, str) :: rest).length by
          simp; omega]
        rw [hcur]
        simp [List.flatMap_cons]
      obtain ⟨hhead1, htail1⟩ := table_slice_step hcur2
      have hcur3 : (B.drop (pos + 4)).take (4 * (2 * rest.length) + 4) =
          e.encode_u32 off ++
            (rest.flatMap (fun it => [it.1, it.2.1])).flatMap e.encode_u32 := by
        rw [show 4 * (2 * rest.length) + 4 = 4 * (2 * rest.length + 1) by omega]
        exact htail1
      obtain ⟨hhead2, htail2⟩ := table_slice_step hcur3
      have hbound2 : pos + 8 ≤ B.length := by
        simp only [List.length_cons] at hbound
        omega
      have hlenc : ((addr, off, str) :: rest).length = rest.length + 1 := rfl
      rw [hlenc, fromBytesLabelLoop]
      rw [cursorReadU32_of_slice (by omega) hhead1 haddr32, exceptBind_ok_left]
      dsimp only
      rw [cursorReadU32_of_slice (by omega) hhead2 hoff32, exceptBind_ok_left]
      dsimp only
      rw [hsjis, exceptBind_ok_left]
      rw [write_label_ok (show addr ≤ arch.size from by rw [show arch.size = n from hlen]; exact haddr), exceptBind_ok_left]
      have hrec := ih { arch with labels := pushLabel arch.labels addr str } (pos + 4 + 4)
        hlen
        (by
          rw [show 8 * rest.length = 4 * (2 * rest.length) by omega]
          exact htail2)
        (by simp only [List.length_cons] at hbound; omega)
        (fun it2 hit2 => hitems it2 (List.mem_cons_of_mem _ hit2))
      rw [hrec]
      have hpos : pos + 4 + 4 + 8 * rest.length = pos + 8 * (rest.length + 1) := by omega
      rw [hpos]
      rfl

/-- Pushing the remaining labels of a bucket whose entry is already last. -/
theorem pushBucket (a : Nat) :
    ∀ (ss : List String) (acc : List (Nat × List String)) (cur : List String),
      mlookup acc a = none →
      List.foldl (fun ls s => pushLabel ls a s) (acc ++ [(a, cur)]) ss =
        acc ++ [(a, cur ++ ss)] := by
  intro ss
  induction ss with
  | nil => intro acc cur h; simp
  | cons s more ih =>
      intro acc cur h
      rw [List.foldl_cons]
      have hstep : pushLabel (acc ++ [(a, cur)]) a s = acc ++ [(a, cur ++ [s])] := by
        unfold pushLabel
        rw [mlookup_append, h]
        dsimp only
        rw [mlookup, if_pos rfl]
        dsimp only
        rw [List.map_append]
        congr 1
        · conv_rhs => rw [← List.map_id acc]
          apply List.map_congr_left
          intro q hq
          rw [if_neg (mlookup_eq_none.mp h q hq)]
          rfl
        · simp
      rw [hstep, ih acc (cur ++ [s]) h, List.append_assoc]
      rfl

/-- Pushing a fresh nonempty bucket appends it whole. -/
theorem pushLabels_bucket (a : Nat) (ss : List String) (acc : List (Nat × List String))
    (h : mlookup acc a = none) (hne : ss ≠ []) :
    List.foldl (fun ls s => pushLabel ls a s) acc ss = acc ++ [(a, ss)] := by
  cases ss with
  | nil => cases hne rfl
  | cons s more =>
      rw [List.foldl_cons]
      have hstep : pushLabel acc a s = acc ++ [(a, [s])] := by
        unfold pushLabel
        rw [h]
      rw [hstep, pushBucket a more acc [s] h]
      rfl

/-- Replaying the emitted label entries rebuilds the nonempty buckets in
order. -/
theorem pushLabels_all :
    ∀ (L : List (Nat × List String)) (acc : List (Nat × List String)),
      (L.map Prod.fst).Nodup →
      (∀ b ∈ L, mlookup acc b.1 = none) →
      List.foldl (fun ls p => pushLabel ls p.1 p.2) acc (labelEntries L) =
        acc ++ L.filter (fun b => !b.2.isEmpty) := by
  intro L
  induction L with
  | nil => intro acc _ _; simp [labelEntries]
  | cons b rest ih =>
      intro acc hnd hfresh
      obtain ⟨a, bucket⟩ := b
      rw [List.map_cons] at hnd
      obtain ⟨hh, ht⟩ := List.nodup_cons.mp hnd
      simp only [labelEntries, List.flatMap_cons] at *
      rw [List.foldl_append]
      have hfm : List.foldl (fun ls p => pushLabel ls p.1 p.2) acc
          (bucket.map (fun s => (a, s))) =
          List.foldl (fun ls s => pushLabel ls a s) acc bucket := by
        rw [List.foldl_map]
      cases bucket with
      | nil =>
          rw [hfm]
          simp only [List.foldl_nil, List.filter_cons]
          rw [ih acc ht (fun b2 hb2 => hfresh b2 (List.mem_cons_of_mem _ hb2))]
          rfl
      | cons s0 more =>
          rw [hfm, pushLabels_bucket a (s0 :: more) acc
            (hfresh (a, s0 :: more) (by simp)) (by simp)]
          rw [ih (acc ++ [(a, s0 :: more)]) ht
            (by
              intro b2 hb2
              rw [mlookup_append, hfresh b2 (List.mem_cons_of_mem _ hb2)]
              dsimp only
              rw [mlookup, if_neg]
              · rfl
              · intro heq
                apply hh
                have ha : a = b2.1 := heq
                rw [ha]
                exact List.mem_map_of_mem Prod.fst hb2)]
          rw [List.filter_cons, if_pos (by simp), List.append_assoc]
          rfl

/-- Each label item contributes two table words. -/
theorem labelWords_length (items : List (Nat × String × Nat)) :
    (labelWords items).length = 2 * items.length := by
  induction items with
  | nil => rfl
  | cons it rest ih =>
      simp only [labelWords, List.flatMap_cons, List.length_append, List.length_cons,
        List.length_nil] at ih ⊢
      omega

/-- Reading a zero-terminated string recorded by the interning invariant,
through a buffer that ends with the interning buffer. -/
theorem readString_of_interned {B pre rtF : List Nat} (hB : B = pre ++ rtF)
    {offs : List (String × Nat)} (hint : Interned rtF offs) {s : String} {o : Nat}
    (hmem : (s, o) ∈ offs) :
    cursorReadShiftJis B (pre.length + o) = Except.ok s := by
  obtain ⟨hg, hb, hs, hz⟩ := hint (s, o) hmem
  dsimp only at hg hb hs hz
  have hlenB : B.length = pre.length + rtF.length := by rw [hB]; simp
  have hslice : (B.drop (pre.length + o)).take (strBytes s).length = strBytes s := by
    rw [hB]
    have h1 : ((pre ++ rtF).drop (pre.length + o)) = rtF.drop o := by
      rw [drop_pre (by omega)]
      congr 1
      omega
    rw [h1, strBytes_length]
    exact hs
  have hterm : B.getD (pre.length + o + (strBytes s).length) 0 = 0 := by
    rw [hB, strBytes_length, show pre.length + o + s.data.length =
      pre.length + (o + s.data.length) by omega, getD_append_off]
    exact hz
  have htz := takeUntilZero_exact (strBytes s) B (pre.length + o) hslice
    (fun b hbm => by have := strBytes_good hg b hbm; omega)
    (by rw [hlenB, strBytes_length]; omega) hterm
  unfold cursorReadShiftJis
  rw [htz]
  exact decode_shift_jis_strBytes hg

/-- Distinct four-aligned four-byte cells are disjoint. -/
theorem cells_disjoint {ws : List (Nat × List Nat)}
    (hnd : (ws.map Prod.fst).Nodup)
    (hal : ∀ w ∈ ws, w.1 % 4 = 0 ∧ w.2.length = 4) :
    ws.Pairwise (fun u v => u.1 + u.2.length ≤ v.1 ∨ v.1 + v.2.length ≤ u.1) := by
  have hne : ws.Pairwise (fun u v => u.1 ≠ v.1) := (List.pairwise_map.mp hnd)
  refine List.Pairwise.imp_of_mem ?_ hne
  intro u v hu hv hne2
  obtain ⟨hu4, hul⟩ := hal u hu
  obtain ⟨hv4, hvl⟩ := hal v hv
  rw [hul, hvl]
  omega

/-- Two sorted pair lists that are permutations with duplicate-free keys
are equal. -/
theorem eq_of_perm_sorted_keys {α : Type} :
    ∀ (l₁ l₂ : List (Nat × α)), List.Perm l₁ l₂ →
      List.Sorted (fun p q : Nat × α => p.1 ≤ q.1) l₁ →
      List.Sorted (fun p q : Nat × α => p.1 ≤ q.1) l₂ →
      (l₂.map Prod.fst).Nodup → l₁ = l₂ := by
  intro l₁
  induction l₁ with
  | nil =>
      intro l₂ hperm _ _ _
      exact hperm.nil_eq
  | cons p t₁ ih =>
      intro l₂ hperm hs₁ hs₂ hnd
      cases l₂ with
      | nil => exact List.noConfusion hperm.symm.nil_eq
      | cons q t₂ =>
          obtain ⟨hq1, hs₂t⟩ := List.sorted_cons.mp hs₂
          obtain ⟨hp1, hs₁t⟩ := List.sorted_cons.mp hs₁
          rw [List.map_cons] at hnd
          obtain ⟨hqnot, hndt⟩ := List.nodup_cons.mp hnd
          have hpq : p = q := by
            have hpmem : p ∈ q :: t₂ := hperm.mem_iff.mp (by simp)
            rcases List.mem_cons.mp hpmem with heq | hpt₂
            · exact heq
            · exfalso
              have h1 : q.1 ≤ p.1 := hq1 p hpt₂
              have hqmem : q ∈ p :: t₁ := hperm.mem_iff.mpr (by simp)
              rcases List.mem_cons.mp hqmem with heq2 | hqt₁
              · apply hqnot
                rw [heq2]
                exact List.mem_map_of_mem Prod.fst hpt₂
              · have h2 : p.1 ≤ q.1 := hp1 q hqt₁
                apply hqnot
                rw [show q.1 = p.1 from le_antisymm h1 h2]
                exact List.mem_map_of_mem Prod.fst hpt₂
          subst hpq
          rw [ih t₂ hperm.cons_inv hs₁t hs₂t hndt]

/-- A pair list whose keys permute those of a duplicate-free-keyed list and
whose members all belong to it is a permutation of it. -/
theorem perm_of_mem_keys {α : Type} :
    ∀ (l' l : List (Nat × α)),
      List.Perm (l'.map Prod.fst) (l.map Prod.fst) →
      (∀ p ∈ l', p ∈ l) → (l.map Prod.fst).Nodup →
      List.Perm l' l := by
  intro l'
  induction l' with
  | nil =>
      intro l hk _ _
      have h0 : List.Perm ([] : List Nat) (l.map Prod.fst) := by simpa using hk
      have h1 := h0.nil_eq
      cases l with
      | nil => exact List.Perm.refl []
      | cons q t => cases h1
  | cons p t' ih =>
      intro l hk hmem hnd
      have hpl : p ∈ l := hmem p (by simp)
      obtain ⟨l₁, l₂, rfl⟩ := List.append_of_mem hpl
      have hksplit : List.Perm (t'.map Prod.fst) ((l₁ ++ l₂).map Prod.fst) := by
        have h1 : List.Perm ((l₁ ++ p :: l₂).map Prod.fst)
            (p.1 :: (l₁ ++ l₂).map Prod.fst) := by
          simp only [List.map_append, List.map_cons]
          exact List.perm_middle
        have h2 := hk.trans h1
        exact h2.cons_inv
      have hndsub : ((l₁ ++ l₂).map Prod.fst).Nodup := by
        have hsub : (l₁ ++ l₂).Sublist (l₁ ++ p :: l₂) := by
          apply List.Sublist.append_left
          exact List.sublist_cons_self p l₂
        exact List.Nodup.sublist (List.Sublist.map Prod.fst hsub) hnd
      have hp1not : p.1 ∉ (l₁ ++ l₂).map Prod.fst := by
        intro hin
        have h1 : List.Perm ((l₁ ++ p :: l₂).map Prod.fst)
            (p.1 :: (l₁ ++ l₂).map Prod.fst) := by
          simp only [List.map_append, List.map_cons]
          exact List.perm_middle
        have hnd2 := h1.nodup_iff.mp hnd
        exact (List.nodup_cons.mp hnd2).1 hin
      have hmem' : ∀ q ∈ t', q ∈ l₁ ++ l₂ := by
        intro q hq
        have hql : q ∈ l₁ ++ p :: l₂ := hmem q (List.mem_cons_of_mem p hq)
        have hq1 : q.1 ∈ (l₁ ++ l₂).map Prod.fst :=
          hksplit.mem_iff.mp (List.mem_map_of_mem Prod.fst hq)
        rcases List.mem_append.mp hql with h1 | h2
        · exact List.mem_append_left _ h1
        · rcases List.mem_cons.mp h2 with heq | h3
          · exfalso
            apply hp1not
            rw [show p.1 = q.1 from by rw [heq]]
            exact hq1
          · exact List.mem_append_right _ h3
      have hrec := ih (l₁ ++ l₂) hksplit hmem' hndsub
      exact (List.Perm.cons p hrec).trans List.perm_middle.symm

/-- Skipping empty buckets does not change the label interning. -/
theorem labelMeta_filter :
    ∀ (l : List (Nat × List String)) (rt : List Nat) (offs : List (String × Nat)),
      labelMeta (l.filter (fun b => !b.2.isEmpty)) rt offs = labelMeta l rt offs := by
  intro l
  induction l with
  | nil => intro rt offs; rfl
  | cons b rest ih =>
      intro rt offs
      obtain ⟨a, bucket⟩ := b
      rw [List.filter_cons]
      cases bucket with
      | nil =>
          rw [if_neg (by simp)]
          rw [ih]
          conv_rhs => rw [labelMeta]
          cases hm : labelMeta rest rt offs with
          | error err => simp [Bind.bind, Except.bind, labelBucketMeta, hm]
          | ok r =>
              obtain ⟨x, y, z⟩ := r
              simp [Bind.bind, Except.bind, labelBucketMeta, hm]
      | cons s0 more =>
          rw [if_pos (by simp)]
          rw [labelMeta, labelMeta]
          cases hb : labelBucketMeta a (s0 :: more) rt offs with
          | error err => rfl
          | ok r =>
              obtain ⟨rt2, offs2, items1⟩ := r
              simp only [Bind.bind, Except.bind]
              rw [ih]

/-- The leading field of an encoded-header region. -/
theorem header_take {e : Endian} {x : Nat} {l : List Nat} :
    (e.encode_u32 x ++ l).take 4 = e.encode_u32 x := by
  rw [take_pre (by rw [encode_u32_length])]
  exact List.take_of_length_le (by rw [encode_u32_length])

/-- Dropping past one encoded header field. -/
theorem drop_enc {e : Endian} {x : Nat} {l : List Nat} {k : Nat} (h : 4 ≤ k) :
    (e.encode_u32 x ++ l).drop k = l.drop (k - 4) := by
  rw [drop_pre (by rw [encode_u32_length]; omega), encode_u32_length]

/-- Pairing keys with their looked-up values keeps the keys and agrees with
the map. -/
theorem lookup_pairs_spec {κ α : Type} [DecidableEq κ] (m : List (κ × α)) :
    ∀ ks : List κ, (∀ a ∈ ks, (mlookup m a).isSome = true) →
      (ks.filterMap (fun a => (mlookup m a).map (fun v => (a, v)))).map Prod.fst = ks ∧
      ∀ q ∈ ks.filterMap (fun a => (mlookup m a).map (fun v => (a, v))),
        mlookup m q.1 = some q.2 := by
  intro ks
  induction ks with
  | nil => intro _; exact ⟨rfl, by intro q hq; cases hq⟩
  | cons a rest ih =>
      intro h
      obtain ⟨v, hv⟩ := Option.isSome_iff_exists.mp (h a (by simp))
      obtain ⟨ih1, ih2⟩ := ih (fun b hb => h b (List.mem_cons_of_mem a hb))
      rw [List.filterMap_cons, hv]
      dsimp only [Option.map]
      constructor
      · show (a, v).1 :: List.map Prod.fst
            (List.filterMap (fun a => Option.map (fun v => (a, v)) (mlookup m a)) rest) =
            a :: rest
        rw [ih1]
      · intro q hq
        rcases List.mem_cons.mp hq with heq | hmem
        · subst heq
          exact hv
        · exact ih2 q hmem

/-- The endian-dependent label sort is a permutation. -/
theorem sortLabelEntries_perm (e : Endian) (l : List (Nat × List String)) :
    List.Perm (sortLabelEntries e l) l := by
  cases e <;> exact List.perm_insertionSort _ l

/-- The entry classifiers distribute over append. -/
theorem ptrEntries_append (a b : List (Nat × Nat × Option String)) :
    ptrEntries (a ++ b) = ptrEntries a ++ ptrEntries b :=
  List.filterMap_append a b _

/-- The text classifier distributes over append. -/
theorem txtEntries_append (a b : List (Nat × Nat × Option String)) :
    txtEntries (a ++ b) = txtEntries a ++ txtEntries b :=
  List.filterMap_append a b _

/-- Structural items all classify as pointers. -/
theorem ptrEntries_nones :
    ∀ l : List (Nat × Nat),
      ptrEntries (l.map (fun p => (p.1, p.2, (none : Option String)))) = l := by
  intro l
  induction l with
  | nil => rfl
  | cons p rest ih =>
      simp only [List.map_cons, ptrEntries, List.filterMap_cons] at ih ⊢
      rw [ih]

/-- Annotation items never classify as pointers. -/
theorem ptrEntries_somes (ts : Nat) :
    ∀ l : List (Nat × String × Nat),
      ptrEntries (l.map (fun q => (q.1, ts + q.2.2, some q.2.1))) = [] := by
  intro l
  induction l with
  | nil => rfl
  | cons q rest ih =>
      simp only [List.map_cons, ptrEntries, List.filterMap_cons] at ih ⊢
      rw [ih]

/-- Structural items never classify as annotations. -/
theorem txtEntries_nones :
    ∀ l : List (Nat × Nat),
      txtEntries (l.map (fun p => (p.1, p.2, (none : Option String)))) = [] := by
  intro l
  induction l with
  | nil => rfl
  | cons p rest ih =>
      simp only [List.map_cons, txtEntries, List.filterMap_cons] at ih ⊢
      rw [ih]

/-- Annotation items all classify as annotations. -/
theorem txtEntries_somes (ts : Nat) :
    ∀ l : List (Nat × String × Nat),
      txtEntries (l.map (fun q => (q.1, ts + q.2.2, some q.2.1))) =
        l.map (fun q => (q.1, q.2.1)) := by
  intro l
  induction l with
  | nil => rfl
  | cons q rest ih =>
      simp only [List.map_cons, txtEntries, List.filterMap_cons] at ih ⊢
      rw [ih]

/-- C1 (amended): the round trip holds on canonical buffers — the image of
`serialize` on a store with no C strings, duplicate-free four-aligned
in-data pointer and annotation sources, in-bounds destinations and label
addresses, strictly-ASCII strings, and a file size below `2^32`:
`from_bytes` parses the serialized buffer and the parsed store
re-serializes to the same buffer byte for byte, pointer, text and label
tables included.  For arbitrary parsed buffers the claim fails:
`from_bytes` never reads the size field at offset 0, while `serialize`
recomputes it, so a parsed buffer with a non-canonical header round-trips
to a different buffer (see the counterexample). -/
theorem from_bytes_serialize_roundtrip (st : BinArchive) (B : List Nat)
    (hser : st.serialize = Except.ok B)
    (hcs : st.cstrings = [])
    (hB32 : B.length < 4294967296)
    (hptr : ∀ p ∈ st.pointers, p.1 % 4 = 0 ∧ p.1 + 4 ≤ st.data.length ∧
      p.2 ≤ st.data.length)
    (htext : ∀ p ∈ st.text, p.1 % 4 = 0 ∧ p.1 + 4 ≤ st.data.length ∧
      goodString p.2 = true)
    (hlbl : ∀ b ∈ st.labels, b.1 ≤ st.data.length ∧ ∀ s ∈ b.2, goodString s = true)
    (hndp : (st.pointers.map Prod.fst).Nodup)
    (hndt : (st.text.map Prod.fst).Nodup)
    (hndl : (st.labels.map Prod.fst).Nodup)
    (hdisj : ∀ a ∈ st.text.map Prod.fst, a ∉ st.pointers.map Prod.fst) :
    ∃ st', BinArchive.from_bytes B st.endian = Except.ok st' ∧
      st'.serialize = Except.ok B := by
  unfold BinArchive.serialize at hser
  rw [hcs] at hser
  simp only [List.insertionSort, cstringFold, List.append_nil, Bind.bind, Except.bind] at hser
  rw [pointerWriteFold_eq, labelFold_eq] at hser
  simp only [show pad4 [] = [] from rfl, List.length_nil, Nat.add_zero] at hser
  cases hlm : labelMeta (sortLabelEntries st.endian st.labels) [] [] with
  | error err => rw [hlm] at hser; simp [Except.bind] at hser
  | ok rl =>
  obtain ⟨rtL, offsL, itemsL⟩ := rl
  rw [hlm] at hser
  simp only [Except.bind, List.nil_append] at hser
  rw [textFold_eq] at hser
  cases htm : textMeta (List.insertionSort (fun x y : Nat × String => x.1 ≤ y.1) st.text)
      rtL offsL [] with
  | error err => rw [htm] at hser; simp [Except.bind] at hser
  | ok rt4 =>
  obtain ⟨rtF, offsF, pairsF, itemsT⟩ := rt4
  rw [htm] at hser
  simp only [Except.bind, Except.ok.injEq] at hser
  rw [pairsFold_racc, ← applyWrites_append] at hser
  simp only [List.append_nil, List.append_assoc] at hser
  set n := st.data.length with hn
  set P := List.insertionSort (fun x y : Nat × Nat => x.1 ≤ y.1) st.pointers with hP
  set TS := List.insertionSort (fun x y : Nat × String => x.1 ≤ y.1) st.text with hTS
  set RL := labelWords itemsL with hRL
  set ts := n + (st.pointers.length + st.text.length + RL.length) * 4 with hts
  set TA := pairsFold pairsF [] with hTA
  set ws := P.map (fun p => (p.1, st.endian.encode_u32 p.2)) ++
    textWrites st.endian ts itemsT with hws
  set D2 := applyWrites st.data ws with hD2
  set RP := P.map Prod.fst ++ TA with hRP
  have hPperm : List.Perm P st.pointers := by
    rw [hP]
    exact List.perm_insertionSort _ _
  have hTSperm : List.Perm TS st.text := by
    rw [hTS]
    exact List.perm_insertionSort _ _
  have hPlen : P.length = st.pointers.length := hPperm.length_eq
  have hTSlen : TS.length = st.text.length := hTSperm.length_eq
  have hintNil : Interned [] [] := fun p hp => absurd hp (List.not_mem_nil p)
  obtain ⟨hintL, ⟨extL, hextL⟩, hmonoL0, hmapL, hoffsL⟩ :=
    labelMeta_facts (sortLabelEntries st.endian st.labels) [] [] rtL offsL itemsL hintNil
      (fun b hb s hs =>
        (hlbl b ((sortLabelEntries_perm st.endian st.labels).mem_iff.mp hb)).2 s hs) hlm
  obtain ⟨hintF, ⟨extT, hextT⟩, hmonoLF, hmapT, hoffsT, hndpairsF, hpermFlat⟩ :=
    textMeta_facts TS rtL offsL [] rtF offsF pairsF itemsT hintL
      (fun p hp => (htext p (hTSperm.mem_iff.mp hp)).2.2) (by simp) htm
  have hTAperm : List.Perm TA (TS.map Prod.fst) := by
    rw [hTA]
    refine (pairsFold_perm pairsF).trans ?_
    simpa [pairsFlat] using hpermFlat
  have hTAlen : TA.length = st.text.length := by
    rw [hTAperm.length_eq, List.length_map, hTSlen]
  have hRPlen : RP.length = st.pointers.length + st.text.length := by
    rw [hRP]
    simp [hPlen, hTAlen]
  have hRLlen : RL.length = 2 * itemsL.length := by
    rw [hRL]
    exact labelWords_length itemsL
  have hndP : (P.map Prod.fst).Nodup := ((hPperm.map Prod.fst).nodup_iff).mpr hndp
  have hndTS : (TS.map Prod.fst).Nodup := ((hTSperm.map Prod.fst).nodup_iff).mpr hndt
  have hndTA : TA.Nodup := (hTAperm.nodup_iff).mpr hndTS
  have hdisjPT : ∀ a ∈ TA, a ∉ P.map Prod.fst := by
    intro a ha hmem
    exact hdisj a ((hTSperm.map Prod.fst).mem_iff.mp (hTAperm.mem_iff.mp ha))
      ((hPperm.map Prod.fst).mem_iff.mp hmem)
  have hndRP : RP.Nodup := by
    rw [hRP, List.nodup_append]
    exact ⟨hndP, hndTA, fun a ha hb => hdisjPT a hb ha⟩
  have hkeysT : itemsT.map Prod.fst = TS.map Prod.fst := by
    rw [← hmapT, List.map_map]
    rfl
  have hwsfit : ∀ w ∈ ws, w.1 + w.2.length ≤ n := by
    intro w hw
    rw [hws] at hw
    rcases List.mem_append.mp hw with hw1 | hw2
    · obtain ⟨p, hp, rfl⟩ := List.mem_map.mp hw1
      dsimp only
      rw [encode_u32_length]
      exact (hptr p (hPperm.mem_iff.mp hp)).2.1
    · simp only [textWrites] at hw2
      obtain ⟨it, hit, rfl⟩ := List.mem_map.mp hw2
      dsimp only
      rw [encode_u32_length]
      have hmemTS : (it.1, it.2.1) ∈ TS := by
        rw [← hmapT]
        exact List.mem_map_of_mem _ hit
      exact (htext (it.1, it.2.1) (hTSperm.mem_iff.mp hmemTS)).2.1
  have hwsal : ∀ w ∈ ws, w.1 % 4 = 0 ∧ w.2.length = 4 := by
    intro w hw
    rw [hws] at hw
    rcases List.mem_append.mp hw with hw1 | hw2
    · obtain ⟨p, hp, rfl⟩ := List.mem_map.mp hw1
      dsimp only
      rw [encode_u32_length]
      exact ⟨(hptr p (hPperm.mem_iff.mp hp)).1, rfl⟩
    · simp only [textWrites] at hw2
      obtain ⟨it, hit, rfl⟩ := List.mem_map.mp hw2
      dsimp only
      rw [encode_u32_length]
      have hmemTS : (it.1, it.2.1) ∈ TS := by
        rw [← hmapT]
        exact List.mem_map_of_mem _ hit
      exact ⟨(htext (it.1, it.2.1) (hTSperm.mem_iff.mp hmemTS)).1, rfl⟩
  have hwkeys_eq : ws.map Prod.fst = P.map Prod.fst ++ TS.map Prod.fst := by
    rw [hws, List.map_append]
    congr 1
    · rw [List.map_map]
      rfl
    · rw [← hkeysT]
      simp only [textWrites]
      rw [List.map_map]
      rfl
  have hwskeys : (ws.map Prod.fst).Nodup := by
    rw [hwkeys_eq, List.nodup_append]
    refine ⟨hndP, hndTS, ?_⟩
    intro a ha hb
    exact hdisjPT a (hTAperm.mem_iff.mpr hb) ha
  have hwsdisj := cells_disjoint hwskeys hwsal
  have hD2len : D2.length = n := by
    rw [hD2]
    exact applyWrites_length hwsfit
  have hcellP : ∀ p ∈ P, (D2.drop p.1).take 4 = st.endian.encode_u32 p.2 := by
    intro p hp
    have hmem : (p.1, st.endian.encode_u32 p.2) ∈ ws := by
      rw [hws]
      exact List.mem_append_left _ (List.mem_map_of_mem _ hp)
    have h := applyWrites_slice hwsfit hwsdisj hmem
    rw [encode_u32_length] at h
    rw [hD2]
    exact h
  have hcellT : ∀ it ∈ itemsT, (D2.drop it.1).take 4 = st.endian.encode_u32 (ts + it.2.2) := by
    intro it hit
    have hmem : (it.1, st.endian.encode_u32 (ts + it.2.2)) ∈ ws := by
      rw [hws]
      refine List.mem_append_right _ ?_
      simp only [textWrites]
      exact List.mem_map_of_mem _ hit
    have h := applyWrites_slice hwsfit hwsdisj hmem
    rw [encode_u32_length] at h
    rw [hD2]
    exact h
  have hlenB : B.length = ts + 32 + rtF.length := by
    rw [← hser]
    simp only [List.length_append, encode_u32_length, List.length_replicate,
      flatMap_encode_length]
    rw [hts]
    omega
  have hn32 : n < 4294967296 := by omega
  have hRP32 : RP.length < 4294967296 := by omega
  have hlc32 : itemsL.length < 4294967296 := by omega
  have hts32 : ts < 4294967296 := by omega
  rw [hD2len, hRLlen, show 2 * itemsL.length / 2 = itemsL.length from by omega] at hser
  have hread1 : cursorReadU32 B st.endian 4 = Except.ok (n, 8) := by
    refine cursorReadU32_of_slice (by omega) ?_ hn32
    rw [← hser, drop_enc (by omega), show (4 : Nat) - 4 = 0 from rfl, List.drop_zero]
    exact header_take
  have hread2 : cursorReadU32 B st.endian 8 = Except.ok (RP.length, 12) := by
    refine cursorReadU32_of_slice (by omega) ?_ hRP32
    rw [← hser, drop_enc (by omega), drop_enc (by omega),
      show (8 : Nat) - 4 - 4 = 0 from rfl, List.drop_zero]
    exact header_take
  have hread3 : cursorReadU32 B st.endian 12 = Except.ok (itemsL.length, 16) := by
    refine cursorReadU32_of_slice (by omega) ?_ hlc32
    rw [← hser, drop_enc (by omega), drop_enc (by omega), drop_enc (by omega),
      show (12 : Nat) - 4 - 4 - 4 = 0 from rfl, List.drop_zero]
    exact header_take
  have hdrop32 : B.drop 32 = D2 ++
      (RP.flatMap st.endian.encode_u32 ++ (RL.flatMap st.endian.encode_u32 ++ rtF)) := by
    rw [← hser, drop_enc (by omega), drop_enc (by omega), drop_enc (by omega),
      drop_enc (by omega), show (32 : Nat) - 4 - 4 - 4 - 4 = 16 from rfl,
      drop_pre (by rw [List.length_replicate]), List.length_replicate, Nat.sub_self,
      List.drop_zero]
  have hreadD : cursorReadExact B 32 n = Except.ok D2 := by
    unfold cursorReadExact
    rw [if_pos (by omega), hdrop32, take_pre (by omega),
      List.take_of_length_le (by omega)]
  have hdropP : B.drop (32 + n) =
      RP.flatMap st.endian.encode_u32 ++ (RL.flatMap st.endian.encode_u32 ++ rtF) := by
    have h := congrArg (List.drop n) hdrop32
    rw [List.drop_drop, drop_pre (by omega), show n - D2.length = 0 from by omega,
      List.drop_zero] at h
    exact h
  have hdropL : B.drop (32 + n + 4 * RP.length) =
      RL.flatMap st.endian.encode_u32 ++ rtF := by
    have h := congrArg (List.drop (4 * RP.length)) hdropP
    rw [List.drop_drop, drop_pre (le_of_eq (flatMap_encode_length _ _)),
      flatMap_encode_length, Nat.sub_self, List.drop_zero] at h
    exact h
  have hdropT : B.drop (ts + 32) = rtF := by
    have h := congrArg (List.drop (4 * RL.length)) hdropL
    rw [List.drop_drop, drop_pre (le_of_eq (flatMap_encode_length _ _)),
      flatMap_encode_length, Nat.sub_self, List.drop_zero] at h
    rw [show ts + 32 = 32 + n + 4 * RP.length + 4 * RL.length from by omega]
    exact h
  have hBsplit : B = B.take (ts + 32) ++ rtF := by
    conv_lhs => rw [← List.take_append_drop (ts + 32) B]
    rw [hdropT]
  have hprelen : (B.take (ts + 32)).length = ts + 32 := by
    rw [List.length_take]
    omega
  have hreadStr : ∀ s o, (s, o) ∈ offsF →
      cursorReadShiftJis B (ts + o + 32) = Except.ok s := by
    intro s o hmem
    have h := readString_of_interned hBsplit hintF hmem
    rw [hprelen] at h
    rw [show ts + o + 32 = ts + 32 + o from by omega]
    exact h
  have hTAkeys : ∀ a ∈ TA, (mlookup itemsT a).isSome = true := by
    intro a ha
    apply mlookup_isSome_mem
    rw [hkeysT]
    exact hTAperm.mem_iff.mp ha
  obtain ⟨hTXTfst, hTXTlook⟩ := lookup_pairs_spec itemsT TA hTAkeys
  set TXTpairs := TA.filterMap (fun a => (mlookup itemsT a).map (fun v => (a, v)))
    with hTXTp
  set itemsP := P.map (fun p => (p.1, p.2, (none : Option String))) ++
    TXTpairs.map (fun q => (q.1, ts + q.2.2, some q.2.1)) with hitemsP
  have hTXTplen : TXTpairs.length = TA.length := by
    rw [← hTXTfst, List.length_map]
  have hTXTfst2 : (TXTpairs.map (fun q => (q.1, ts + q.2.2, some q.2.1))).map Prod.fst =
      TA := by
    rw [List.map_map]
    exact hTXTfst
  have hPmapfst : (P.map (fun p => (p.1, p.2, (none : Option String)))).map Prod.fst =
      P.map Prod.fst := by
    rw [List.map_map]
    rfl
  have hitemsPfst : itemsP.map Prod.fst = RP := by
    rw [hitemsP, List.map_append, hPmapfst, hTXTfst2, hRP]
  have hitemsPlen : itemsP.length = RP.length := by
    rw [← hitemsPfst, List.length_map]
  have hitemsPok : ∀ it ∈ itemsP, PtrItemOk B st.endian n D2 it := by
    intro it hit
    rw [hitemsP] at hit
    rcases List.mem_append.mp hit with h1 | h2
    · obtain ⟨p, hp, rfl⟩ := List.mem_map.mp h1
      obtain ⟨hal, hfit4, hdst⟩ := hptr p (hPperm.mem_iff.mp hp)
      simp only [PtrItemOk]
      exact ⟨hfit4, hcellP p hp, by omega, hdst⟩
    · obtain ⟨q, hq, rfl⟩ := List.mem_map.mp h2
      have hlook := hTXTlook q hq
      have hqmem : q ∈ itemsT := by
        have h3 := mlookup_mem hlook
        simpa using h3
      have hTSmem : (q.1, q.2.1) ∈ TS := by
        rw [← hmapT]
        exact List.mem_map_of_mem _ hqmem
      obtain ⟨hal, hfit4, hgood⟩ := htext (q.1, q.2.1) (hTSperm.mem_iff.mp hTSmem)
      have hoffmem : (q.2.1, q.2.2) ∈ offsF := hoffsT q hqmem
      have hb2 := (hintF (q.2.1, q.2.2) hoffmem).2.1
      dsimp only at hb2
      have htpos : 1 ≤ st.text.length :=
        List.length_pos_of_mem (hTSperm.mem_iff.mp hTSmem)
      simp only [PtrItemOk]
      refine ⟨hfit4, hcellT q hqmem, by omega, by omega, ?_⟩
      exact hreadStr q.2.1 q.2.2 hoffmem
  have hcurP : (B.drop (32 + n)).take (4 * itemsP.length) =
      (itemsP.map Prod.fst).flatMap st.endian.encode_u32 := by
    rw [hitemsPfst, hitemsPlen, hdropP, take_pre (le_of_eq (flatMap_encode_length _ _).symm),
      List.take_of_length_le (le_of_eq (flatMap_encode_length _ _))]
  have hboundP : 32 + n + 4 * itemsP.length ≤ B.length := by
    rw [hitemsPlen]
    omega
  have hndRPfst : (itemsP.map Prod.fst).Nodup := by
    rw [hitemsPfst]
    exact hndRP
  set entries := itemsL.map (fun it => (it.1, it.2.2, it.2.1)) with hentries
  have hentlen : entries.length = itemsL.length := List.length_map itemsL _
  have hentwords : entries.flatMap (fun it => [it.1, it.2.1]) = RL := by
    rw [hentries, List.flatMap_map, hRL]
    rfl
  have hcurL : (B.drop (32 + n + 4 * RP.length)).take (8 * entries.length) =
      (entries.flatMap (fun it => [it.1, it.2.1])).flatMap st.endian.encode_u32 := by
    rw [hentwords, hentlen, hdropL, show 8 * itemsL.length = 4 * RL.length from by omega,
      take_pre (le_of_eq (flatMap_encode_length _ _).symm),
      List.take_of_length_le (le_of_eq (flatMap_encode_length _ _))]
  have hboundL : 32 + n + 4 * RP.length + 8 * entries.length ≤ B.length := by
    rw [hentlen]
    omega
  have hentok : ∀ it ∈ entries, it.1 ≤ n ∧ it.1 < 4294967296 ∧ it.2.1 < 4294967296 ∧
      cursorReadShiftJis B (ts + it.2.1 + 0x20) = Except.ok it.2.2 := by
    intro it hit
    rw [hentries] at hit
    obtain ⟨q, hq, rfl⟩ := List.mem_map.mp hit
    have hle : (q.1, q.2.1) ∈ labelEntries (sortLabelEntries st.endian st.labels) := by
      rw [← hmapL]
      exact List.mem_map_of_mem _ hq
    obtain ⟨b, hb, s0, hs0, heq⟩ : ∃ b ∈ sortLabelEntries st.endian st.labels,
        ∃ s0 ∈ b.2, (b.1, s0) = (q.1, q.2.1) := by
      simp only [labelEntries, List.mem_flatMap, List.mem_map] at hle
      obtain ⟨b, hb, s0, hs0, heq⟩ := hle
      exact ⟨b, hb, s0, hs0, heq⟩
    have hbfst : b.1 = q.1 := congrArg Prod.fst heq
    have hbl := (hlbl b ((sortLabelEntries_perm st.endian st.labels).mem_iff.mp hb)).1
    have hoff : (q.2.1, q.2.2) ∈ offsF := hmonoLF _ (hoffsL q hq)
    have hb2 := (hintF (q.2.1, q.2.2) hoff).2.1
    dsimp only at hb2 ⊢
    refine ⟨by omega, by omega, by omega, ?_⟩
    exact hreadStr q.2.1 q.2.2 hoff
  have hptrE : ptrEntries itemsP = P := by
    rw [hitemsP, ptrEntries_append, ptrEntries_nones, ptrEntries_somes, List.append_nil]
  have htxtE : txtEntries itemsP = TXTpairs.map (fun q => (q.1, q.2.1)) := by
    rw [hitemsP, txtEntries_append, txtEntries_nones, txtEntries_somes, List.nil_append]
  have hndLs : ((sortLabelEntries st.endian st.labels).map Prod.fst).Nodup :=
    (((sortLabelEntries_perm st.endian st.labels).map Prod.fst).nodup_iff).mpr hndl
  have hfold : foldPushLabels ([] : List (Nat × List String)) entries =
      (sortLabelEntries st.endian st.labels).filter (fun b => !b.2.isEmpty) := by
    have h1 : foldPushLabels ([] : List (Nat × List String)) entries =
        List.foldl (fun ls p => pushLabel ls p.1 p.2) []
          (labelEntries (sortLabelEntries st.endian st.labels)) := by
      unfold foldPushLabels
      rw [← hmapL, hentries, List.foldl_map, List.foldl_map]
    rw [h1, pushLabels_all (sortLabelEntries st.endian st.labels) [] hndLs
      (fun b _ => rfl), List.nil_append]
  refine ⟨⟨D2, TXTpairs.map (fun q => (q.1, q.2.1)), P,
    (sortLabelEntries st.endian st.labels).filter (fun b => !b.2.isEmpty), [],
    st.endian⟩, ?_, ?_⟩
  · unfold BinArchive.from_bytes
    rw [if_neg (by omega), hread1, exceptBind_ok_left]
    dsimp only
    rw [hread2, exceptBind_ok_left]
    dsimp only
    rw [hread3, exceptBind_ok_left]
    dsimp only
    rw [show (n + RP.length * 4 + itemsL.length * 8) % 4294967296 = ts from by omega,
      if_neg (by omega), hreadD, exceptBind_ok_left]
    rw [← hitemsPlen]
    rw [fromBytesPointerLoop_spec B st.endian n hn32 itemsP
      { BinArchive.new st.endian with data := D2 } (0x20 + n) rfl hD2len hcurP hboundP
      hitemsPok (fun it _ => ⟨rfl, rfl⟩) hndRPfst]
    rw [exceptBind_ok_left]
    dsimp only [BinArchive.new]
    simp only [List.nil_append]
    rw [hptrE, htxtE]
    rw [hitemsPlen, ← hentlen]
    rw [fromBytesLabelLoop_spec B st.endian ts n entries
      ⟨D2, TXTpairs.map (fun q => (q.1, q.2.1)), P, [], [], st.endian⟩
      (32 + n + 4 * RP.length) hD2len hcurL hboundL hentok]
    rw [exceptBind_ok_left]
    dsimp only
    rw [hfold]
  · have hsortP : List.insertionSort (fun x y : Nat × Nat => x.1 ≤ y.1) P = P := by
      have hI1 : IsTotal (Nat × Nat) (fun x y : Nat × Nat => x.1 ≤ y.1) :=
        ⟨fun a b => le_total a.1 b.1⟩
      have hI2 : IsTrans (Nat × Nat) (fun x y : Nat × Nat => x.1 ≤ y.1) :=
        ⟨fun a b c h1 h2 => le_trans h1 h2⟩
      apply List.Sorted.insertionSort_eq
      rw [hP]
      exact List.sorted_insertionSort _ st.pointers
    have hI1t : IsTotal (Nat × String) (fun x y : Nat × String => x.1 ≤ y.1) :=
      ⟨fun a b => le_total a.1 b.1⟩
    have hI2t : IsTrans (Nat × String) (fun x y : Nat × String => x.1 ≤ y.1) :=
      ⟨fun a b c h1 h2 => le_trans h1 h2⟩
    have hsortedTS : List.Sorted (fun x y : Nat × String => x.1 ≤ y.1) TS := by
      rw [hTS]
      exact List.sorted_insertionSort _ st.text
    have hTXTkeys : ((TXTpairs.map (fun q => (q.1, q.2.1))).map Prod.fst).Perm
        (TS.map Prod.fst) := by
      have h1 : (TXTpairs.map (fun q => (q.1, q.2.1))).map Prod.fst = TA := by
        rw [List.map_map]
        exact hTXTfst
      rw [h1]
      exact hTAperm
    have hTXTmem : ∀ p ∈ TXTpairs.map (fun q => (q.1, q.2.1)), p ∈ TS := by
      intro p hp
      obtain ⟨q, hq, rfl⟩ := List.mem_map.mp hp
      have hqmem : q ∈ itemsT := by
        have h3 := mlookup_mem (hTXTlook q hq)
        simpa using h3
      rw [← hmapT]
      exact List.mem_map_of_mem _ hqmem
    have hTXTperm : (TXTpairs.map (fun q => (q.1, q.2.1))).Perm TS :=
      perm_of_mem_keys _ TS hTXTkeys hTXTmem hndTS
    have hsortTXT : List.insertionSort (fun x y : Nat × String => x.1 ≤ y.1)
        (TXTpairs.map (fun q => (q.1, q.2.1))) = TS :=
      eq_of_perm_sorted_keys _ _ ((List.perm_insertionSort _ _).trans hTXTperm)
        (List.sorted_insertionSort _ _) hsortedTS hndTS
    have hsortLF : sortLabelEntries st.endian
        ((sortLabelEntries st.endian st.labels).filter (fun b => !b.2.isEmpty)) =
        (sortLabelEntries st.endian st.labels).filter (fun b => !b.2.isEmpty) := by
      cases hE : st.endian with
      | Little =>
          simp only [sortLabelEntries]
          have hI1 : IsTotal (Nat × List String)
              (fun x y : Nat × List String => x.1 ≤ y.1) :=
            ⟨fun a b => le_total a.1 b.1⟩
          have hI2 : IsTrans (Nat × List String)
              (fun x y : Nat × List String => x.1 ≤ y.1) :=
            ⟨fun a b c h1 h2 => le_trans h1 h2⟩
          exact List.Sorted.insertionSort_eq
            (List.Sorted.filter _ (List.sorted_insertionSort _ st.labels))
      | Big =>
          simp only [sortLabelEntries]
          have hI1 : IsTotal (Nat × List String)
              (fun x y : Nat × List String => x.2 ≤ y.2) :=
            ⟨fun a b => le_total a.2 b.2⟩
          have hI2 : IsTrans (Nat × List String)
              (fun x y : Nat × List String => x.2 ≤ y.2) :=
            ⟨fun a b c h1 h2 => le_trans h1 h2⟩
          exact List.Sorted.insertionSort_eq
            (List.Sorted.filter _ (List.sorted_insertionSort _ st.labels))
    have hnopP : applyWrites D2 (P.map (fun p => (p.1, st.endian.encode_u32 p.2))) =
        D2 := by
      apply applyWrites_nop
      intro w hw
      obtain ⟨p, hp, rfl⟩ := List.mem_map.mp hw
      dsimp only
      rw [encode_u32_length]
      refine ⟨?_, hcellP p hp⟩
      have := (hptr p (hPperm.mem_iff.mp hp)).2.1
      omega
    have hnopT : applyWrites D2 (textWrites st.endian ts itemsT) = D2 := by
      apply applyWrites_nop
      intro w hw
      simp only [textWrites] at hw
      obtain ⟨it, hit, rfl⟩ := List.mem_map.mp hw
      dsimp only
      rw [encode_u32_length]
      refine ⟨?_, hcellT it hit⟩
      have hmemTS : (it.1, it.2.1) ∈ TS := by
        rw [← hmapT]
        exact List.mem_map_of_mem _ hit
      have := (htext (it.1, it.2.1) (hTSperm.mem_iff.mp hmemTS)).2.1
      omega
    unfold BinArchive.serialize
    dsimp only
    simp only [List.insertionSort, cstringFold, List.append_nil, Bind.bind, Except.bind]
    rw [hsortP, pointerWriteFold_eq, hnopP]
    simp only [show pad4 [] = [] from rfl, List.length_nil, Nat.add_zero]
    rw [hsortLF, labelFold_eq, labelMeta_filter, hlm]
    simp only [Except.bind, List.nil_append]
    rw [show D2.length + (P.length + (TXTpairs.map (fun q => (q.1, q.2.1))).length +
        (labelWords itemsL).length) * 4 = ts from by
      have h1 : (labelWords itemsL).length = 2 * itemsL.length := labelWords_length itemsL
      rw [List.length_map]
      omega]
    rw [textFold_eq, hsortTXT, htm]
    simp only [Except.bind]
    rw [hnopT, pairsFold_racc, ← hTA, ← hRP]
    simp only [List.append_nil, List.append_assoc]
    rw [hD2len, ← hRL, hRLlen, show 2 * itemsL.length / 2 = itemsL.length from by omega]
    rw [hser]

/-- Counterexample for C1 as stated: a buffer whose size field at offset 0
is 255 (not its length, 32) parses successfully, and serializing the result
yields the canonical buffer, which differs at offset 0. -/
theorem from_bytes_serialize_roundtrip_counterexample :
    BinArchive.from_bytes (255 :: List.replicate 31 0) .Little =
      Except.ok (⟨[], [], [], [], [], .Little⟩ : BinArchive) ∧
    (⟨[], [], [], [], [], .Little⟩ : BinArchive).serialize =
      Except.ok (32 :: List.replicate 31 0) ∧
    (32 :: List.replicate 31 0 : List Nat) ≠ 255 :: List.replicate 31 0 := by
  decide

/-- Witness for C1: a canonical buffer carrying one structural pointer, two
deduplicated text annotations and one label round-trips byte for byte. -/
theorem from_bytes_serialize_roundtrip_witness :
    ∃ st', BinArchive.from_bytes
        ([69, 0, 0, 0, 12, 0, 0, 0, 3, 0, 0, 0, 1, 0, 0, 0] ++ List.replicate 16 0 ++
          [4, 0, 0, 0, 34, 0, 0, 0, 34, 0, 0, 0, 0, 0, 0, 0, 4, 0, 0, 0, 8, 0, 0, 0,
            0, 0, 0, 0, 0, 0, 0, 0, 76, 0, 65, 66, 0]) Endian.Little = Except.ok st' ∧
      st'.serialize = Except.ok
        ([69, 0, 0, 0, 12, 0, 0, 0, 3, 0, 0, 0, 1, 0, 0, 0] ++ List.replicate 16 0 ++
          [4, 0, 0, 0, 34, 0, 0, 0, 34, 0, 0, 0, 0, 0, 0, 0, 4, 0, 0, 0, 8, 0, 0, 0,
            0, 0, 0, 0, 0, 0, 0, 0, 76, 0, 65, 66, 0]) :=
  from_bytes_serialize_roundtrip
    ⟨[0, 0, 0, 0, 0, 0, 0, 0, 0, 0, 0, 0], [(4, "AB"), (8, "AB")], [(0, 4)],
      [(0, ["L"])], [], Endian.Little⟩ _
    (by decide) rfl (by decide) (by decide) (by decide) (by decide) (by decide)
    (by decide) (by decide) (by decide)

/-- The failure modes of `from_bytes`: the two explicit `ArchiveTooSmall`
checks, `OutOfBoundsAddress` raised on a bad internal pointer or label
address, and the propagated cursor/codec errors (`IOError`,
`ConversionError`, `UnterminatedString`, `DecodingFailed`).
`SizeMismatch` is not among them. -/
def BinArchive.from_bytes_mode : ArchiveError → Bool
  | .ArchiveTooSmall => true
  | .OutOfBoundsAddress _ _ => true
  | .IOError => true
  | .ConversionError => true
  | .UnterminatedString => true
  | .DecodingFailed => true
  | _ => false

/-- A computation that fails only inside `from_bytes`'s error modes. -/
def FBMode {α : Type} (m : Except ArchiveError α) : Prop :=
  ∀ err, m = Except.error err → BinArchive.from_bytes_mode err = true

/-- A success never fails. -/
theorem fbMode_ok {α : Type} (x : α) : FBMode (Except.ok x) :=
  fun _ h => Except.noConfusion h

/-- `pure` never fails. -/
theorem fbMode_pure {α : Type} (x : α) : FBMode (pure x : Except ArchiveError α) :=
  fun _ h => Except.noConfusion h

/-- Binds stay inside the modes when both stages do. -/
theorem fbMode_bind {α β : Type} {m : Except ArchiveError α}
    {f : α → Except ArchiveError β}
    (hm : FBMode m) (hf : ∀ a, FBMode (f a)) : FBMode (m >>= f) := by
  intro err h
  cases m with
  | ok a => exact hf a err h
  | error e =>
      simp only [Bind.bind, Except.bind] at h
      injection h with h2
      subst h2
      exact hm e rfl

/-- `validate_address` fails only with `OutOfBoundsAddress`. -/
theorem fbMode_validate_address (a s : Nat) (e : Bool) :
    FBMode (validate_address a s e) := by
  intro err h
  unfold validate_address at h
  split at h
  · injection h with h2
    subst h2
    rfl
  · exact Except.noConfusion h

/-- `decode_u32` fails only with `ConversionError`. -/
theorem fbMode_decode_u32 (e : Endian) (l : List Nat) : FBMode (e.decode_u32 l) := by
  intro err h
  unfold Endian.decode_u32 at h
  split at h <;>
    first
      | exact Except.noConfusion h
      | (injection h with h2; subst h2; rfl)

/-- `cursorReadU32` fails only with `IOError` or a codec error. -/
theorem fbMode_cursorReadU32 (bytes : List Nat) (e : Endian) (pos : Nat) :
    FBMode (cursorReadU32 bytes e pos) := by
  unfold cursorReadU32
  split
  · exact fbMode_bind (fbMode_decode_u32 e _) (fun v => fbMode_ok _)
  · intro err h
    injection h with h2
    subst h2
    rfl

/-- `cursorReadExact` fails only with `IOError`. -/
theorem fbMode_cursorReadExact (bytes : List Nat) (pos amount : Nat) :
    FBMode (cursorReadExact bytes pos amount) := by
  unfold cursorReadExact
  split
  · exact fbMode_ok _
  · intro err h
    injection h with h2
    subst h2
    rfl

/-- `cursorReadShiftJis` fails only with a string codec error. -/
theorem fbMode_cursorReadShiftJis (bytes : List Nat) (pos : Nat) :
    FBMode (cursorReadShiftJis bytes pos) := by
  unfold cursorReadShiftJis
  split
  · intro err h
    injection h with h2
    subst h2
    rfl
  · unfold decode_shift_jis
    split
    · exact fbMode_ok _
    · intro err h
      injection h with h2
      subst h2
      rfl

/-- `BinArchive::read_u32` fails only inside the modes. -/
theorem fbMode_read_u32 (st : BinArchive) (address : Nat) :
    FBMode (st.read_u32 address) := by
  unfold BinArchive.read_u32
  exact fbMode_bind (fbMode_validate_address _ _ _)
    (fun _ => fbMode_bind (fbMode_validate_address _ _ _) (fun _ => fbMode_decode_u32 _ _))

/-- `BinArchive::write_string` fails only inside the modes. -/
theorem fbMode_write_string (st : BinArchive) (address : Nat) (v : Option String) :
    FBMode (st.write_string address v) := by
  unfold BinArchive.write_string
  cases v with
  | some s =>
      exact fbMode_bind (fbMode_validate_address _ _ _)
        (fun _ => fbMode_bind (fbMode_validate_address _ _ _) (fun _ => fbMode_pure _))
  | none =>
      unfold BinArchive.delete_string
      exact fbMode_bind (fbMode_validate_address _ _ _)
        (fun _ => fbMode_bind (fbMode_validate_address _ _ _) (fun _ => fbMode_pure _))

/-- `BinArchive::write_pointer` fails only inside the modes. -/
theorem fbMode_write_pointer (st : BinArchive) (address : Nat) (v : Option Nat) :
    FBMode (st.write_pointer address v) := by
  unfold BinArchive.write_pointer
  cases v with
  | some p =>
      exact fbMode_bind (fbMode_validate_address _ _ _)
        (fun _ => fbMode_bind (fbMode_validate_address _ _ _) (fun _ => fbMode_pure _))
  | none =>
      unfold BinArchive.delete_pointer
      exact fbMode_bind (fbMode_validate_address _ _ _)
        (fun _ => fbMode_bind (fbMode_validate_address _ _ _) (fun _ => fbMode_pure _))

/-- `BinArchive::write_label` fails only inside the modes. -/
theorem fbMode_write_label (st : BinArchive) (address : Nat) (label : String) :
    FBMode (st.write_label address label) := by
  unfold BinArchive.write_label
  apply fbMode_bind (fbMode_validate_address _ _ _)
  intro _
  split
  · exact fbMode_pure _
  · exact fbMode_pure _

/-- The pointer loop of `from_bytes` fails only inside the modes. -/
theorem fbMode_pointerLoop (bytes : List Nat) (e : Endian) (ds : Nat) :
    ∀ (n : Nat) (archive : BinArchive) (pos : Nat),
      FBMode (fromBytesPointerLoop bytes e ds n archive pos) := by
  intro n
  induction n with
  | zero =>
      intro archive pos
      exact fbMode_ok _
  | succ n ih =>
      intro archive pos
      unfold fromBytesPointerLoop
      apply fbMode_bind (fbMode_cursorReadU32 _ _ _)
      rintro ⟨pa, pos'⟩
      apply fbMode_bind (fbMode_read_u32 _ _)
      intro pv
      split
      · apply fbMode_bind (fbMode_cursorReadShiftJis _ _)
        intro s
        apply fbMode_bind (fbMode_write_string _ _ _)
        intro arch'
        exact ih arch' pos'
      · apply fbMode_bind (fbMode_write_pointer _ _ _)
        intro arch'
        exact ih arch' pos'

/-- The label loop of `from_bytes` fails only inside the modes. -/
theorem fbMode_labelLoop (bytes : List Nat) (e : Endian) (ts : Nat) :
    ∀ (n : Nat) (archive : BinArchive) (pos : Nat),
      FBMode (fromBytesLabelLoop bytes e ts n archive pos) := by
  intro n
  induction n with
  | zero =>
      intro archive pos
      exact fbMode_ok _
  | succ n ih =>
      intro archive pos
      unfold fromBytesLabelLoop
      apply fbMode_bind (fbMode_cursorReadU32 _ _ _)
      rintro ⟨address, pos'⟩
      apply fbMode_bind (fbMode_cursorReadU32 _ _ _)
      rintro ⟨offset, pos''⟩
      apply fbMode_bind (fbMode_cursorReadShiftJis _ _)
      intro s
      apply fbMode_bind (fbMode_write_label _ _ _)
      intro arch'
      exact ih arch' pos''

/-- Every failure of `from_bytes` lies inside the modes. -/
theorem fbMode_from_bytes (bytes : List Nat) (e : Endian) :
    FBMode (BinArchive.from_bytes bytes e) := by
  unfold BinArchive.from_bytes
  split
  · intro err h
    injection h with h2
    subst h2
    rfl
  · apply fbMode_bind (fbMode_cursorReadU32 _ _ _)
    rintro ⟨ds, p1⟩
    apply fbMode_bind (fbMode_cursorReadU32 _ _ _)
    rintro ⟨pc, p2⟩
    apply fbMode_bind (fbMode_cursorReadU32 _ _ _)
    rintro ⟨lc, p3⟩
    split
    rename_i pa pos heq
    injection heq with h1 h2
    subst h1
    subst h2
    dsimp only
    split
    · intro err h
      injection h with h2
      subst h2
      rfl
    · apply fbMode_bind (fbMode_cursorReadExact _ _ _)
      intro data
      apply fbMode_bind (fbMode_pointerLoop _ _ _ _ _ _)
      rintro ⟨arch, pos⟩
      apply fbMode_bind (fbMode_labelLoop _ _ _ _ _ _)
      rintro ⟨arch', pos'⟩
      exact fbMode_ok _

/-- C4 (amended): `from_bytes` performs no size-field check at all — it
starts reading at offset 4 and can never fail with `SizeMismatch`.  Its
failure modes are exactly captured by `from_bytes_mode`: `ArchiveTooSmall`,
`OutOfBoundsAddress` (a bad internal pointer or label address), and the
propagated cursor/codec errors (`IOError`, `ConversionError`,
`UnterminatedString`, `DecodingFailed`); the mode set is proved complete
over all inputs, and `OutOfBoundsAddress` is reached by a concrete buffer
whose pointer table names address 64 in a 4-byte data region. -/
theorem from_bytes_error_modes :
    (∀ (bytes : List Nat) (e : Endian) (err : ArchiveError),
        BinArchive.from_bytes bytes e = Except.error err →
        BinArchive.from_bytes_mode err = true) ∧
    (∀ (bytes : List Nat) (e : Endian),
        BinArchive.from_bytes bytes e ≠ Except.error ArchiveError.SizeMismatch) ∧
    BinArchive.from_bytes
        ([0, 0, 0, 0, 4, 0, 0, 0, 1, 0, 0, 0, 0, 0, 0, 0] ++
          List.replicate 16 0 ++ [0, 0, 0, 0, 64, 0, 0, 0]) Endian.Little =
      Except.error (ArchiveError.OutOfBoundsAddress 64 4) := by
  refine ⟨fun bytes e err h => fbMode_from_bytes bytes e err h, fun bytes e h => ?_, by decide⟩
  have := fbMode_from_bytes bytes e ArchiveError.SizeMismatch h
  simp [BinArchive.from_bytes_mode] at this

/-- Witness for C4: the modes theorem applied at the bad-internal-pointer
buffer, whose failure is `OutOfBoundsAddress`. -/
theorem from_bytes_error_modes_witness :
    BinArchive.from_bytes_mode (ArchiveError.OutOfBoundsAddress 64 4) = true :=
  from_bytes_error_modes.1
    ([0, 0, 0, 0, 4, 0, 0, 0, 1, 0, 0, 0, 0, 0, 0, 0] ++
      List.replicate 16 0 ++ [0, 0, 0, 0, 64, 0, 0, 0]) Endian.Little
    (ArchiveError.OutOfBoundsAddress 64 4) (by decide)

/-- Counterexample for C4 as stated: the size field of this buffer is 255
while its length is 32, yet `from_bytes` succeeds instead of failing with
`SizeMismatch`. -/
theorem from_bytes_error_modes_counterexample :
    Endian.decode_u32 .Little ((255 :: List.replicate 31 0).take 4) = Except.ok 255 ∧
    (255 :: List.replicate 31 0 : List Nat).length = 32 ∧
    BinArchive.from_bytes (255 :: List.replicate 31 0) .Little =
      Except.ok (⟨[], [], [], [], [], .Little⟩ : BinArchive) := by
  decide

/-- With pairwise-distinct keys, lookup success is exactly membership. -/
theorem mlookup_eq_some_iff_mem {κ α : Type} [DecidableEq κ] {l : List (κ × α)}
    (hdist : l.Pairwise (fun p q => p.1 ≠ q.1)) {k : κ} {v : α} :
    mlookup l k = some v ↔ (k, v) ∈ l := by
  induction l with
  | nil => simp [mlookup]
  | cons p rest ih =>
      obtain ⟨hhead, htail⟩ := List.pairwise_cons.mp hdist
      simp only [mlookup, List.mem_cons]
      by_cases h : p.1 = k
      · subst h
        rw [if_pos rfl]
        constructor
        · intro h
          left
          have h2 : p.2 = v := Option.some.inj h
          rw [← h2]
        · rintro (h | h)
          · have h2 : v = p.2 := congrArg Prod.snd h
            rw [h2]
          · exact absurd rfl (hhead (p.1, v) h)
      · rw [if_neg h, ih htail]
        constructor
        · exact fun hm => Or.inr hm
        · rintro (hp | hm)
          · cases hp
            exact absurd rfl h
          · exact hm

/-- The words at even positions of a word list (the label-table addresses). -/
def evenWords : List Nat → List Nat
  | [] => []
  | [a] => [a]
  | a :: _ :: rest => a :: evenWords rest

/-- Appending one `(address, offset)` word pair to an even-length word list
appends one address to the even-position words. -/
theorem evenWords_append_pair (a o : Nat) :
    ∀ (l : List Nat), l.length % 2 = 0 → evenWords (l ++ [a, o]) = evenWords l ++ [a] := by
  intro l
  induction l using evenWords.induct with
  | case1 => intro _; rfl
  | case2 x => intro h; simp at h
  | case3 x y rest ih =>
      intro h
      simp only [List.length_cons] at h
      have := ih (by omega)
      simp only [List.cons_append, evenWords]
      exact congrArg (List.cons x) this

/-- The `(address, label)` pairs in the order the label emission loop of
`serialize` visits them (lines 311-317): buckets in sorted order, each
bucket's labels in stored order. -/
def labelEmissionPairs (e : Endian) (labels : List (Nat × List String)) :
    List (Nat × String) :=
  (sortLabelEntries e labels).flatMap (fun p => p.2.map (fun l => (p.1, l)))

/-- One bucket's emission appends its address once per label at the even
word positions. -/
theorem labelBucketFold_words (address : Nat) :
    ∀ (bucket : List String) (raw_text : List Nat) (offsets : List (String × Nat))
      (raw_labels : List Nat) rt' offs' rl',
      labelBucketFold address bucket raw_text offsets raw_labels =
        Except.ok (rt', offs', rl') →
      raw_labels.length % 2 = 0 →
      evenWords rl' = evenWords raw_labels ++ List.replicate bucket.length address ∧
        rl'.length % 2 = 0 := by
  intro bucket
  induction bucket with
  | nil =>
      intro raw_text offsets raw_labels rt' offs' rl' h he
      simp only [labelBucketFold, Except.ok.injEq, Prod.mk.injEq] at h
      obtain ⟨h1, h2, h3⟩ := h
      subst h3
      simp [he]
  | cons label more ih =>
      intro raw_text offsets raw_labels rt' offs' rl' h he
      unfold labelBucketFold at h
      rw [exceptBind_ok] at h
      obtain ⟨⟨offset, rt2, offs2⟩, ha, hrec⟩ := h
      obtain ⟨h1, h2⟩ := ih rt2 offs2 (raw_labels ++ [address, offset]) rt' offs' rl' hrec
        (by simp; omega)
      rw [evenWords_append_pair address offset raw_labels he] at h1
      refine ⟨?_, h2⟩
      rw [h1]
      simp [List.replicate_succ]

/-- The whole label emission lists, at even word positions, each sorted
bucket's address once per label, in bucket order. -/
theorem labelFold_words :
    ∀ (entries : List (Nat × List String)) (raw_text : List Nat)
      (offsets : List (String × Nat)) (raw_labels : List Nat) rt' offs' rl',
      labelFold entries raw_text offsets raw_labels = Except.ok (rt', offs', rl') →
      raw_labels.length % 2 = 0 →
      evenWords rl' = evenWords raw_labels ++
        entries.flatMap (fun p => List.replicate p.2.length p.1) := by
  intro entries
  induction entries with
  | nil =>
      intro raw_text offsets raw_labels rt' offs' rl' h he
      simp only [labelFold, Except.ok.injEq, Prod.mk.injEq] at h
      obtain ⟨h1, h2, h3⟩ := h
      subst h3
      simp
  | cons p rest ih =>
      rcases p with ⟨address, bucket⟩
      intro raw_text offsets raw_labels rt' offs' rl' h he
      unfold labelFold at h
      rw [exceptBind_ok] at h
      obtain ⟨⟨rt2, offs2, rl2⟩, hb, hrec⟩ := h
      obtain ⟨h1, h2⟩ := labelBucketFold_words address bucket raw_text offsets raw_labels
        rt2 offs2 rl2 hb he
      have h3 := ih rt2 offs2 rl2 rt' offs' rl' hrec h2
      rw [h3, h1]
      simp [List.append_assoc]

/-- Filtering the flattened emission at one address recovers that address's
bucket, when keys are pairwise distinct. -/
theorem flatMap_filter_key {l : List (Nat × List String)} {addr : Nat}
    (hdist : l.Pairwise (fun p q => p.1 ≠ q.1)) :
    ((l.flatMap (fun p => p.2.map (fun s => (p.1, s)))).filter
        (fun q => decide (q.1 = addr))).map Prod.snd
      = (mlookup l addr).getD [] := by
  induction l with
  | nil => simp [mlookup]
  | cons p rest ih =>
      obtain ⟨hhead, htail⟩ := List.pairwise_cons.mp hdist
      simp only [List.flatMap_cons, List.filter_append, List.map_append, mlookup]
      by_cases h : p.1 = addr
      · rw [if_pos h]
        have hkeep : (p.2.map (fun s => (p.1, s))).filter (fun q => decide (q.1 = addr))
            = p.2.map (fun s => (p.1, s)) := by
          apply List.filter_eq_self.mpr
          intro q hq
          obtain ⟨s, hs, rfl⟩ := List.mem_map.mp hq
          simpa using h
        have hrest : (rest.flatMap (fun p => p.2.map (fun s => (p.1, s)))).filter
            (fun q => decide (q.1 = addr)) = [] := by
          apply List.filter_eq_nil_iff.mpr
          intro q hq
          obtain ⟨r, hr, hq2⟩ := List.mem_flatMap.mp hq
          obtain ⟨s, hs, rfl⟩ := List.mem_map.mp hq2
          simpa using fun hc => (hhead r hr) (h.trans hc.symm)
        rw [hkeep, hrest]
        simp
      · rw [if_neg h]
        have hdrop : (p.2.map (fun s => (p.1, s))).filter (fun q => decide (q.1 = addr))
            = [] := by
          apply List.filter_eq_nil_iff.mpr
          intro q hq
          obtain ⟨s, hs, rfl⟩ := List.mem_map.mp hq
          simpa using h
        rw [hdrop, ih htail]
        simp

/-- C5: `serialize` emits the label table bucket-by-bucket, sorted by source
address for little-endian stores and by the bucket's label-name vector
(lexicographically, which for single-label buckets is label-name order) for
big-endian stores; no bucket is gained or lost, within each bucket the
stored label order is preserved, and the even word positions of the emitted
table are exactly the visited addresses. -/
theorem serialize_label_order (e : Endian) (labels : List (Nat × List String))
    (hkeys : labels.Pairwise (fun p q => p.1 ≠ q.1)) :
    (sortLabelEntries e labels).Perm labels ∧
    (e = .Little → (sortLabelEntries e labels).Pairwise (fun p q => p.1 ≤ q.1)) ∧
    (e = .Big → (sortLabelEntries e labels).Pairwise (fun p q => p.2 ≤ q.2)) ∧
    (∀ raw_text offsets raw_labels,
        labelFold (sortLabelEntries e labels) [] [] [] =
          Except.ok (raw_text, offsets, raw_labels) →
        evenWords raw_labels = (labelEmissionPairs e labels).map Prod.fst) ∧
    (∀ addr, ((labelEmissionPairs e labels).filter
          (fun q => decide (q.1 = addr))).map Prod.snd
        = (mlookup labels addr).getD []) := by
  have hperm : (sortLabelEntries e labels).Perm labels := by
    cases e <;> exact List.perm_insertionSort _ _
  have hdist2 : (sortLabelEntries e labels).Pairwise (fun p q => p.1 ≠ q.1) :=
    (hperm.pairwise_iff (fun h => Ne.symm h)).mpr hkeys
  refine ⟨hperm, ?_, ?_, ?_, ?_⟩
  · rintro rfl
    have : IsTotal (Nat × List String) (fun p q => p.1 ≤ q.1) :=
      ⟨fun a b => Nat.le_total a.1 b.1⟩
    have : IsTrans (Nat × List String) (fun p q => p.1 ≤ q.1) :=
      ⟨fun a b c hab hbc => le_trans hab hbc⟩
    exact List.sorted_insertionSort _ labels
  · rintro rfl
    have : IsTotal (Nat × List String) (fun p q => p.2 ≤ q.2) :=
      ⟨fun a b => le_total a.2 b.2⟩
    have : IsTrans (Nat × List String) (fun p q => p.2 ≤ q.2) :=
      ⟨fun a b c hab hbc => le_trans hab hbc⟩
    exact List.sorted_insertionSort _ labels
  · intro raw_text offsets raw_labels h
    have hw := labelFold_words (sortLabelEntries e labels) [] [] [] raw_text offsets
      raw_labels h (by simp)
    rw [hw]
    simp only [labelEmissionPairs, List.map_flatMap, List.map_map, evenWords,
      List.nil_append]
    congr 1
    funext p
    rw [show (Prod.fst ∘ fun l => (p.1, l)) = fun _ => p.1 from rfl, List.map_const']
  · intro addr
    have hml : mlookup (sortLabelEntries e labels) addr = mlookup labels addr := by
      cases hcase : mlookup labels addr with
      | some v =>
          rw [mlookup_eq_some_iff_mem hdist2]
          exact hperm.mem_iff.mpr ((mlookup_eq_some_iff_mem hkeys).mp hcase)
      | none =>
          rw [mlookup_eq_none]
          intro p hp
          exact mlookup_eq_none.mp hcase p (hperm.mem_iff.mp hp)
    rw [labelEmissionPairs, flatMap_filter_key hdist2, hml]

/-- Witness for C5: a concrete little-endian store whose emission is sorted
by address, with the two-label bucket kept in stored order. -/
theorem serialize_label_order_witness :
    (sortLabelEntries .Little [(4, ["B", "A"]), (0, ["C"])]).Pairwise
      (fun p q => p.1 ≤ q.1) ∧
    ((labelEmissionPairs .Little [(4, ["B", "A"]), (0, ["C"])]).filter
        (fun q => decide (q.1 = 4))).map Prod.snd = ["B", "A"] := by
  have h := serialize_label_order .Little [(4, ["B", "A"]), (0, ["C"])] (by decide)
  exact ⟨h.2.1 rfl, (h.2.2.2.2 4).trans (by decide)⟩

/-- Lookup success is membership among the keys. -/
theorem mlookup_isSome_iff {κ α : Type} [DecidableEq κ] {l : List (κ × α)} {k : κ} :
    (mlookup l k).isSome = true ↔ k ∈ l.map Prod.fst := by
  induction l with
  | nil => simp [mlookup]
  | cons p rest ih =>
      simp only [mlookup, List.map_cons, List.mem_cons]
      by_cases h : p.1 = k
      · simp [h]
      · simp only [if_neg h, ih]
        constructor
        · exact fun hm => Or.inr hm
        · rintro (hp | hm)
          · exact absurd hp.symm h
          · exact hm

/-- Interning a sequence of strings one by one, as every section of
`serialize` does with `add_text`. -/
def addTextList : List String → List Nat → List (String × Nat) →
    Except ArchiveError (List Nat × List (String × Nat))
  | [], raw, offs => .ok (raw, offs)
  | s :: rest, raw, offs => do
      let (_, raw, offs) ← add_text raw offs s
      addTextList rest raw offs

/-- The subsequence of first occurrences of values not yet interned. -/
def firstOccurrencesNotIn (seen : List String) : List String → List String
  | [] => []
  | s :: rest =>
      if s ∈ seen then firstOccurrencesNotIn seen rest
      else s :: firstOccurrencesNotIn (seen ++ [s]) rest


/-- C6: the text section deduplicates by value — interning any sequence of
strings appends each distinct not-yet-interned value's encoded bytes (and
terminator) exactly once, at its first occurrence — and concretely, the
little-endian store with 8 zero data bytes and text value "AB" at offsets 0
and 4 serializes to the 0x33-byte buffer containing a single copy of
`"AB\0"`. -/
theorem serialize_text_dedup :
    (∀ (xs : List String) (raw : List Nat) (offs : List (String × Nat)) raw' offs',
        addTextList xs raw offs = Except.ok (raw', offs') →
        raw' = raw ++ (firstOccurrencesNotIn (offs.map Prod.fst) xs).flatMap
          (fun s => s.data.map Char.toNat ++ [0])) ∧
    BinArchive.serialize ⟨[0, 0, 0, 0, 0, 0, 0, 0], [(0, "AB"), (4, "AB")], [], [], [],
        .Little⟩ =
      Except.ok ([51, 0, 0, 0, 8, 0, 0, 0, 2, 0, 0, 0, 0, 0, 0, 0] ++
        List.replicate 16 0 ++
        [16, 0, 0, 0, 16, 0, 0, 0, 0, 0, 0, 0, 4, 0, 0, 0, 65, 66, 0]) ∧
    (([51, 0, 0, 0, 8, 0, 0, 0, 2, 0, 0, 0, 0, 0, 0, 0] ++
        List.replicate 16 0 ++
        [16, 0, 0, 0, 16, 0, 0, 0, 0, 0, 0, 0, 4, 0, 0, 0, 65, 66, 0]) : List Nat).length
      = 0x33 := by
  refine ⟨?_, by decide, by decide⟩
  intro xs
  induction xs with
  | nil =>
      intro raw offs raw' offs' h
      simp only [addTextList, Except.ok.injEq, Prod.mk.injEq] at h
      obtain ⟨h1, h2⟩ := h
      subst h1
      simp [firstOccurrencesNotIn]
  | cons s rest ih =>
      intro raw offs raw' offs' h
      unfold addTextList at h
      rw [exceptBind_ok] at h
      obtain ⟨⟨offset, raw2, offs2⟩, ha, hrec⟩ := h
      unfold add_text at ha
      cases hml : mlookup offs s with
      | some v =>
          rw [hml] at ha
          simp only [Except.ok.injEq, Prod.mk.injEq] at ha
          obtain ⟨h1, h2, h3⟩ := ha
          subst h2
          subst h3
          have hrec2 : addTextList rest raw offs = Except.ok (raw', offs') := hrec
          rw [ih raw offs raw' offs' hrec2]
          rw [firstOccurrencesNotIn,
            if_pos (mlookup_isSome_iff.mp (by rw [hml]; rfl))]
      | none =>
          rw [hml] at ha
          split at ha
          · rename_i heq
            simp at heq
          · unfold to_shift_jis at ha
            split at ha
            · rw [exceptBind_ok_left] at ha
              simp only [Except.ok.injEq, Prod.mk.injEq] at ha
              obtain ⟨h1, h2, h3⟩ := ha
              subst h2
              subst h3
              have hrec2 : addTextList rest (raw ++ List.map Char.toNat s.data ++ [0])
                  (offs ++ [(s, raw.length)]) = Except.ok (raw', offs') := hrec
              have hnot : ¬ s ∈ offs.map Prod.fst := by
                intro hmem
                have hs : (mlookup offs s).isSome = true := mlookup_isSome_iff.mpr hmem
                rw [hml] at hs
                simp at hs
              rw [ih _ _ raw' offs' hrec2]
              rw [firstOccurrencesNotIn, if_neg hnot]
              simp [List.append_assoc]
            · simp [Bind.bind, Except.bind] at ha

/-- Witness for C6: interning "AB" twice produces one copy of its bytes. -/
theorem serialize_text_dedup_witness :
    addTextList ["AB", "AB"] [] [] = Except.ok ([65, 66, 0], [("AB", 0)]) ∧
    ([65, 66, 0] : List Nat) =
      [] ++ (firstOccurrencesNotIn [] ["AB", "AB"]).flatMap
        (fun s => s.data.map Char.toNat ++ [0]) :=
  ⟨by decide, serialize_text_dedup.1 ["AB", "AB"] [] [] [65, 66, 0] [("AB", 0)] (by decide)⟩

/-- `src/bin_streams.rs` `BinArchiveReader`, as a state monad over the
cursor position (the borrowed archive is a fixed parameter). -/
def readU8R (a : BinArchive) : StateT Nat (Except ArchiveError) Nat := fun p => do
  let v ← a.read_u8 p
  pure (v, p + 1)

/-- `BinArchiveReader::read_u32`. -/
def readU32R (a : BinArchive) : StateT Nat (Except ArchiveError) Nat := fun p => do
  let v ← a.read_u32 p
  pure (v, p + 4)

/-- `BinArchiveReader::read_f32` (the float travels as its bit pattern). -/
def readF32R (a : BinArchive) : StateT Nat (Except ArchiveError) Nat := fun p => do
  let v ← a.read_f32 p
  pure (v, p + 4)

/-- `BinArchiveReader::read_string`. -/
def readStringR (a : BinArchive) : StateT Nat (Except ArchiveError) (Option String) := fun p => do
  let v ← a.read_string p
  pure (v, p + 4)

/-- `BinArchiveReader::read_bytes`: `count` sequential `read_u8`s. -/
def readBytesR (a : BinArchive) : Nat → StateT Nat (Except ArchiveError) (List Nat)
  | 0 => pure []
  | n + 1 => do
      let b ← readU8R a
      let rest ← readBytesR a n
      pure (b :: rest)

/-- `read_flag_str` (asset_binary.rs lines 86-98). -/
def read_flag_str (a : BinArchive) (flags : List Nat) (index : Nat) :
    StateT Nat (Except ArchiveError) (Option String) :=
  if index / 8 ≥ flags.length ∨ (flags.getD (index / 8) 0) &&& (1 <<< (index % 8)) = 0 then
    pure none
  else readStringR a

/-- The byte swap of `read_color`/`write_color` (asset_binary.rs lines
110-126): bytes 0 and 2 exchanged. -/
def swap02 : List Nat → List Nat
  | [b0, b1, b2, b3] => [b2, b1, b0, b3]
  | l => l

/-- `read_color` (asset_binary.rs lines 110-118). -/
def read_color (a : BinArchive) : StateT Nat (Except ArchiveError) (List Nat) := do
  let bytes ← readBytesR a 4
  pure (swap02 bytes)

/-- `src/asset_binary.rs` `AssetSpec`; colors are 4-byte lists and `f32`
fields carry bit patterns. -/
structure AssetSpec : Type where
  name : Option String
  conditional1 : Option String
  conditional2 : Option String
  body_model : Option String
  body_texture : Option String
  head_model : Option String
  head_texture : Option String
  hair_model : Option String
  hair_texture : Option String
  outer_clothing_model : Option String
  outer_clothing_texture : Option String
  underwear_model : Option String
  underwear_texture : Option String
  mount_model : Option String
  mount_texture : Option String
  mount_outer_clothing_model : Option String
  mount_outer_clothing_texture : Option String
  weapon_model_dual : Option String
  weapon_model : Option String
  skeleton : Option String
  mount_skeleton : Option String
  accessory1_model : Option String
  accessory1_texture : Option String
  accessory2_model : Option String
  accessory2_texture : Option String
  accessory3_model : Option String
  accessory3_texture : Option String
  attack_animation : Option String
  attack_animation2 : Option String
  visual_effect : Option String
  hid : Option String
  footstep_sound : Option String
  clothing_sound : Option String
  voice : Option String
  hair_color : List Nat
  use_hair_color : Bool
  skin_color : List Nat
  use_skin_color : Bool
  weapon_trail_color : List Nat
  use_weapon_trail_color : Bool
  model_size : Nat
  use_model_size : Bool
  head_size : Nat
  use_head_size : Bool
  pupil_y : Nat
  use_pupil_y : Bool
  unk3 : Nat
  use_unk3 : Bool
  unk4 : Nat
  use_unk4 : Bool
  unk5 : Nat
  use_unk5 : Bool
  unk6 : Nat
  use_unk6 : Bool
  bitflags : List Nat
  use_bitflags : Bool
  unk7 : Nat
  use_unk7 : Bool
  unk8 : Nat
  use_unk8 : Bool
  unk9 : Nat
  use_unk9 : Bool
  unk10 : Nat
  use_unk10 : Bool
  unk11 : Nat
  use_unk11 : Bool
  unk12 : Nat
  use_unk12 : Bool
  unk13 : Nat
  use_unk13 : Bool
deriving DecidableEq, Repr

/-- `AssetSpec::new` / `Default::default()`. -/
def AssetSpec.new : AssetSpec where
  name := none
  conditional1 := none
  conditional2 := none
  body_model := none
  body_texture := none
  head_model := none
  head_texture := none
  hair_model := none
  hair_texture := none
  outer_clothing_model := none
  outer_clothing_texture := none
  underwear_model := none
  underwear_texture := none
  mount_model := none
  mount_texture := none
  mount_outer_clothing_model := none
  mount_outer_clothing_texture := none
  weapon_model_dual := none
  weapon_model := none
  skeleton := none
  mount_skeleton := none
  accessory1_model := none
  accessory1_texture := none
  accessory2_model := none
  accessory2_texture := none
  accessory3_model := none
  accessory3_texture := none
  attack_animation := none
  attack_animation2 := none
  visual_effect := none
  hid := none
  footstep_sound := none
  clothing_sound := none
  voice := none
  hair_color := [0, 0, 0, 0]
  use_hair_color := false
  skin_color := [0, 0, 0, 0]
  use_skin_color := false
  weapon_trail_color := [0, 0, 0, 0]
  use_weapon_trail_color := false
  model_size := 0
  use_model_size := false
  head_size := 0
  use_head_size := false
  pupil_y := 0
  use_pupil_y := false
  unk3 := 0
  use_unk3 := false
  unk4 := 0
  use_unk4 := false
  unk5 := 0
  use_unk5 := false
  unk6 := 0
  use_unk6 := false
  bitflags := [0, 0, 0, 0]
  use_bitflags := false
  unk7 := 0
  use_unk7 := false
  unk8 := 0
  use_unk8 := false
  unk9 := 0
  use_unk9 := false
  unk10 := 0
  use_unk10 := false
  unk11 := 0
  use_unk11 := false
  unk12 := 0
  use_unk12 := false
  unk13 := 0
  use_unk13 := false

/-- `AssetSpec::from_stream` (asset_binary.rs lines 145-269), after the
leading seed byte `raw` has been read: the remaining flag bytes, the
unconditional name, the bitmap-guarded string fields, and — when the
extension bit widened the bitmap — the guarded numeric fields, in the
source's read order.  The source sets each `use_*` flag exactly when the
corresponding bit is set, so the flags are computed from the bits here. -/
def AssetSpec.from_stream_rest (a : BinArchive) (raw : Nat) :
    StateT Nat (Except ArchiveError) AssetSpec := do
  let flag_count := 3 + (if raw &&& 1 = 1 then 4 else 0)
  let ext ← readBytesR a flag_count
  let flags := raw :: ext
  let name ← readStringR a
  let conditional1 ← read_flag_str a flags 1
  let conditional2 ← read_flag_str a flags 2
  let body_model ← read_flag_str a flags 3
  let body_texture ← read_flag_str a flags 4
  let head_model ← read_flag_str a flags 5
  let head_texture ← read_flag_str a flags 6
  let hair_model ← read_flag_str a flags 7
  let hair_texture ← read_flag_str a flags 8
  let outer_clothing_model ← read_flag_str a flags 9
  let outer_clothing_texture ← read_flag_str a flags 10
  let underwear_model ← read_flag_str a flags 11
  let underwear_texture ← read_flag_str a flags 12
  let mount_model ← read_flag_str a flags 13
  let mount_texture ← read_flag_str a flags 14
  let mount_outer_clothing_model ← read_flag_str a flags 15
  let mount_outer_clothing_texture ← read_flag_str a flags 16
  let weapon_model_dual ← read_flag_str a flags 17
  let weapon_model ← read_flag_str a flags 18
  let skeleton ← read_flag_str a flags 19
  let mount_skeleton ← read_flag_str a flags 20
  let accessory1_model ← read_flag_str a flags 21
  let accessory1_texture ← read_flag_str a flags 22
  let accessory2_model ← read_flag_str a flags 23
  let accessory2_texture ← read_flag_str a flags 24
  let accessory3_model ← read_flag_str a flags 25
  let accessory3_texture ← read_flag_str a flags 26
  let attack_animation ← read_flag_str a flags 27
  let attack_animation2 ← read_flag_str a flags 28
  let visual_effect ← read_flag_str a flags 29
  let hid ← read_flag_str a flags 30
  let footstep_sound ← read_flag_str a flags 31
  if flag_count > 3 then do
    let clothing_sound ← read_flag_str a flags 32
    let voice ← read_flag_str a flags 33
    let hair_color ← if (flags.getD 4 0) &&& 4 ≠ 0 then read_color a else pure [0, 0, 0, 0]
    let skin_color ← if (flags.getD 4 0) &&& 8 ≠ 0 then read_color a else pure [0, 0, 0, 0]
    let weapon_trail_color ←
      if (flags.getD 4 0) &&& 16 ≠ 0 then read_color a else pure [0, 0, 0, 0]
    let model_size ← if (flags.getD 4 0) &&& 32 ≠ 0 then readF32R a else pure 0
    let head_size ← if (flags.getD 4 0) &&& 64 ≠ 0 then readF32R a else pure 0
    let pupil_y ← if (flags.getD 4 0) &&& 128 ≠ 0 then readF32R a else pure 0
    let unk3 ← if (flags.getD 5 0) &&& 1 ≠ 0 then readU32R a else pure 0
    let unk4 ← if (flags.getD 5 0) &&& 2 ≠ 0 then readU32R a else pure 0
    let unk5 ← if (flags.getD 5 0) &&& 4 ≠ 0 then readU32R a else pure 0
    let unk6 ← if (flags.getD 5 0) &&& 8 ≠ 0 then readU32R a else pure 0
    let bitflags ← if (flags.getD 5 0) &&& 16 ≠ 0 then read_color a else pure [0, 0, 0, 0]
    let unk7 ← if (flags.getD 5 0) &&& 32 ≠ 0 then readU32R a else pure 0
    let unk8 ← if (flags.getD 5 0) &&& 64 ≠ 0 then readU32R a else pure 0
    let unk9 ← if (flags.getD 5 0) &&& 128 ≠ 0 then readU32R a else pure 0
    let unk10 ← if (flags.getD 6 0) &&& 1 ≠ 0 then readU32R a else pure 0
    let unk11 ← if (flags.getD 6 0) &&& 2 ≠ 0 then readU32R a else pure 0
    let unk12 ← if (flags.getD 6 0) &&& 4 ≠ 0 then readU32R a else pure 0
    let unk13 ← if (flags.getD 6 0) &&& 8 ≠ 0 then readU32R a else pure 0
    pure { AssetSpec.new with
      name, conditional1, conditional2, body_model, body_texture, head_model,
      head_texture, hair_model, hair_texture, outer_clothing_model,
      outer_clothing_texture, underwear_model, underwear_texture, mount_model,
      mount_texture, mount_outer_clothing_model, mount_outer_clothing_texture,
      weapon_model_dual, weapon_model, skeleton, mount_skeleton, accessory1_model,
      accessory1_texture, accessory2_model, accessory2_texture, accessory3_model,
      accessory3_texture, attack_animation, attack_animation2, visual_effect, hid,
      footstep_sound, clothing_sound, voice,
      hair_color, use_hair_color := decide ((flags.getD 4 0) &&& 4 ≠ 0),
      skin_color, use_skin_color := decide ((flags.getD 4 0) &&& 8 ≠ 0),
      weapon_trail_color, use_weapon_trail_color := decide ((flags.getD 4 0) &&& 16 ≠ 0),
      model_size, use_model_size := decide ((flags.getD 4 0) &&& 32 ≠ 0),
      head_size, use_head_size := decide ((flags.getD 4 0) &&& 64 ≠ 0),
      pupil_y, use_pupil_y := decide ((flags.getD 4 0) &&& 128 ≠ 0),
      unk3, use_unk3 := decide ((flags.getD 5 0) &&& 1 ≠ 0),
      unk4, use_unk4 := decide ((flags.getD 5 0) &&& 2 ≠ 0),
      unk5, use_unk5 := decide ((flags.getD 5 0) &&& 4 ≠ 0),
      unk6, use_unk6 := decide ((flags.getD 5 0) &&& 8 ≠ 0),
      bitflags, use_bitflags := decide ((flags.getD 5 0) &&& 16 ≠ 0),
      unk7, use_unk7 := decide ((flags.getD 5 0) &&& 32 ≠ 0),
      unk8, use_unk8 := decide ((flags.getD 5 0) &&& 64 ≠ 0),
      unk9, use_unk9 := decide ((flags.getD 5 0) &&& 128 ≠ 0),
      unk10, use_unk10 := decide ((flags.getD 6 0) &&& 1 ≠ 0),
      unk11, use_unk11 := decide ((flags.getD 6 0) &&& 2 ≠ 0),
      unk12, use_unk12 := decide ((flags.getD 6 0) &&& 4 ≠ 0),
      unk13, use_unk13 := decide ((flags.getD 6 0) &&& 8 ≠ 0) }
  else
    pure { AssetSpec.new with
      name, conditional1, conditional2, body_model, body_texture, head_model,
      head_texture, hair_model, hair_texture, outer_clothing_model,
      outer_clothing_texture, underwear_model, underwear_texture, mount_model,
      mount_texture, mount_outer_clothing_model, mount_outer_clothing_texture,
      weapon_model_dual, weapon_model, skeleton, mount_skeleton, accessory1_model,
      accessory1_texture, accessory2_model, accessory2_texture, accessory3_model,
      accessory3_texture, attack_animation, attack_animation2, visual_effect, hid,
      footstep_sound }

/-- `AssetSpec::from_stream`: the seed byte, then the rest. -/
def AssetSpec.from_stream (a : BinArchive) : StateT Nat (Except ArchiveError) AssetSpec := do
  let raw ← readU8R a
  AssetSpec.from_stream_rest a raw

/-- A reader computation never moves the cursor backwards. -/
def PosMono {α : Type} (m : StateT Nat (Except ArchiveError) α) : Prop :=
  ∀ p x p', m p = Except.ok (x, p') → p ≤ p'

/-- `pure` keeps the cursor in place. -/
theorem posMono_pure {α : Type} (x : α) :
    PosMono (pure x : StateT Nat (Except ArchiveError) α) := by
  intro p y p' h
  simp only [pure, StateT.pure, Except.pure, Except.ok.injEq, Prod.mk.injEq] at h
  omega

/-- Monotone steps compose. -/
theorem posMono_bind {α β : Type} {m : StateT Nat (Except ArchiveError) α}
    {f : α → StateT Nat (Except ArchiveError) β}
    (hm : PosMono m) (hf : ∀ x, PosMono (f x)) : PosMono (m >>= f) := by
  intro p x p' h
  simp only [Bind.bind, StateT.bind] at h
  cases hm1 : m p with
  | error e =>
      rw [hm1] at h
      simp [Except.bind] at h
  | ok q =>
      rw [hm1] at h
      have h2 : f q.1 q.2 = Except.ok (x, p') := h
      exact le_trans (hm p q.1 q.2 (by rw [hm1])) (hf q.1 q.2 x p' h2)

/-- Branches of a conditional are monotone when both sides are. -/
theorem posMono_ite {α : Type} (c : Prop) [Decidable c]
    {m1 m2 : StateT Nat (Except ArchiveError) α}
    (h1 : PosMono m1) (h2 : PosMono m2) : PosMono (if c then m1 else m2) := by
  split
  · exact h1
  · exact h2

/-- A read that advances the cursor by a fixed width is monotone. -/
theorem posMono_of_step {α : Type} (g : Nat → Except ArchiveError α) (k : Nat) :
    PosMono (fun p => do
      let v ← g p
      pure (v, p + k)) := by
  intro p x p' h
  have h2 : Except.bind (g p) (fun v => Except.pure (v, p + k)) = Except.ok (x, p') := h
  cases hr : g p with
  | error e =>
      rw [hr] at h2
      simp [Except.bind] at h2
  | ok v =>
      rw [hr] at h2
      simp only [Except.bind, Except.pure, Except.ok.injEq, Prod.mk.injEq] at h2
      omega

/-- `read_u8` through the reader is monotone. -/
theorem posMono_readU8R (a : BinArchive) : PosMono (readU8R a) :=
  posMono_of_step (a.read_u8) 1

/-- `read_u32` through the reader is monotone. -/
theorem posMono_readU32R (a : BinArchive) : PosMono (readU32R a) :=
  posMono_of_step (a.read_u32) 4

/-- `read_f32` through the reader is monotone. -/
theorem posMono_readF32R (a : BinArchive) : PosMono (readF32R a) :=
  posMono_of_step (a.read_f32) 4

/-- `read_string` through the reader is monotone. -/
theorem posMono_readStringR (a : BinArchive) : PosMono (readStringR a) :=
  posMono_of_step (a.read_string) 4

/-- `read_bytes` through the reader is monotone. -/
theorem posMono_readBytesR (a : BinArchive) : ∀ n, PosMono (readBytesR a n) := by
  intro n
  induction n with
  | zero => exact posMono_pure []
  | succ n ih =>
      exact posMono_bind (posMono_readU8R a)
        (fun b => posMono_bind ih (fun rest => posMono_pure (b :: rest)))

/-- `read_flag_str` is monotone. -/
theorem posMono_read_flag_str (a : BinArchive) (flags : List Nat) (index : Nat) :
    PosMono (read_flag_str a flags index) := by
  unfold read_flag_str
  exact posMono_ite _ (posMono_pure none) (posMono_readStringR a)

/-- `read_color` is monotone. -/
theorem posMono_read_color (a : BinArchive) : PosMono (read_color a) := by
  unfold read_color
  exact posMono_bind (posMono_readBytesR a 4) (fun bytes => posMono_pure (swap02 bytes))

/-- A conditional read followed by a shared continuation (the shape of the
join points produced by `let x ← if c then read else pure d`). -/
theorem posMono_condStep {α β : Type} (c : Prop) [Decidable c]
    {r : StateT Nat (Except ArchiveError) α} {d : α}
    {k : α → StateT Nat (Except ArchiveError) β}
    (hr : PosMono r) (hk : ∀ x, PosMono (k x)) :
    PosMono (if c then r >>= k else pure d >>= k) := by
  split
  · exact posMono_bind hr hk
  · exact posMono_bind (posMono_pure d) hk

/-- The whole spec body parser is monotone. -/
theorem posMono_from_stream_rest (a : BinArchive) (raw : Nat) :
    PosMono (AssetSpec.from_stream_rest a raw) :=
  posMono_bind (posMono_readBytesR a _) fun _ =>
  posMono_bind (posMono_readStringR a) fun _ =>
  posMono_bind (posMono_read_flag_str a _ _) fun _ =>
  posMono_bind (posMono_read_flag_str a _ _) fun _ =>
  posMono_bind (posMono_read_flag_str a _ _) fun _ =>
  posMono_bind (posMono_read_flag_str a _ _) fun _ =>
  posMono_bind (posMono_read_flag_str a _ _) fun _ =>
  posMono_bind (posMono_read_flag_str a _ _) fun _ =>
  posMono_bind (posMono_read_flag_str a _ _) fun _ =>
  posMono_bind (posMono_read_flag_str a _ _) fun _ =>
  posMono_bind (posMono_read_flag_str a _ _) fun _ =>
  posMono_bind (posMono_read_flag_str a _ _) fun _ =>
  posMono_bind (posMono_read_flag_str a _ _) fun _ =>
  posMono_bind (posMono_read_flag_str a _ _) fun _ =>
  posMono_bind (posMono_read_flag_str a _ _) fun _ =>
  posMono_bind (posMono_read_flag_str a _ _) fun _ =>
  posMono_bind (posMono_read_flag_str a _ _) fun _ =>
  posMono_bind (posMono_read_flag_str a _ _) fun _ =>
  posMono_bind (posMono_read_flag_str a _ _) fun _ =>
  posMono_bind (posMono_read_flag_str a _ _) fun _ =>
  posMono_bind (posMono_read_flag_str a _ _) fun _ =>
  posMono_bind (posMono_read_flag_str a _ _) fun _ =>
  posMono_bind (posMono_read_flag_str a _ _) fun _ =>
  posMono_bind (posMono_read_flag_str a _ _) fun _ =>
  posMono_bind (posMono_read_flag_str a _ _) fun _ =>
  posMono_bind (posMono_read_flag_str a _ _) fun _ =>
  posMono_bind (posMono_read_flag_str a _ _) fun _ =>
  posMono_bind (posMono_read_flag_str a _ _) fun _ =>
  posMono_bind (posMono_read_flag_str a _ _) fun _ =>
  posMono_bind (posMono_read_flag_str a _ _) fun _ =>
  posMono_bind (posMono_read_flag_str a _ _) fun _ =>
  posMono_bind (posMono_read_flag_str a _ _) fun _ =>
  posMono_bind (posMono_read_flag_str a _ _) fun _ =>
  posMono_ite _
    (posMono_bind (posMono_read_flag_str a _ _) fun _ =>
     posMono_bind (posMono_read_flag_str a _ _) fun _ =>
     posMono_condStep _ (posMono_read_color a) fun _ =>
     posMono_condStep _ (posMono_read_color a) fun _ =>
     posMono_condStep _ (posMono_read_color a) fun _ =>
     posMono_condStep _ (posMono_readF32R a) fun _ =>
     posMono_condStep _ (posMono_readF32R a) fun _ =>
     posMono_condStep _ (posMono_readF32R a) fun _ =>
     posMono_condStep _ (posMono_readU32R a) fun _ =>
     posMono_condStep _ (posMono_readU32R a) fun _ =>
     posMono_condStep _ (posMono_readU32R a) fun _ =>
     posMono_condStep _ (posMono_readU32R a) fun _ =>
     posMono_condStep _ (posMono_read_color a) fun _ =>
     posMono_condStep _ (posMono_readU32R a) fun _ =>
     posMono_condStep _ (posMono_readU32R a) fun _ =>
     posMono_condStep _ (posMono_readU32R a) fun _ =>
     posMono_condStep _ (posMono_readU32R a) fun _ =>
     posMono_condStep _ (posMono_readU32R a) fun _ =>
     posMono_condStep _ (posMono_readU32R a) fun _ =>
     posMono_condStep _ (posMono_readU32R a) fun _ =>
     posMono_pure _)
    (posMono_pure _)
/-- A successful `read_u8` needs its address strictly inside the data. -/
theorem read_u8_ok_lt {a : BinArchive} {p v : Nat} (h : a.read_u8 p = Except.ok v) :
    p < a.size := by
  unfold BinArchive.read_u8 at h
  obtain ⟨u, hv, _⟩ := exceptBind_ok.mp h
  simpa using validate_address_ok.mp hv

/-- Inverting a successful StateT bind into its two stages. -/
theorem stateBind_ok {α β : Type} {m : StateT Nat (Except ArchiveError) α}
    {f : α → StateT Nat (Except ArchiveError) β} {p : Nat} {b : β} {p' : Nat}
    (h : (m >>= f) p = Except.ok (b, p')) :
    ∃ x q, m p = Except.ok (x, q) ∧ f x q = Except.ok (b, p') := by
  simp only [Bind.bind, StateT.bind] at h
  cases hm : m p with
  | error e =>
      rw [hm] at h
      simp [Except.bind] at h
  | ok r =>
      rw [hm] at h
      exact ⟨r.1, r.2, rfl, h⟩

/-- A successful `from_stream` starts strictly inside the archive and
strictly advances the cursor (the leading `read_u8` moves it, the rest
never moves it backwards). -/
theorem from_stream_advances {a : BinArchive} {p : Nat} {spec : AssetSpec} {p' : Nat}
    (h : AssetSpec.from_stream a p = Except.ok (spec, p')) :
    p < a.size ∧ p < p' := by
  unfold AssetSpec.from_stream at h
  obtain ⟨raw, q, hq, hrest⟩ := stateBind_ok h
  have hq2 : (a.read_u8 p >>= fun v => pure (v, p + 1)) = Except.ok (raw, q) := hq
  obtain ⟨v, hv, hpq⟩ := exceptBind_ok.mp hq2
  have hqv : (v, p + 1) = (raw, q) := exceptPure_ok.mp hpq
  injection hqv with h4 h5
  have h1 : p < a.size := read_u8_ok_lt hv
  have hmono := posMono_from_stream_rest a raw q spec p' hrest
  exact ⟨h1, by omega⟩

/-- The spec-reading loop of `AssetBinary::from_archive` (asset_binary.rs
lines 580-590): parse specs until the first failure, which ends the loop
silently. -/
def readSpecs (a : BinArchive) (p : Nat) : List AssetSpec :=
  match _h : AssetSpec.from_stream a p with
  | Except.error _ => []
  | Except.ok (spec, p') => spec :: readSpecs a p'
termination_by a.size + 1 - p
decreasing_by
  have := from_stream_advances _h
  omega

/-- `src/asset_binary.rs` `AssetBinary`. -/
structure AssetBinary : Type where
  flags : Nat
  specs : List AssetSpec

/-- `AssetBinary::from_archive` (asset_binary.rs lines 574-592): read the
flags word, then specs until the first failure. -/
def AssetBinary.from_archive (archive : BinArchive) : Except ArchiveError AssetBinary := do
  let (flags, pos) ← readU32R archive 0
  pure { flags := flags, specs := readSpecs archive pos }

/-- The sequence of specs parsed before the first failure, stated as a
relation directly on `from_stream` runs. -/
inductive SpecsUntilFailure (a : BinArchive) : Nat → List AssetSpec → Prop
  | stop {p : Nat} {e : ArchiveError} :
      AssetSpec.from_stream a p = Except.error e → SpecsUntilFailure a p []
  | step {p : Nat} {spec : AssetSpec} {p' : Nat} {rest : List AssetSpec} :
      AssetSpec.from_stream a p = Except.ok (spec, p') →
      SpecsUntilFailure a p' rest → SpecsUntilFailure a p (spec :: rest)

/-- The loop computes exactly the specs parsed before the first failure. -/
theorem readSpecs_untilFailure (a : BinArchive) (p : Nat) :
    SpecsUntilFailure a p (readSpecs a p) := by
  induction p using readSpecs.induct a with
  | case1 p e h =>
      rw [readSpecs, h]
      exact SpecsUntilFailure.stop h
  | case2 p spec p' h ih =>
      rw [readSpecs, h]
      exact SpecsUntilFailure.step h ih

/-- C9: `AssetBinary::from_archive` reads a single u32 flags word and then
a stream of asset specs, stopping at the first spec parse failure (end of
buffer included), which is silently swallowed: for every archive whose
initial flags word is readable, it returns `Ok` carrying the flags and
exactly the specs parsed before the first failure. -/
theorem from_archive_swallows_failure (a : BinArchive) (flags : Nat)
    (h : a.read_u32 0 = Except.ok flags) :
    ∃ specs, AssetBinary.from_archive a = Except.ok ⟨flags, specs⟩ ∧
      SpecsUntilFailure a 4 specs := by
  refine ⟨readSpecs a 4, ?_, readSpecs_untilFailure a 4⟩
  have h4 : readU32R a 0 = Except.ok (flags, 4) := by
    show (a.read_u32 0 >>= fun v => pure (v, 0 + 4)) = Except.ok (flags, 4)
    rw [h]
    rfl
  unfold AssetBinary.from_archive
  rw [h4]
  rfl

/-- Witness for C9 at a concrete four-byte archive: the flags word reads as
zero and the spec loop stops at the immediate end-of-buffer failure. -/
theorem from_archive_swallows_failure_witness :
    ∃ specs,
      AssetBinary.from_archive ⟨[0, 0, 0, 0], [], [], [], [], Endian.Little⟩ =
          Except.ok ⟨0, specs⟩ ∧
        SpecsUntilFailure ⟨[0, 0, 0, 0], [], [], [], [], Endian.Little⟩ 4 specs :=
  from_archive_swallows_failure ⟨[0, 0, 0, 0], [], [], [], [], Endian.Little⟩ 0 (by decide)
